import Mathlib

/-!
Verification of the sorting-algorithm analysis system.

The Python program is shallowly embedded: integer arrays become `List Int`,
in-place index mutation becomes `List.set`, and every loop becomes a
structurally or well-founded recursive function mirroring the source's
control flow.  Sources embedded here: `algorithms.py` (the `SortAlgorithms`
class), `analyzer.py` (`measure_sort`), `main.py` (`_run_analysis`), and
`gui.py` (the trace generators `_generate_steps`, `_gen_quicksort`,
`_gen_heapsort`, `_gen_shellsort`, `_gen_mergesort`, `_gen_radixsort`).
-/

set_option maxHeartbeats 1600000

namespace SortProof

/-- Read index `i` of an integer array (Python `a[i]`); all modelled accesses
are in bounds, so the default value 0 is never observable. -/
def geti (a : List Int) (i : Nat) : Int := a.getD i 0

/-- Python's simultaneous swap `a[i], a[j] = a[j], a[i]` (right-hand sides are
evaluated before any assignment happens). -/
def lswap (a : List Int) (i j : Nat) : List Int :=
  (a.set i (geti a j)).set j (geti a i)

@[simp] theorem length_lswap (a : List Int) (i j : Nat) :
    (lswap a i j).length = a.length := by
  simp [lswap]

theorem geti_eq_getElem (a : List Int) (i : Nat) (h : i < a.length) :
    geti a i = a[i] := by
  simp [geti, List.getD_eq_getElem?_getD, List.getElem?_eq_getElem h]

theorem geti_set_self (a : List Int) (i : Nat) (v : Int) (h : i < a.length) :
    geti (a.set i v) i = v := by
  simp [geti, List.getD_eq_getElem?_getD, List.getElem?_set_self',
    List.getElem?_eq_getElem h]

theorem geti_set_ne (a : List Int) (i j : Nat) (v : Int) (h : i ≠ j) :
    geti (a.set i v) j = geti a j := by
  simp [geti, List.getD_eq_getElem?_getD, List.getElem?_set_ne h]

theorem geti_lswap_left (a : List Int) (i j : Nat) (hi : i < a.length)
    (hij : i ≠ j) : geti (lswap a i j) i = geti a j := by
  rw [lswap, geti_set_ne _ _ _ _ (Ne.symm hij), geti_set_self _ _ _ hi]

theorem geti_lswap_right (a : List Int) (i j : Nat) (hj : j < a.length) :
    geti (lswap a i j) j = geti a i := by
  rw [lswap, geti_set_self]
  simpa using hj

theorem geti_lswap_other (a : List Int) (i j k : Nat) (hik : i ≠ k)
    (hjk : j ≠ k) : geti (lswap a i j) k = geti a k := by
  rw [lswap, geti_set_ne _ _ _ _ hjk, geti_set_ne _ _ _ _ hik]

theorem lswap_self (a : List Int) (i : Nat) : lswap a i i = a := by
  apply List.ext_getElem?
  intro k
  by_cases hk : k = i
  · subst hk
    by_cases h : k < a.length
    · simp [lswap, geti, List.getD_eq_getElem?_getD, List.getElem?_set_self',
        List.getElem?_eq_getElem h]
    · have hlen : a.length ≤ k := Nat.le_of_not_lt h
      simp [lswap, List.getElem?_eq_none, hlen]
  · simp [lswap, List.getElem?_set_ne (fun hh => hk hh.symm)]

theorem count_set_geti (a : List Int) (i : Nat) (v : Int) (h : i < a.length)
    (x : Int) : (a.set i v).count x
      = a.count x - (if geti a i = x then 1 else 0)
        + (if v = x then 1 else 0) := by
  rw [List.count_set _ _ _ _ h, geti_eq_getElem _ _ h]
  simp only [beq_iff_eq]

theorem count_pos_of_geti (a : List Int) (i : Nat) (h : i < a.length)
    (x : Int) (hx : geti a i = x) : 0 < a.count x := by
  rw [geti_eq_getElem _ _ h] at hx
  exact List.count_pos_iff.mpr (hx ▸ a.getElem_mem h)

theorem lswap_perm (a : List Int) (i j : Nat) (hi : i < a.length)
    (hj : j < a.length) : (lswap a i j).Perm a := by
  by_cases hij : i = j
  · subst hij
    rw [lswap_self]
  rw [List.perm_iff_count]
  intro x
  have hj' : j < (a.set i (geti a j)).length := by simpa using hj
  rw [lswap, count_set_geti _ _ _ hj', count_set_geti _ _ _ hi,
    geti_set_ne _ _ _ _ hij]
  have hcnti : (if geti a i = x then 1 else 0) ≤ a.count x := by
    split
    · exact count_pos_of_geti a i hi x (by assumption)
    · exact Nat.zero_le _
  have hcntj : (if geti a j = x then 1 else 0) ≤ a.count x := by
    split
    · exact count_pos_of_geti a j hj x (by assumption)
    · exact Nat.zero_le _
  omega

/-! ### SortEngine: `algorithms.py`, class `SortAlgorithms` -/

/-- `median_of_three` from `quick_sort` in algorithms.py: builds the list of
(value, index) candidates for the first, middle and last position, sorts it
stably by value (Python's `list.sort(key=...)`) and returns the index of the
middle candidate. -/
def median_of_three (a : List Int) (low high : Nat) : Nat :=
  let mid := (low + high) / 2
  let candidates := [(geti a low, low), (geti a mid, mid), (geti a high, high)]
  let sorted := List.insertionSort (fun x y => x.1 ≤ y.1) candidates
  (sorted.getD 1 (0, 0)).2

theorem median_of_three_bounds (a : List Int) (low high : Nat)
    (h : low ≤ high) : low ≤ median_of_three a low high ∧
      median_of_three a low high ≤ high := by
  have hmid1 : low ≤ (low + high) / 2 := by omega
  have hmid2 : (low + high) / 2 ≤ high := by omega
  set mid := (low + high) / 2 with hmid
  set cs := [(geti a low, low), (geti a mid, mid), (geti a high, high)]
    with hcs
  set s := List.insertionSort (fun x y => x.1 ≤ y.1) cs with hs
  have heq : median_of_three a low high = (s.getD 1 (0, 0)).2 := rfl
  have hlen : s.length = 3 := by
    rw [hs, List.length_insertionSort, hcs]
    rfl
  have h1 : (1 : Nat) < s.length := by omega
  have hgd : s.getD 1 (0, 0) = s[1] := by
    simp [List.getD_eq_getElem?_getD, List.getElem?_eq_getElem h1]
  rw [heq, hgd]
  have hmem : s[1] ∈ s := s.getElem_mem h1
  have hmem' : s[1] ∈ cs := (List.mem_insertionSort _).mp hmem
  rw [hcs] at hmem'
  simp only [List.mem_cons, List.not_mem_nil, or_false] at hmem'
  rcases hmem' with hh | hh | hh <;> rw [hh] <;> omega

/-- The `for j in range(low, high)` loop inside `partition`: `i` is the Python
variable of the same name (it starts at `low - 1`, hence an `Int`). Returns
the updated array and the final value of `i`. -/
def ploop (a : List Int) (pivot : Int) (i : Int) (j high : Nat) :
    List Int × Int :=
  if hj : j < high then
    if geti a j ≤ pivot then
      ploop (lswap a (i + 1).toNat j) pivot (i + 1) (j + 1) high
    else
      ploop a pivot i (j + 1) high
  else (a, i)
termination_by high - j

theorem ploop_i_bounds (a : List Int) (pivot : Int) (i : Int) (j high : Nat)
    (hij : i < j) : i ≤ (ploop a pivot i j high).2 ∧
      (ploop a pivot i j high).2 < max j high := by
  induction a, pivot, i, j, high using ploop.induct with
  | case1 a pivot i j high hj hle ih =>
    rw [ploop, dif_pos hj, if_pos hle]
    constructor
    · have := ih (by omega)
      omega
    · have := ih (by omega)
      omega
  | case2 a pivot i j high hj hle ih =>
    rw [ploop, dif_pos hj, if_neg hle]
    constructor
    · exact (ih (by omega)).1
    · have := (ih (by omega)).2
      omega
  | case3 a pivot i j high hj =>
    rw [ploop, dif_neg hj]
    constructor
    · exact le_refl i
    · simp only
      omega

/-- `partition` from algorithms.py: swaps the median-of-three pivot to `high`,
runs the Lomuto loop, swaps the pivot into its final slot and returns the
array together with the pivot's final index. -/
def partition (a : List Int) (low high : Nat) : List Int × Nat :=
  let pidx := median_of_three a low high
  let a1 := lswap a pidx high
  let pivot := geti a1 high
  let r := ploop a1 pivot ((low : Int) - 1) low high
  (lswap r.1 (r.2 + 1).toNat high, (r.2 + 1).toNat)

theorem partition_idx_bounds (a : List Int) (low high : Nat)
    (h : low < high) : low ≤ (partition a low high).2 ∧
      (partition a low high).2 ≤ high := by
  unfold partition
  simp only
  have hb := ploop_i_bounds (lswap a (median_of_three a low high) high)
    (geti (lswap a (median_of_three a low high) high) high)
    ((low : Int) - 1) low high (by omega)
  omega

/-- `quick_sort_helper` from algorithms.py. -/
def quick_sort_helper (a : List Int) (low high : Nat) : List Int :=
  if h : low < high then
    let r := partition a low high
    let a1 := quick_sort_helper r.1 low (r.2 - 1)
    quick_sort_helper a1 (r.2 + 1) high
  else a
termination_by high - low
decreasing_by
  · have := partition_idx_bounds a low high h
    omega
  · have := partition_idx_bounds a low high h
    omega

/-- `quick_sort` from algorithms.py (the `arr.copy()` produces a list with the
same elements, so the copy is the value itself in this embedding). -/
def quick_sort (arr : List Int) : List Int :=
  if arr.length > 1 then quick_sort_helper arr 0 (arr.length - 1) else arr

/-- The two sequential `if` statements of `heapify` in algorithms.py that
select the largest of a node and its in-range children. -/
def largestIdx (a : List Int) (size root : Nat) : Nat :=
  let l := 2 * root + 1
  let r := 2 * root + 2
  let largest := root
  let largest := if l < size ∧ geti a largest < geti a l then l else largest
  if r < size ∧ geti a largest < geti a r then r else largest

theorem largestIdx_cases (a : List Int) (size root : Nat) :
    largestIdx a size root = root ∨
      ((largestIdx a size root = 2 * root + 1 ∨
        largestIdx a size root = 2 * root + 2) ∧
       largestIdx a size root < size ∧ root < largestIdx a size root) := by
  unfold largestIdx
  dsimp only
  split_ifs <;> omega

theorem geti_root_le_largestIdx (a : List Int) (size root : Nat) :
    geti a root ≤ geti a (largestIdx a size root) := by
  unfold largestIdx
  dsimp only
  split_ifs <;> omega

theorem geti_left_le_largestIdx (a : List Int) (size root : Nat)
    (h : 2 * root + 1 < size) :
    geti a (2 * root + 1) ≤ geti a (largestIdx a size root) := by
  unfold largestIdx
  dsimp only
  split_ifs <;> omega

theorem geti_right_le_largestIdx (a : List Int) (size root : Nat)
    (h : 2 * root + 2 < size) :
    geti a (2 * root + 2) ≤ geti a (largestIdx a size root) := by
  unfold largestIdx
  dsimp only
  split_ifs <;> omega

/-- `heapify` from algorithms.py: sift the node at `root` down the max-heap of
the first `size` positions. -/
def heapify (a : List Int) (size root : Nat) : List Int :=
  let largest := largestIdx a size root
  if h : largest ≠ root then heapify (lswap a root largest) size largest
  else a
termination_by size - root
decreasing_by
  rcases largestIdx_cases a size root with hc | hc
  · exact absurd hc h
  · omega

/-- Python `range(hi, lo, -1)` on integers: the list `hi, hi-1, ..., lo+1`. -/
def range_down (hi lo : Int) : List Int :=
  if h : lo < hi then hi :: range_down (hi - 1) lo else []
termination_by (hi - lo).toNat
decreasing_by omega

/-- `heap_sort` from algorithms.py: build the max-heap bottom-up, then
repeatedly swap the root with the last unsorted element and re-heapify. -/
def heap_sort (arr : List Int) : List Int :=
  let n := arr.length
  let a1 := (range_down ((n : Int) / 2 - 1) (-1)).foldl
    (fun a i => heapify a n i.toNat) arr
  (range_down ((n : Int) - 1) 0).foldl
    (fun a i => heapify (lswap a 0 i.toNat) i.toNat 0) a1

/-- The initial-gap loop of `shell_sort` in algorithms.py:
`gap = 1; while gap < n // 3: gap = gap * 3 + 1`. -/
def gap_grow (n gap : Nat) : Nat :=
  if h : gap < n / 3 then gap_grow n (gap * 3 + 1) else gap
termination_by n / 3 - gap
decreasing_by omega

/-- The inner `while j >= gap and arr[j - gap] > temp` shifting loop of
`shell_sort`; the loop only runs with a positive gap, which also guarantees
its termination. Returns the array and the final value of `j`. -/
def shift_loop (a : List Int) (temp : Int) (gap : Nat) (hg : 0 < gap)
    (j : Nat) : List Int × Nat :=
  if h : gap ≤ j ∧ geti a (j - gap) > temp then
    shift_loop (a.set j (geti a (j - gap))) temp gap hg (j - gap)
  else (a, j)
termination_by j
decreasing_by omega

/-- One gapped insertion pass of `shell_sort`: `for i in range(gap, n)`. -/
def gap_pass (a : List Int) (gap : Nat) (hg : 0 < gap) : List Int :=
  (List.range' gap (a.length - gap)).foldl
    (fun b i =>
      let temp := geti b i
      let r := shift_loop b temp gap hg i
      r.1.set r.2 temp) a

/-- The outer `while gap > 0` loop of `shell_sort`. -/
def gap_loop (a : List Int) (gap : Nat) : List Int :=
  if h : 0 < gap then gap_loop (gap_pass a gap h) (gap / 3) else a
termination_by gap
decreasing_by exact Nat.div_lt_self h (by norm_num)

/-- `shell_sort` from algorithms.py. -/
def shell_sort (arr : List Int) : List Int :=
  gap_loop arr (gap_grow arr.length 1)

/-- Python slice `a[x:y]` (for the in-bounds, forward slices the program
uses). -/
def pySlice (a : List Int) (x y : Nat) : List Int := (a.drop x).take (y - x)

/-- The first `while i < len(left_half) and j < len(right_half)` loop of
`merge` in algorithms.py (also the merge loop of `_gen_mergesort` in gui.py,
which is textually identical). Returns `(a, i, j, k)`. -/
def mloop1 (left right : List Int) (a : List Int) (i j k : Nat) :
    List Int × Nat × Nat × Nat :=
  if h : i < left.length ∧ j < right.length then
    if geti left i ≤ geti right j then
      mloop1 left right (a.set k (geti left i)) (i + 1) j (k + 1)
    else
      mloop1 left right (a.set k (geti right j)) i (j + 1) (k + 1)
  else (a, i, j, k)
termination_by left.length + right.length - (i + j)
decreasing_by
  · omega
  · omega

/-- The trailing `while` loops of `merge` that copy the remaining elements of
one half. Returns `(a, index, k)`. -/
def copy_loop (half : List Int) (a : List Int) (i k : Nat) :
    List Int × Nat × Nat :=
  if h : i < half.length then copy_loop half (a.set k (geti half i)) (i + 1) (k + 1)
  else (a, i, k)
termination_by half.length - i
decreasing_by omega

/-- `merge` from algorithms.py: merge the sorted slices `a[left..mid]` and
`a[mid+1..right]` in place. -/
def merge (a : List Int) (left mid right : Nat) : List Int :=
  let left_half := pySlice a left (mid + 1)
  let right_half := pySlice a (mid + 1) (right + 1)
  let r1 := mloop1 left_half right_half a 0 0 left
  let r2 := copy_loop left_half r1.1 r1.2.1 r1.2.2.2
  let r3 := copy_loop right_half r2.1 r1.2.2.1 r2.2.2
  r3.1

/-- `merge_sort_helper` from algorithms.py. -/
def merge_sort_helper (a : List Int) (left right : Nat) : List Int :=
  if h : left < right then
    let mid := (left + right) / 2
    let a1 := merge_sort_helper a left mid
    let a2 := merge_sort_helper a1 (mid + 1) right
    merge a2 left mid right
  else a
termination_by right - left
decreasing_by
  · omega
  · omega

/-- `merge_sort` from algorithms.py. -/
def merge_sort (arr : List Int) : List Int :=
  if arr.length > 1 then merge_sort_helper arr 0 (arr.length - 1) else arr

/-- Python digit extraction `(num // exp) % 10` (Python `//` is flooring
division and `%` with a positive modulus is a nonnegative remainder). -/
def pyDigit (num exp : Int) : Nat := ((num.fdiv exp).emod 10).toNat

/-- The right-to-left placement loop `for i in range(n - 1, -1, -1)` of
`counting_sort_by_digit`; the head of `vals` is the element placed last. -/
def cs_scan (exp : Int) (vals : List Int) (output : List Int)
    (count : List Nat) : List Int × List Nat :=
  match vals with
  | [] => (output, count)
  | x :: t =>
    let r := cs_scan exp t output count
    let index := pyDigit x exp
    let c := r.2.getD index 0
    (r.1.set (c - 1) x, r.2.set index (c - 1))

/-- `counting_sort_by_digit` from algorithms.py: stable counting sort of `a`
on the digit at position `exp`. -/
def counting_sort_by_digit (a : List Int) (exp : Int) : List Int :=
  let n := a.length
  let output := List.replicate n (0 : Int)
  let count := List.replicate 10 (0 : Nat)
  let count := a.foldl (fun c num =>
    let index := pyDigit num exp
    c.set index (c.getD index 0 + 1)) count
  let count := (List.range' 1 9).foldl (fun c i =>
    c.set i (c.getD i 0 + c.getD (i - 1) 0)) count
  let r := cs_scan exp a output count
  (List.range n).foldl (fun b i => b.set i (geti r.1 i)) a

/-- Python `max` on a list; the program only ever calls it on nonempty
lists, for which the 0 default is irrelevant. -/
def pyMax : List Int → Int
  | [] => 0
  | x :: t => t.foldl max x

theorem fdiv_mul_ten_toNat_lt {m e : Int} (h : 0 < m.fdiv e) :
    (m.fdiv (e * 10)).toNat < (m.fdiv e).toNat := by
  have hnat : ∀ (p q : Nat), 0 < p / q → p / (q * 10) < p / q := by
    intro p q hpq
    rw [← Nat.div_div_eq_div_mul]
    exact Nat.div_lt_self hpq (by norm_num)
  match m, e with
  | Int.ofNat 0, e =>
    rw [show Int.ofNat 0 = 0 from rfl, Int.zero_fdiv] at h
    exact absurd h (by decide)
  | Int.ofNat (a + 1), Int.ofNat 0 =>
    rw [show Int.ofNat 0 = 0 from rfl, Int.fdiv_zero] at h
    exact absurd h (by decide)
  | Int.ofNat (a + 1), Int.ofNat (b + 1) =>
    have h10 : (Int.ofNat (b + 1)) * 10 = Int.ofNat ((b + 1) * 10) := rfl
    have h1 : Int.fdiv (Int.ofNat (a + 1)) (Int.ofNat (b + 1))
        = Int.ofNat ((a + 1) / (b + 1)) := rfl
    have h2 : Int.fdiv (Int.ofNat (a + 1)) (Int.ofNat ((b + 1) * 10))
        = Int.ofNat ((a + 1) / ((b + 1) * 10)) := rfl
    rw [h1] at h
    rw [h10, h1, h2]
    show (a + 1) / ((b + 1) * 10) < (a + 1) / (b + 1)
    refine hnat (a + 1) (b + 1) ?_
    by_contra hzero
    rw [Nat.not_lt, Nat.le_zero] at hzero
    rw [hzero] at h
    exact absurd h (by decide)
  | Int.ofNat (a + 1), Int.negSucc b =>
    have h1 : Int.fdiv (Int.ofNat (a + 1)) (Int.negSucc b)
        = Int.negSucc (a / (b + 1)) := rfl
    rw [h1] at h
    exact absurd h (Int.negSucc_lt_zero _).asymm
  | Int.negSucc a, Int.ofNat 0 =>
    have h1 : Int.fdiv (Int.negSucc a) (Int.ofNat 0) = 0 := rfl
    rw [h1] at h
    exact absurd h (by decide)
  | Int.negSucc a, Int.ofNat (b + 1) =>
    have h1 : Int.fdiv (Int.negSucc a) (Int.ofNat (b + 1))
        = Int.negSucc (a / (b + 1)) := rfl
    rw [h1] at h
    exact absurd h (Int.negSucc_lt_zero _).asymm
  | Int.negSucc a, Int.negSucc b =>
    have h10 : (Int.negSucc b) * 10 = Int.negSucc (b * 10 + 9) := by
      rw [Int.negSucc_eq, Int.negSucc_eq]
      push_cast
      ring
    have h1 : Int.fdiv (Int.negSucc a) (Int.negSucc b)
        = Int.ofNat ((a + 1) / (b + 1)) := rfl
    have h2 : Int.fdiv (Int.negSucc a) (Int.negSucc (b * 10 + 9))
        = Int.ofNat ((a + 1) / (b * 10 + 9 + 1)) := rfl
    rw [h1] at h
    rw [h10, h1, h2]
    show (a + 1) / (b * 10 + 9 + 1) < (a + 1) / (b + 1)
    have heq : b * 10 + 9 + 1 = (b + 1) * 10 := by ring
    rw [heq]
    refine hnat (a + 1) (b + 1) ?_
    by_contra hzero
    rw [Nat.not_lt, Nat.le_zero] at hzero
    rw [hzero] at h
    exact absurd h (by decide)

/-- The `while max_val // exp > 0` loop of `radix_sort` in algorithms.py. -/
def radix_loop (max_val : Int) (a : List Int) (exp : Int) : List Int :=
  if h : 0 < max_val.fdiv exp then
    radix_loop max_val (counting_sort_by_digit a exp) (exp * 10)
  else a
termination_by (max_val.fdiv exp).toNat
decreasing_by exact fdiv_mul_ten_toNat_lt h

/-- `radix_sort` from algorithms.py: LSD radix sort driven by the value of
`max(arr)`. -/
def radix_sort (arr : List Int) : List Int :=
  if arr.isEmpty then arr
  else radix_loop (pyMax arr) arr 1

/-! ### BenchmarkHarness: `analyzer.py` -/

/-- The `PerformanceResult` dataclass of analyzer.py.  The floating-point
time and memory figures are modelled as rationals; the claims checked here
only pass them through or zero them. -/
structure PerformanceResult where
  algorithm_name : String
  time_ms : ℚ
  memory_kb : ℚ
  data_size : Nat
  data_type : String
  success : Bool
  error_message : String
  deriving Repr, DecidableEq

/-- `_verify_sorted` from analyzer.py: scan adjacent pairs, fail on the first
descent. -/
def verify_sorted : List Int → Bool
  | x :: y :: t => if x > y then false else verify_sorted (y :: t)
  | _ => true

/-- `measure_sort` from analyzer.py.  The sort routine is modelled as a
function that may raise (`Except.error` carries `str(e)`); the ambient
measurements taken by `time.perf_counter` and `tracemalloc` are the
parameters `time_ms` and `memory_kb`.  The second component of the result is
the final state of the `tracemalloc` instrumentation (`true` = tracing): it
is switched on inside the `try` and must be off again on every return path,
including the `except` path, which stops it defensively. -/
def measure_sort (sortf : List Int → Except String (List Int))
    (data : List Int) (algorithm_name data_type : String)
    (time_ms memory_kb : ℚ) : PerformanceResult × Bool :=
  let data_copy := data
  let data_size := data.length
  match sortf data_copy with
  | Except.ok sorted_data =>
    -- tracemalloc started, timing taken, tracemalloc stopped
    let tracing := false
    if ¬ verify_sorted sorted_data then
      ({ algorithm_name := algorithm_name, time_ms := time_ms,
         memory_kb := memory_kb, data_size := data_size,
         data_type := data_type, success := false,
         error_message := "Sorting verification failed" }, tracing)
    else
      ({ algorithm_name := algorithm_name, time_ms := time_ms,
         memory_kb := memory_kb, data_size := data_size,
         data_type := data_type, success := true,
         error_message := "" }, tracing)
  | Except.error e =>
    -- the except branch: tracemalloc.is_tracing() holds, so it is stopped
    let tracing := false
    ({ algorithm_name := algorithm_name, time_ms := 0, memory_kb := 0,
       data_size := data_size, data_type := data_type, success := false,
       error_message := e }, tracing)

/-! ### The multi-size sweep: `main.py`, `_run_analysis` -/

/-- The `PerformanceResult` dataclass of main.py (positional fields
`algorithm, time_ms, memory_kb, data_size, data_type`). -/
structure MainPerformanceResult where
  algorithm : String
  time_ms : ℚ
  memory_kb : ℚ
  data_size : Int
  data_type : String
  deriving Repr, DecidableEq

/-- The size derivation of `_run_analysis` in main.py: both branches of the
`if max_size <= 5000` compute `[max_size // 5 * i for i in range(1, 6)]`,
then every entry is floored to 100. -/
def test_sizes (max_size : Int) : List Int :=
  let sizes := if max_size ≤ 5000
    then (List.range' 1 5).map (fun (i : Nat) => max_size.fdiv 5 * (i : Int))
    else (List.range' 1 5).map (fun (i : Nat) => max_size.fdiv 5 * (i : Int))
  sizes.map (fun s => max 100 s)

/-- The size derivation in the words of the spec: `round(N/5 * k)` for
`k = 1..5`, floored to 100 (stated only to compare against `test_sizes`). -/
def spec_round_sizes (max_size : Int) : List Int :=
  (List.range' 1 5).map
    (fun k => max 100 (round ((max_size : ℚ) / 5 * (k : ℚ))))

/-- The inner `for algo in selected` loop of `_run_analysis`: measure one
algorithm on (a fresh copy of) `data`; the call `ALGORITHM_MAP[algo](arr)`
is modelled by `runAlgo` and may raise; `meas` supplies the ambient
`(elapsed_ms, peak_kb)` readings. -/
def sweep_algos (runAlgo : String → List Int → Except String (List Int))
    (meas : String → Int → ℚ × ℚ) (dtype : String) (size : Int)
    (data : List Int) :
    List String → Except String (List (String × Int × MainPerformanceResult))
  | [] => Except.ok []
  | algo :: rest => do
      let arr := data
      let _ ← runAlgo algo arr
      let tm := meas algo size
      let entry : String × Int × MainPerformanceResult :=
        (algo, size,
          { algorithm := algo, time_ms := tm.1, memory_kb := tm.2,
            data_size := size, data_type := dtype })
      let es ← sweep_algos runAlgo meas dtype size data rest
      Except.ok (entry :: es)

/-- The outer `for size in test_sizes` loop of `_run_analysis`; `gen` models
the `DataGenerator` call selected by the dataset type. -/
def sweep_sizes (selected : List String)
    (runAlgo : String → List Int → Except String (List Int))
    (meas : String → Int → ℚ × ℚ) (dtype : String) (gen : Int → List Int) :
    List Int → Except String (List (String × Int × MainPerformanceResult))
  | [] => Except.ok []
  | size :: rest => do
      let data := gen size
      let e1 ← sweep_algos runAlgo meas dtype size data selected
      let e2 ← sweep_sizes selected runAlgo meas dtype gen rest
      Except.ok (e1 ++ e2)

/-- `_run_analysis` from main.py: the whole sweep runs inside one
`try/except`.  On success `self.multi_results` receives every recorded
entry; if any measurement raises, the handler swallows the exception, the
partially built dictionary is discarded (never assigned to the attribute)
and the remaining measurements are skipped — modelled as `none`. -/
def run_analysis (selected : List String) (dtype : String) (max_size : Int)
    (gen : Int → List Int)
    (runAlgo : String → List Int → Except String (List Int))
    (meas : String → Int → ℚ × ℚ) :
    Option (List (String × Int × MainPerformanceResult)) :=
  match sweep_sizes selected runAlgo meas dtype gen (test_sizes max_size) with
  | Except.ok es => some es
  | Except.error _ => none

/-! ### Claims C4, C5, C6 -/

/-- Claim C4: for every sort function and input list, `measure_sort` returns,
when the output is not non-decreasing, a result with `success = false` and
message "Sorting verification failed" that still carries the measured
`time_ms`/`memory_kb`; and when the sort function raises, a result with
`success = false`, zeroed metrics and the error's description, with the
memory instrumentation stopped on that path as well (final tracing state
`false`). -/
theorem c4_measure_sort_error_handling
    (sortf : List Int → Except String (List Int)) (data : List Int)
    (name dtype : String) (time_ms memory_kb : ℚ) :
    (∀ out, sortf data = Except.ok out → verify_sorted out = false →
      measure_sort sortf data name dtype time_ms memory_kb =
        ({ algorithm_name := name, time_ms := time_ms,
           memory_kb := memory_kb, data_size := data.length,
           data_type := dtype, success := false,
           error_message := "Sorting verification failed" }, false)) ∧
    (∀ e, sortf data = Except.error e →
      measure_sort sortf data name dtype time_ms memory_kb =
        ({ algorithm_name := name, time_ms := 0, memory_kb := 0,
           data_size := data.length, data_type := dtype, success := false,
           error_message := e }, false)) := by
  constructor
  · intro out hok hver
    simp [measure_sort, hok, hver]
  · intro e herr
    simp [measure_sort, herr]

/-- Witness for C4 at concrete inputs: a sort stub returning the unsorted
list `[1, 0]` and one raising "boom". -/
theorem c4_measure_sort_error_handling_witness :
    measure_sort (fun _ => Except.ok [(1 : Int), 0]) [] "Quick Sort" "Random"
        5 7 =
      ({ algorithm_name := "Quick Sort", time_ms := 5, memory_kb := 7,
         data_size := 0, data_type := "Random", success := false,
         error_message := "Sorting verification failed" }, false) ∧
    measure_sort (fun _ => Except.error "boom") [] "Quick Sort" "Random"
        5 7 =
      ({ algorithm_name := "Quick Sort", time_ms := 0, memory_kb := 0,
         data_size := 0, data_type := "Random", success := false,
         error_message := "boom" }, false) :=
  ⟨(c4_measure_sort_error_handling (fun _ => Except.ok [(1 : Int), 0]) []
      "Quick Sort" "Random" 5 7).1 [1, 0] rfl rfl,
   (c4_measure_sort_error_handling (fun _ => Except.error "boom") []
      "Quick Sort" "Random" 5 7).2 "boom" rfl⟩

theorem sweep_algos_spec
    (runAlgo : String → List Int → Except String (List Int))
    (meas : String → Int → ℚ × ℚ) (dtype : String) (size : Int)
    (data : List Int) (algos : List String) :
    (∃ es, sweep_algos runAlgo meas dtype size data algos = Except.ok es ∧
      es.map (fun x => (x.1, x.2.1)) = algos.map (fun a => (a, size)) ∧
      ∀ a ∈ algos, ∃ out, runAlgo a data = Except.ok out) ∨
    (∃ e, sweep_algos runAlgo meas dtype size data algos = Except.error e ∧
      ∃ a ∈ algos, runAlgo a data = Except.error e) := by
  induction algos with
  | nil =>
    left
    exact ⟨[], rfl, rfl, by simp⟩
  | cons a rest ih =>
    cases hA : runAlgo a data with
    | error e =>
      right
      refine ⟨e, ?_, a, List.mem_cons_self a rest, hA⟩
      simp [sweep_algos, hA, Bind.bind, Except.bind]
    | ok out =>
      rcases ih with ⟨es, hes, hmap, hall⟩ | ⟨e, he, a', hmem, hA'⟩
      · left
        refine ⟨(a, size,
          { algorithm := a, time_ms := (meas a size).1,
            memory_kb := (meas a size).2, data_size := size,
            data_type := dtype }) :: es, ?_, ?_, ?_⟩
        · simp [sweep_algos, hA, Bind.bind, Except.bind, hes]
        · simp [hmap]
        · intro a' hmem
          rcases List.mem_cons.mp hmem with rfl | hmem'
          · exact ⟨out, hA⟩
          · exact hall a' hmem'
      · right
        refine ⟨e, ?_, a', List.mem_cons_of_mem a hmem, hA'⟩
        simp [sweep_algos, hA, Bind.bind, Except.bind, he]

theorem sweep_sizes_spec (selected : List String)
    (runAlgo : String → List Int → Except String (List Int))
    (meas : String → Int → ℚ × ℚ) (dtype : String) (gen : Int → List Int)
    (sizes : List Int) :
    (∃ es, sweep_sizes selected runAlgo meas dtype gen sizes = Except.ok es ∧
      es.map (fun x => (x.1, x.2.1)) =
        sizes.flatMap (fun size => selected.map (fun a => (a, size))) ∧
      ∀ size ∈ sizes, ∀ a ∈ selected, ∃ out,
        runAlgo a (gen size) = Except.ok out) ∨
    (∃ e, sweep_sizes selected runAlgo meas dtype gen sizes
        = Except.error e ∧
      ∃ size ∈ sizes, ∃ a ∈ selected, runAlgo a (gen size)
        = Except.error e) := by
  induction sizes with
  | nil =>
    left
    exact ⟨[], rfl, rfl, by simp⟩
  | cons size rest ih =>
    rcases sweep_algos_spec runAlgo meas dtype size (gen size) selected with
      ⟨es1, hes1, hmap1, hall1⟩ | ⟨e, he, a, hmem, hA⟩
    · rcases ih with ⟨es2, hes2, hmap2, hall2⟩ | ⟨e, he, size', hmem, a, hmema, hA⟩
      · left
        refine ⟨es1 ++ es2, ?_, ?_, ?_⟩
        · simp [sweep_sizes, Bind.bind, Except.bind, hes1, hes2]
        · simp [List.map_append, hmap1, hmap2]
        · intro s hs a ha
          rcases List.mem_cons.mp hs with rfl | hs'
          · exact hall1 a ha
          · exact hall2 s hs' a ha
      · right
        refine ⟨e, ?_, size', List.mem_cons_of_mem _ hmem, a, hmema, hA⟩
        simp [sweep_sizes, Bind.bind, Except.bind, hes1, he]
    · right
      refine ⟨e, ?_, size, List.mem_cons_self _ _, a, hmem, hA⟩
      simp [sweep_sizes, Bind.bind, Except.bind, he]

/-- A run map for which exactly one algorithm's measurement raises. -/
def cex_runAlgo : String → List Int → Except String (List Int) :=
  fun algo arr =>
    if algo = "Heap Sort" then Except.error "boom" else Except.ok arr

/-- Claim C5 counterexample: two selected algorithms, of which only
"Heap Sort" raises.  The sweep of `_run_analysis` returns `none`: the
failure is not recorded and the remaining "Quick Sort" measurements (which
would all succeed) are skipped, so the result matrix holds no mix of
successful and failed results — the claim fails on this input. -/
theorem c5_sweep_aborts_counterexample :
    run_analysis ["Heap Sort", "Quick Sort"] "Random" 1000 (fun _ => [])
      cex_runAlgo (fun _ _ => (0, 0)) = none ∧
    cex_runAlgo "Quick Sort" [] = Except.ok [] ∧
    cex_runAlgo "Heap Sort" [] = Except.error "boom" := by
  refine ⟨by decide, rfl, rfl⟩

/-- Claim C5 amended: the sweep is all-or-nothing.  If every measurement
succeeds it records one entry per (algorithm, size) pair, in order; if any
measurement raises, the whole sweep aborts: no entries at all are stored
(`none`) and the remaining measurements are skipped.  No exception escapes
the sweep boundary (`run_analysis` is total and the handler turns the
exception into the `none` outcome). -/
theorem c5_sweep_all_or_nothing (selected : List String) (dtype : String)
    (max_size : Int) (gen : Int → List Int)
    (runAlgo : String → List Int → Except String (List Int))
    (meas : String → Int → ℚ × ℚ) :
    (∃ es, run_analysis selected dtype max_size gen runAlgo meas = some es ∧
      es.map (fun x => (x.1, x.2.1)) =
        (test_sizes max_size).flatMap
          (fun size => selected.map (fun algo => (algo, size))) ∧
      ∀ size ∈ test_sizes max_size, ∀ algo ∈ selected, ∃ out,
        runAlgo algo (gen size) = Except.ok out) ∨
    (run_analysis selected dtype max_size gen runAlgo meas = none ∧
      ∃ size ∈ test_sizes max_size, ∃ algo ∈ selected,
        ∃ e, runAlgo algo (gen size) = Except.error e) := by
  rcases sweep_sizes_spec selected runAlgo meas dtype gen
      (test_sizes max_size) with
    ⟨es, hes, hmap, hall⟩ | ⟨e, he, size, hmem, a, hmema, hA⟩
  · left
    exact ⟨es, by simp [run_analysis, hes], hmap, hall⟩
  · right
    exact ⟨by simp [run_analysis, he], size, hmem, a, hmema, e, hA⟩

/-- Witness for C5 at concrete inputs: a single always-succeeding
algorithm. -/
theorem c5_sweep_all_or_nothing_witness :
    (run_analysis ["Quick Sort"] "Random" 500 (fun _ => [])
      (fun _ arr => Except.ok arr) (fun _ _ => (1, 2))).isSome = true := by
  rcases c5_sweep_all_or_nothing ["Quick Sort"] "Random" 500 (fun _ => [])
      (fun _ arr => Except.ok arr) (fun _ _ => (1, 2)) with
    ⟨es, hes, _, _⟩ | ⟨_, _, _, _, _, _, he⟩
  · rw [hes]
    rfl
  · exact absurd he (by simp)

/-- Claim C6 counterexample: at `max_size = 1003` (inside the configured
1000..100000 range) the code's sizes `max_size // 5 * k` floored at 100
differ from the spec's `round(N/5 * k)` floored at 100. -/
theorem c6_round_sizes_counterexample :
    test_sizes 1003 ≠ spec_round_sizes 1003 ∧
    test_sizes 1003 = [200, 400, 600, 800, 1000] ∧
    spec_round_sizes 1003 = [201, 401, 602, 802, 1003] := by
  have h1 : test_sizes 1003 = [200, 400, 600, 800, 1000] := by decide
  have h2 : spec_round_sizes 1003 = [201, 401, 602, 802, 1003] := by
    rw [spec_round_sizes, show List.range' 1 5 = [1, 2, 3, 4, 5] from rfl]
    simp only [List.map]
    norm_num [round_eq]
  refine ⟨?_, h1, h2⟩
  rw [h1, h2]
  decide

/-- Claim C6 amended: the sweep derives exactly five test sizes as
`(N // 5) * k` for k = 1..5 (flooring division first), each floored to a
minimum of 100; with `max_size = 5000` this yields exactly 5 strictly
increasing size points, each at least 100. -/
theorem c6_sizes_amended :
    (∀ N : Int, (test_sizes N).length = 5 ∧
      (∀ s ∈ test_sizes N, 100 ≤ s) ∧
      test_sizes N = [max 100 (N.fdiv 5 * 1), max 100 (N.fdiv 5 * 2),
        max 100 (N.fdiv 5 * 3), max 100 (N.fdiv 5 * 4),
        max 100 (N.fdiv 5 * 5)]) ∧
    test_sizes 5000 = [1000, 2000, 3000, 4000, 5000] ∧
    List.Chain' (· < ·) (test_sizes 5000) := by
  have hdef : ∀ N : Int, test_sizes N =
      ((if N ≤ 5000
        then (List.range' 1 5).map (fun (i : Nat) => N.fdiv 5 * (i : Int))
        else (List.range' 1 5).map (fun (i : Nat) => N.fdiv 5 * (i : Int)))).map
        (fun s => max 100 s) := fun _ => rfl
  refine ⟨?_, by decide, ?_⟩
  · intro N
    have hN : test_sizes N = [max 100 (N.fdiv 5 * 1), max 100 (N.fdiv 5 * 2),
        max 100 (N.fdiv 5 * 3), max 100 (N.fdiv 5 * 4),
        max 100 (N.fdiv 5 * 5)] := by
      rw [hdef N]
      split_ifs <;>
        · rw [show List.range' 1 5 = [1, 2, 3, 4, 5] from rfl]
          simp only [List.map, Function.comp]
          norm_num
    refine ⟨by rw [hN]; rfl, ?_, hN⟩
    intro s hs
    rw [hN] at hs
    simp only [List.mem_cons, List.not_mem_nil, or_false] at hs
    rcases hs with rfl | rfl | rfl | rfl | rfl <;> exact le_max_left _ _
  · rw [show test_sizes 5000 = [1000, 2000, 3000, 4000, 5000] from by decide]
    norm_num [List.chain'_cons]

/-- Witness for C6 at a concrete size and member. -/
theorem c6_sizes_amended_witness :
    (200 : Int) ∈ test_sizes 1003 ∧ (100 : Int) ≤ 200 :=
  ⟨by decide, (c6_sizes_amended.1 1003).2.1 200 (by decide)⟩

/-! ### Claim C7: the Shell sort gap sequence -/

/-- Knuth's gap numbers 1, 4, 13, 40, ... as generated by `gap = gap * 3 + 1`
starting from 1. -/
def knuth_gap : Nat → Nat
  | 0 => 1
  | k + 1 => knuth_gap k * 3 + 1

/-- The successive values taken by `gap` in the `while gap > 0` loop of
`shell_sort`: `gap, gap // 3, ...`, stopping before 0. -/
def gaps_used (gap : Nat) : List Nat :=
  if h : 0 < gap then gap :: gaps_used (gap / 3) else []
termination_by gap
decreasing_by exact Nat.div_lt_self h (by norm_num)

/-- `gap_loop` replayed over an explicit list of gap values (used to state
which gaps `shell_sort` actually runs passes for). -/
def gaps_foldl (a : List Int) : List Nat → List Int
  | [] => a
  | g :: t =>
    if h : 0 < g then gaps_foldl (gap_pass a g h) t else gaps_foldl a t

theorem gap_grow_knuth :
    ∀ n g : Nat, (∃ k, g = knuth_gap k) → ∃ k, gap_grow n g = knuth_gap k := by
  intro n g
  induction g using gap_grow.induct n with
  | case1 g h ih =>
    intro hg
    rw [gap_grow.eq_def, dif_pos h]
    refine ih ?_
    obtain ⟨k, rfl⟩ := hg
    exact ⟨k + 1, rfl⟩
  | case2 g h =>
    intro hg
    rw [gap_grow.eq_def, dif_neg h]
    exact hg

theorem gap_grow_ge : ∀ n g : Nat, n / 3 ≤ gap_grow n g := by
  intro n g
  induction g using gap_grow.induct n with
  | case1 g h ih =>
    rw [gap_grow.eq_def, dif_pos h]
    exact ih
  | case2 g h =>
    rw [gap_grow.eq_def, dif_neg h]
    omega

theorem knuth_gap_pos (k : Nat) : 0 < knuth_gap k := by
  cases k with
  | zero => exact Nat.one_pos
  | succ k => simp [knuth_gap]

theorem knuth_gap_succ_div (k : Nat) : knuth_gap (k + 1) / 3 = knuth_gap k := by
  show (knuth_gap k * 3 + 1) / 3 = knuth_gap k
  omega

theorem getLast?_cons_ne_nil {α : Type} (x : α) (l : List α) (h : l ≠ []) :
    (x :: l).getLast? = l.getLast? := by
  cases l with
  | nil => exact absurd rfl h
  | cons y t => rfl

theorem gaps_used_head (g : Nat) (h : 0 < g) :
    gaps_used g = g :: gaps_used (g / 3) := by
  rw [gaps_used.eq_def, dif_pos h]

theorem gaps_used_ne_nil (g : Nat) (h : 0 < g) : gaps_used g ≠ [] := by
  rw [gaps_used_head g h]
  exact List.cons_ne_nil _ _

theorem gaps_used_knuth_last (k : Nat) :
    (gaps_used (knuth_gap k)).getLast? = some 1 := by
  induction k with
  | zero =>
    rw [show knuth_gap 0 = 1 from rfl, gaps_used_head 1 Nat.one_pos]
    rw [show (1 : Nat) / 3 = 0 from rfl, gaps_used.eq_def]
    norm_num
  | succ k ih =>
    rw [gaps_used_head _ (knuth_gap_pos (k + 1)), knuth_gap_succ_div]
    rw [getLast?_cons_ne_nil _ _ (gaps_used_ne_nil _ (knuth_gap_pos k))]
    exact ih

theorem gaps_used_chain (g : Nat) :
    List.Chain' (fun x y => y = x / 3) (gaps_used g) ∧
      ∀ x ∈ gaps_used g, 0 < x := by
  induction g using Nat.strong_induction_on with
  | _ g ih =>
    by_cases h : 0 < g
    · have hrec := ih (g / 3) (Nat.div_lt_self h (by norm_num))
      rw [gaps_used_head g h]
      constructor
      · rw [List.chain'_cons']
        refine ⟨?_, hrec.1⟩
        intro y hy
        by_cases h3 : 0 < g / 3
        · rw [gaps_used_head _ h3] at hy
          simp only [List.head?_cons, Option.mem_def, Option.some_inj] at hy
          omega
        · have : g / 3 = 0 := by omega
          rw [this] at hy
          rw [gaps_used.eq_def] at hy
          norm_num at hy
          exact absurd hy (by simp)
      · intro x hx
        rcases List.mem_cons.mp hx with rfl | hx'
        · exact h
        · exact hrec.2 x hx'
    · rw [gaps_used.eq_def, dif_neg h]
      exact ⟨List.chain'_nil, by simp⟩

theorem gap_loop_eq_gaps_foldl (g : Nat) :
    ∀ a, gap_loop a g = gaps_foldl a (gaps_used g) := by
  induction g using Nat.strong_induction_on with
  | _ g ih =>
    intro a
    rw [gap_loop.eq_def, gaps_used.eq_def]
    split_ifs with h
    · rw [gaps_foldl, dif_pos h]
      exact ih (g / 3) (Nat.div_lt_self h (by norm_num)) _
    · rfl

/-- Claim C7 counterexample: on an array of length 30, `n // 3 = 10` but the
initial gap `shell_sort` uses for its gapped passes is 13, which is not
below `n / 3`. -/
theorem c7_initial_gap_counterexample :
    gap_grow (List.replicate 30 (37 : Int)).length 1 = 13 ∧
      ¬ ((13 : Nat) < 30 / 3) := by
  constructor
  · rw [List.length_replicate]
    rw [gap_grow.eq_def]
    norm_num
    rw [gap_grow.eq_def]
    norm_num
    rw [gap_grow.eq_def]
    norm_num
  · decide

/-- Claim C7 amended: `shell_sort` generates its gap sequence by Knuth's
formula `gap = gap * 3 + 1` starting from 1, growing while `gap < n // 3`,
so the first gap used is a Knuth number that is at least `n // 3` (not below
`n / 3`); the loop then runs one gapped pass per value of the chain
`gap, gap // 3, ...` down to 0 (exclusive), whose last entry is 1. -/
theorem c7_gap_sequence (arr : List Int) :
    (∃ k, gap_grow arr.length 1 = knuth_gap k) ∧
    arr.length / 3 ≤ gap_grow arr.length 1 ∧
    shell_sort arr = gaps_foldl arr (gaps_used (gap_grow arr.length 1)) ∧
    List.Chain' (fun x y => y = x / 3)
      (gaps_used (gap_grow arr.length 1)) ∧
    (∀ g ∈ gaps_used (gap_grow arr.length 1), 0 < g) ∧
    (gaps_used (gap_grow arr.length 1)).getLast? = some 1 := by
  obtain ⟨k, hk⟩ := gap_grow_knuth arr.length 1 ⟨0, rfl⟩
  refine ⟨⟨k, hk⟩, gap_grow_ge arr.length 1, ?_, ?_, ?_, ?_⟩
  · exact gap_loop_eq_gaps_foldl _ arr
  · exact (gaps_used_chain _).1
  · exact (gaps_used_chain _).2
  · rw [hk]
    exact gaps_used_knuth_last k

/-- Witness for C7 on a concrete 30-element array. -/
theorem c7_gap_sequence_witness :
    (13 : Nat) ∈ gaps_used (gap_grow (List.replicate 30 (37 : Int)).length 1) →
      0 < (13 : Nat) :=
  fun h => (c7_gap_sequence (List.replicate 30 37)).2.2.2.2.1 13 h

/-! ### Claim C9: radix sort with a nonpositive maximum -/

/-- The list of `exp` values for which `radix_sort`'s loop actually runs a
counting-sort pass. -/
def radix_pass_exps (max_val exp : Int) : List Int :=
  if h : 0 < max_val.fdiv exp then
    exp :: radix_pass_exps max_val (exp * 10)
  else []
termination_by (max_val.fdiv exp).toNat
decreasing_by exact fdiv_mul_ten_toNat_lt h

/-- Claim C9: on a nonempty array whose maximum is at most 0 (for example an
all-negative array), `radix_sort` performs no digit pass and returns the
array unchanged, element by element. -/
theorem c9_radix_nonpositive_max (arr : List Int) (hne : arr ≠ [])
    (hmax : pyMax arr ≤ 0) :
    radix_sort arr = arr ∧ radix_pass_exps (pyMax arr) 1 = [] := by
  have hcond : ¬ (0 < (pyMax arr).fdiv 1) := by
    rw [Int.fdiv_one]
    omega
  constructor
  · rw [radix_sort]
    rw [if_neg (by simpa [List.isEmpty_iff] using hne)]
    rw [radix_loop.eq_def]
    rw [dif_neg hcond]
  · rw [radix_pass_exps.eq_def]
    rw [dif_neg hcond]

/-- Witness for C9 on a concrete all-negative array. -/
theorem c9_radix_nonpositive_max_witness :
    radix_sort [-3, -1, -2] = [-3, -1, -2] ∧
      radix_pass_exps (pyMax [-3, -1, -2]) 1 = [] :=
  c9_radix_nonpositive_max [-3, -1, -2] (by decide) (by decide)

/-! ### Segment infrastructure for the in-place sorting proofs -/

/-- Positions `lo ≤ p ≤ q < hi` of `a` are pairwise ordered. -/
def SortedSeg (a : List Int) (lo hi : Nat) : Prop :=
  ∀ p q, lo ≤ p → p ≤ q → q < hi → geti a p ≤ geti a q

theorem geti_pySlice (a : List Int) (lo hi t : Nat) (ht : t < hi - lo)
    (hhi : lo + t < a.length) :
    geti (pySlice a lo hi) t = geti a (lo + t) := by
  simp only [pySlice, geti, List.getD_eq_getElem?_getD]
  rw [List.getElem?_take_of_lt ht, List.getElem?_drop]

@[simp] theorem length_pySlice (a : List Int) (lo hi : Nat) :
    (pySlice a lo hi).length = min (hi - lo) (a.length - lo) := by
  simp [pySlice]

theorem length_pySlice_of_le (a : List Int) (lo hi : Nat) (h1 : lo ≤ hi)
    (h2 : hi ≤ a.length) : (pySlice a lo hi).length = hi - lo := by
  simp only [length_pySlice]
  omega

theorem pySlice_decomp (a : List Int) (lo hi : Nat) (h1 : lo ≤ hi)
    (h2 : hi ≤ a.length) :
    a = a.take lo ++ pySlice a lo hi ++ a.drop hi := by
  have hdrop : a.drop hi = (a.drop lo).drop (hi - lo) := by
    rw [List.drop_drop]
    congr 1
    omega
  rw [hdrop, pySlice, List.append_assoc, List.take_append_drop,
    List.take_append_drop]

theorem take_eq_of_geti_eq (a b : List Int) (n : Nat)
    (hlen : a.length = b.length) (hn : n ≤ a.length)
    (h : ∀ k, k < n → geti a k = geti b k) : a.take n = b.take n := by
  apply List.ext_getElem?
  intro k
  by_cases hk : k < n
  · rw [List.getElem?_take_of_lt hk, List.getElem?_take_of_lt hk]
    have hka : k < a.length := by omega
    have hkb : k < b.length := by omega
    rw [List.getElem?_eq_getElem hka, List.getElem?_eq_getElem hkb]
    have := h k hk
    rw [geti_eq_getElem _ _ hka, geti_eq_getElem _ _ hkb] at this
    exact congrArg some this
  · have hk' : n ≤ k := by omega
    rw [List.getElem?_eq_none, List.getElem?_eq_none] <;>
      simp [List.length_take] <;> omega

theorem drop_eq_of_geti_eq (a b : List Int) (n : Nat)
    (hlen : a.length = b.length)
    (h : ∀ k, n ≤ k → geti a k = geti b k) : a.drop n = b.drop n := by
  apply List.ext_getElem?
  intro k
  rw [List.getElem?_drop, List.getElem?_drop]
  by_cases hk : n + k < a.length
  · have hkb : n + k < b.length := by omega
    rw [List.getElem?_eq_getElem hk, List.getElem?_eq_getElem hkb]
    have := h (n + k) (by omega)
    rw [geti_eq_getElem _ _ hk, geti_eq_getElem _ _ hkb] at this
    exact congrArg some this
  · rw [List.getElem?_eq_none (by omega), List.getElem?_eq_none (by omega)]

/-- A permutation that leaves everything outside `[lo, hi)` untouched
restricts to a permutation of the segment `[lo, hi)`. -/
theorem pySlice_perm_of_perm_frame (a b : List Int) (lo hi : Nat)
    (h1 : lo ≤ hi) (h2 : hi ≤ a.length) (hlen : b.length = a.length)
    (hperm : b.Perm a)
    (hframe : ∀ k, k < lo ∨ hi ≤ k → geti b k = geti a k) :
    (pySlice b lo hi).Perm (pySlice a lo hi) := by
  have hda : a = a.take lo ++ pySlice a lo hi ++ a.drop hi :=
    pySlice_decomp a lo hi h1 h2
  have hdb : b = b.take lo ++ pySlice b lo hi ++ b.drop hi :=
    pySlice_decomp b lo hi h1 (by omega)
  have htake : b.take lo = a.take lo :=
    take_eq_of_geti_eq b a lo hlen (by omega)
      (fun k hk => hframe k (Or.inl hk))
  have hdrop : b.drop hi = a.drop hi :=
    drop_eq_of_geti_eq b a hi hlen (fun k hk => hframe k (Or.inr hk))
  have hb' : a.take lo ++ pySlice b lo hi ++ a.drop hi = b := by
    rw [← htake, ← hdrop]
    exact hdb.symm
  have hp : (a.take lo ++ pySlice b lo hi ++ a.drop hi).Perm
      (a.take lo ++ pySlice a lo hi ++ a.drop hi) := by
    rw [hb', ← hda]
    exact hperm
  rw [List.append_assoc, List.append_assoc] at hp
  have hp2 := (List.perm_append_left_iff (a.take lo)).mp hp
  exact (List.perm_append_right_iff (a.drop hi)).mp hp2

/-- Elements of a segment are exactly the values at its positions. -/
theorem mem_pySlice_iff (a : List Int) (lo hi : Nat) (h1 : lo ≤ hi)
    (h2 : hi ≤ a.length) (x : Int) :
    x ∈ pySlice a lo hi ↔ ∃ p, lo ≤ p ∧ p < hi ∧ geti a p = x := by
  have hlen := length_pySlice_of_le a lo hi h1 h2
  constructor
  · intro hx
    obtain ⟨t, ht, hget⟩ := List.getElem_of_mem hx
    have ht' : t < hi - lo := by omega
    have hbound : lo + t < a.length := by omega
    refine ⟨lo + t, by omega, by omega, ?_⟩
    rw [← geti_pySlice a lo hi t ht' hbound]
    rw [geti_eq_getElem _ _ (by omega)]
    exact hget
  · rintro ⟨p, hp1, hp2, rfl⟩
    have ht' : p - lo < hi - lo := by omega
    have : geti (pySlice a lo hi) (p - lo) = geti a p := by
      rw [geti_pySlice a lo hi (p - lo) ht' (by omega)]
      congr 1
      omega
    rw [← this, geti_eq_getElem _ _ (by omega)]
    exact List.getElem_mem _

end SortProof

namespace SortProof

/-- Functional merge of two lists by `≤`, biased to the left on ties (the
comparison the source's merge loop performs). -/
def mergeLists : List Int → List Int → List Int
  | [], r => r
  | l, [] => l
  | x :: l, y :: r =>
    if x ≤ y then x :: mergeLists l (y :: r) else y :: mergeLists (x :: l) r
termination_by l r => l.length + r.length

theorem mergeLists_perm : ∀ l r : List Int, (mergeLists l r).Perm (l ++ r) := by
  intro l r
  induction l, r using mergeLists.induct with
  | case1 r => simp [mergeLists]
  | case2 l => cases l <;> simp [mergeLists]
  | case3 x l y r hle ih =>
    rw [mergeLists, if_pos hle]
    exact (ih.cons x).trans (by rfl)
  | case4 x l y r hle ih =>
    rw [mergeLists, if_neg hle]
    exact (ih.cons y).trans List.perm_middle.symm

theorem mem_mergeLists (l r : List Int) (z : Int) :
    z ∈ mergeLists l r ↔ z ∈ l ∨ z ∈ r := by
  rw [(mergeLists_perm l r).mem_iff, List.mem_append]

theorem mergeLists_sorted : ∀ l r : List Int, l.Sorted (· ≤ ·) →
    r.Sorted (· ≤ ·) → (mergeLists l r).Sorted (· ≤ ·) := by
  intro l r
  induction l, r using mergeLists.induct with
  | case1 r =>
    intro _ hr
    simpa [mergeLists] using hr
  | case2 l =>
    intro hl _
    cases l <;> simpa [mergeLists] using hl
  | case3 x l y r hle ih =>
    intro hl hr
    rw [mergeLists, if_pos hle]
    rw [List.sorted_cons] at hl ⊢
    refine ⟨?_, ih hl.2 hr⟩
    intro z hz
    rcases (mem_mergeLists _ _ _).mp hz with hz | hz
    · exact hl.1 z hz
    · rcases List.mem_cons.mp hz with rfl | hz'
      · exact hle
      · rw [List.sorted_cons] at hr
        exact le_trans hle (hr.1 z hz')
  | case4 x l y r hle ih =>
    intro hl hr
    rw [mergeLists, if_neg hle]
    rw [List.sorted_cons] at hr ⊢
    refine ⟨?_, ih hl hr.2⟩
    intro z hz
    have hyx : y ≤ x := le_of_lt (lt_of_not_ge hle)
    rcases (mem_mergeLists _ _ _).mp hz with hz | hz
    · rcases List.mem_cons.mp hz with rfl | hz'
      · exact hyx
      · rw [List.sorted_cons] at hl
        exact le_trans hyx (hl.1 z hz')
    · exact hr.1 z hz

theorem mergeLists_length (l r : List Int) :
    (mergeLists l r).length = l.length + r.length := by
  simpa using (mergeLists_perm l r).length_eq

end SortProof

namespace SortProof

/-- Overwrite the positions `k, k+1, ...` of `a` with the values of `xs`. -/
def setSeg (a : List Int) (k : Nat) (xs : List Int) : List Int :=
  a.take k ++ xs ++ a.drop (k + xs.length)

@[simp] theorem setSeg_nil (a : List Int) (k : Nat) : setSeg a k [] = a := by
  simp [setSeg]

theorem length_setSeg (a : List Int) (k : Nat) (xs : List Int)
    (h : k + xs.length ≤ a.length) : (setSeg a k xs).length = a.length := by
  simp [setSeg]
  omega

theorem setSeg_cons (a : List Int) (k : Nat) (x : Int) (xs : List Int)
    (h : k < a.length) :
    setSeg a k (x :: xs) = setSeg (a.set k x) (k + 1) xs := by
  rw [setSeg, setSeg, List.set_eq_take_cons_drop _ h]
  have htake : (a.take k ++ x :: a.drop (k + 1)).take (k + 1)
      = a.take k ++ [x] := by
    rw [List.take_append_eq_append_take]
    have h1 : (a.take k).length = k := List.length_take_of_le (by omega)
    rw [List.take_of_length_le (by omega), h1]
    congr 1
    rw [show k + 1 - k = 1 from by omega]
    rfl
  have hdrop : (a.take k ++ x :: a.drop (k + 1)).drop (k + 1 + xs.length)
      = a.drop (k + (x :: xs).length) := by
    rw [List.drop_append_eq_append_drop]
    have h1 : (a.take k).length = k := List.length_take_of_le (by omega)
    rw [List.drop_of_length_le (by omega), h1]
    rw [show k + 1 + xs.length - k = xs.length + 1 from by omega]
    rw [show (x :: a.drop (k + 1)).drop (xs.length + 1)
      = (a.drop (k + 1)).drop xs.length from rfl]
    rw [List.drop_drop]
    simp only [List.length_cons, List.nil_append]
    congr 1
    omega
  rw [htake, hdrop]
  simp [List.append_assoc]

theorem geti_setSeg_lt (a : List Int) (k : Nat) (xs : List Int) (p : Nat)
    (hp : p < k) (hk : k ≤ a.length) : geti (setSeg a k xs) p = geti a p := by
  rw [setSeg, geti, geti, List.getD_eq_getElem?_getD, List.getD_eq_getElem?_getD]
  rw [List.getElem?_append_left (by
    rw [List.length_append, List.length_take_of_le hk]
    omega)]
  rw [List.getElem?_append_left (by
    rw [List.length_take_of_le hk]
    exact hp)]
  rw [List.getElem?_take_of_lt hp]

theorem geti_setSeg_mid (a : List Int) (k : Nat) (xs : List Int) (p : Nat)
    (h1 : k ≤ p) (h2 : p < k + xs.length) (hk : k ≤ a.length) :
    geti (setSeg a k xs) p = geti xs (p - k) := by
  rw [setSeg, geti, geti, List.getD_eq_getElem?_getD, List.getD_eq_getElem?_getD]
  have hlen : (a.take k).length = k := List.length_take_of_le hk
  rw [List.getElem?_append_left (by
    rw [List.length_append, hlen]
    omega)]
  rw [List.getElem?_append_right (by omega), hlen]

theorem geti_setSeg_ge (a : List Int) (k : Nat) (xs : List Int) (p : Nat)
    (h1 : k + xs.length ≤ p) (hk : k ≤ a.length) :
    geti (setSeg a k xs) p = geti a p := by
  rw [setSeg, geti, geti, List.getD_eq_getElem?_getD, List.getD_eq_getElem?_getD]
  have hlen : (a.take k).length = k := List.length_take_of_le hk
  rw [List.getElem?_append_right (by
    rw [List.length_append, hlen]
    omega)]
  rw [List.getElem?_drop]
  have hidx : k + xs.length + (p - (a.take k ++ xs).length) = p := by
    rw [List.length_append, hlen]
    omega
  rw [hidx]

theorem setSeg_perm (a : List Int) (k : Nat) (xs : List Int)
    (hlen : k + xs.length ≤ a.length)
    (hperm : xs.Perm (pySlice a k (k + xs.length))) :
    (setSeg a k xs).Perm a := by
  have hd : a = a.take k ++ pySlice a k (k + xs.length)
      ++ a.drop (k + xs.length) :=
    pySlice_decomp a k (k + xs.length) (by omega) hlen
  rw [setSeg]
  conv_rhs => rw [hd]
  exact List.Perm.append_right _ (List.Perm.append_left _ hperm)

end SortProof

namespace SortProof

theorem copy_loop_spec (half : List Int) :
    ∀ a i k, i ≤ half.length → k + (half.length - i) ≤ a.length →
    copy_loop half a i k
      = (setSeg a k (half.drop i), half.length, k + (half.length - i)) := by
  intro a i k
  induction a, i, k using copy_loop.induct half with
  | case1 a i k h ih =>
    intro hi hk
    rw [copy_loop, dif_pos h]
    rw [ih (by omega) (by simp; omega)]
    have hd : half.drop i = half[i] :: half.drop (i + 1) :=
      List.drop_eq_getElem_cons h
    rw [hd, setSeg_cons a k _ _ (by omega)]
    have hg : geti half i = half[i] := geti_eq_getElem _ _ h
    rw [hg]
    refine congrArg _ ?_
    refine congrArg _ ?_
    omega
  | case2 a i k h =>
    intro hi hk
    rw [copy_loop, dif_neg h]
    have hieq : i = half.length := by omega
    subst hieq
    simp

end SortProof

namespace SortProof

theorem mergeLists_nil_right : ∀ l : List Int, mergeLists l [] = l := by
  intro l
  rw [mergeLists.eq_def]
  cases l <;> rfl

theorem mergeLists_nil_left (r : List Int) : mergeLists [] r = r := by
  rw [mergeLists.eq_def]
  cases r <;> rfl

theorem mergeLists_cons_cons (x y : Int) (l r : List Int) :
    mergeLists (x :: l) (y :: r)
      = if x ≤ y then x :: mergeLists l (y :: r)
        else y :: mergeLists (x :: l) r := by
  rw [mergeLists]

/-- The sequential composition of the three loops inside `merge`. -/
def merge_write (left right a : List Int) (i j k : Nat) : List Int :=
  let r1 := mloop1 left right a i j k
  let r2 := copy_loop left r1.1 r1.2.1 r1.2.2.2
  let r3 := copy_loop right r2.1 r1.2.2.1 r2.2.2
  r3.1

/-- The three loops of `merge` write the functional merge of the remaining
halves into `a` starting at position `k`. -/
theorem merge_write_spec (left right : List Int) :
    ∀ a i j k, i ≤ left.length → j ≤ right.length →
    k + (left.length - i) + (right.length - j) ≤ a.length →
    merge_write left right a i j k
      = setSeg a k (mergeLists (left.drop i) (right.drop j)) := by
  intro a i j k
  induction a, i, j, k using mloop1.induct left right with
  | case1 a i j k h hle ih =>
    intro hi hj hk
    have hchain : merge_write left right a i j k
        = merge_write left right (a.set k (geti left i)) (i + 1) j (k + 1) := by
      unfold merge_write
      rw [mloop1, dif_pos h, if_pos hle]
    rw [hchain, ih h.1 hj (by simp; omega)]
    have hdl : left.drop i = left[i] :: left.drop (i + 1) :=
      List.drop_eq_getElem_cons h.1
    have hdr : right.drop j = right[j] :: right.drop (j + 1) :=
      List.drop_eq_getElem_cons h.2
    have hgl : geti left i = left[i] := geti_eq_getElem _ _ h.1
    have hgr : geti right j = right[j] := geti_eq_getElem _ _ h.2
    rw [hdl, hdr, mergeLists_cons_cons,
      if_pos (by rw [← hgl, ← hgr]; exact hle), ← hdr]
    rw [setSeg_cons a k _ _ (by omega), hgl]
  | case2 a i j k h hle ih =>
    intro hi hj hk
    have hchain : merge_write left right a i j k
        = merge_write left right (a.set k (geti right j)) i (j + 1) (k + 1) := by
      unfold merge_write
      rw [mloop1, dif_pos h, if_neg hle]
    rw [hchain, ih hi h.2 (by simp; omega)]
    have hdl : left.drop i = left[i] :: left.drop (i + 1) :=
      List.drop_eq_getElem_cons h.1
    have hdr : right.drop j = right[j] :: right.drop (j + 1) :=
      List.drop_eq_getElem_cons h.2
    have hgl : geti left i = left[i] := geti_eq_getElem _ _ h.1
    have hgr : geti right j = right[j] := geti_eq_getElem _ _ h.2
    rw [hdl, hdr, mergeLists_cons_cons,
      if_neg (by rw [← hgl, ← hgr]; exact hle), ← hdl]
    rw [setSeg_cons a k _ _ (by omega), hgr]
  | case3 a i j k h =>
    intro hi hj hk
    have hchain : mloop1 left right a i j k = (a, i, j, k) := by
      rw [mloop1, dif_neg h]
    by_cases hi2 : i < left.length
    · have hjlt : ¬ j < right.length := fun hj' => h ⟨hi2, hj'⟩
      have hjeq : j = right.length := by omega
      subst hjeq
      have hcl : copy_loop left a i k
          = (setSeg a k (left.drop i), left.length, k + (left.length - i)) :=
        copy_loop_spec left a i k hi (by omega)
      have hcr : copy_loop right (setSeg a k (left.drop i)) right.length
          (k + (left.length - i))
          = (setSeg a k (left.drop i), right.length,
             k + (left.length - i)) := by
        rw [copy_loop.eq_def, dif_neg (by omega)]
      rw [merge_write, hchain]
      simp only
      rw [hcl]
      simp only
      rw [hcr, List.drop_length, mergeLists_nil_right]
    · have hieq : i = left.length := by omega
      subst hieq
      have hcl : copy_loop left a left.length k = (a, left.length, k) := by
        rw [copy_loop.eq_def, dif_neg (by omega)]
      rw [merge_write, hchain]
      simp only
      rw [hcl]
      simp only
      rw [copy_loop_spec right a j k hj (by omega)]
      rw [List.drop_length, mergeLists_nil_left]

end SortProof

namespace SortProof

theorem pySlice_append (a : List Int) (lo mid hi : Nat) (h1 : lo ≤ mid)
    (h2 : mid ≤ hi) :
    pySlice a lo mid ++ pySlice a mid hi = pySlice a lo hi := by
  rw [pySlice, pySlice, pySlice]
  rw [show hi - lo = (mid - lo) + (hi - mid) from by omega, List.take_add]
  congr 1
  rw [List.drop_drop]
  congr 2
  omega

theorem sortedSeg_iff (a : List Int) (lo hi : Nat) (h2 : hi ≤ a.length) :
    SortedSeg a lo hi ↔ (pySlice a lo hi).Sorted (· ≤ ·) := by
  constructor
  · intro hs
    rw [List.Sorted, List.pairwise_iff_getElem]
    intro i j hilt hjlt hij
    have hlenm := length_pySlice a lo hi
    by_cases hlo : lo ≤ hi
    case neg =>
      exfalso
      omega
    have hlen : (pySlice a lo hi).length = hi - lo := by omega
    rw [← geti_eq_getElem _ _ hilt, ← geti_eq_getElem _ _ hjlt]
    rw [geti_pySlice a lo hi i (by omega) (by omega),
      geti_pySlice a lo hi j (by omega) (by omega)]
    exact hs (lo + i) (lo + j) (by omega) (by omega) (by omega)
  · intro hs p q hp hpq hq
    rcases Nat.eq_or_lt_of_le hpq with rfl | hlt
    · exact le_refl _
    have hlo : lo ≤ hi := by omega
    have hlen : (pySlice a lo hi).length = hi - lo := by
      rw [length_pySlice]
      omega
    rw [List.Sorted, List.pairwise_iff_getElem] at hs
    have := hs (p - lo) (q - lo) (by omega) (by omega) (by omega)
    rw [← geti_eq_getElem _ _ (by omega : p - lo < (pySlice a lo hi).length),
      ← geti_eq_getElem _ _ (by omega : q - lo < (pySlice a lo hi).length)]
      at this
    rw [geti_pySlice a lo hi (p - lo) (by omega) (by omega),
      geti_pySlice a lo hi (q - lo) (by omega) (by omega)] at this
    rw [show lo + (p - lo) = p from by omega,
      show lo + (q - lo) = q from by omega] at this
    exact this

end SortProof

namespace SortProof

theorem merge_eq (a : List Int) (left mid right : Nat) (h1 : left ≤ mid)
    (h2 : mid < right) (h3 : right < a.length) :
    merge a left mid right = setSeg a left
      (mergeLists (pySlice a left (mid + 1)) (pySlice a (mid + 1) (right + 1)))
      := by
  have hwr : merge a left mid right
      = merge_write (pySlice a left (mid + 1)) (pySlice a (mid + 1) (right + 1))
        a 0 0 left := rfl
  have hl1 : (pySlice a left (mid + 1)).length = mid + 1 - left :=
    length_pySlice_of_le a left (mid + 1) (by omega) (by omega)
  have hl2 : (pySlice a (mid + 1) (right + 1)).length = right + 1 - (mid + 1) :=
    length_pySlice_of_le a (mid + 1) (right + 1) (by omega) (by omega)
  rw [hwr, merge_write_spec _ _ a 0 0 left (by omega) (by omega)
    (by rw [hl1, hl2]; omega)]
  rw [List.drop_zero, List.drop_zero]

/-- All properties of `merge` the helper induction needs. -/
theorem merge_props (a : List Int) (left mid right : Nat) (h1 : left ≤ mid)
    (h2 : mid < right) (h3 : right < a.length) :
    (merge a left mid right).length = a.length ∧
    (merge a left mid right).Perm a ∧
    (∀ k, k < left ∨ right < k → geti (merge a left mid right) k = geti a k) ∧
    (SortedSeg a left (mid + 1) → SortedSeg a (mid + 1) (right + 1) →
      SortedSeg (merge a left mid right) left (right + 1)) := by
  have hl1 : (pySlice a left (mid + 1)).length = mid + 1 - left :=
    length_pySlice_of_le a left (mid + 1) (by omega) (by omega)
  have hl2 : (pySlice a (mid + 1) (right + 1)).length = right + 1 - (mid + 1) :=
    length_pySlice_of_le a (mid + 1) (right + 1) (by omega) (by omega)
  set s1 := pySlice a left (mid + 1) with hs1
  set s2 := pySlice a (mid + 1) (right + 1) with hs2
  have hmlen : (mergeLists s1 s2).length = right + 1 - left := by
    rw [mergeLists_length, hl1, hl2]
    omega
  have happ : s1 ++ s2 = pySlice a left (right + 1) :=
    pySlice_append a left (mid + 1) (right + 1) (by omega) (by omega)
  have hperm0 : (mergeLists s1 s2).Perm (pySlice a left (right + 1)) := by
    rw [← happ]
    exact mergeLists_perm s1 s2
  have hbound : left + (mergeLists s1 s2).length ≤ a.length := by
    rw [hmlen]
    omega
  rw [merge_eq a left mid right h1 h2 h3, ← hs1, ← hs2]
  refine ⟨length_setSeg _ _ _ hbound, ?_, ?_, ?_⟩
  · refine setSeg_perm a left _ hbound ?_
    rw [show left + (mergeLists s1 s2).length = right + 1 from by omega]
    exact hperm0
  · intro k hk
    rcases hk with hk | hk
    · exact geti_setSeg_lt a left _ k hk (by omega)
    · exact geti_setSeg_ge a left _ k (by omega) (by omega)
  · intro hseg1 hseg2
    have hsort : (mergeLists s1 s2).Sorted (· ≤ ·) := by
      refine mergeLists_sorted s1 s2 ?_ ?_
      · exact (sortedSeg_iff a left (mid + 1) (by omega)).mp hseg1
      · exact (sortedSeg_iff a (mid + 1) (right + 1) (by omega)).mp hseg2
    intro p q hp hpq hq
    have hql : q < left + (mergeLists s1 s2).length := by omega
    rw [geti_setSeg_mid a left _ p hp (by omega) (by omega),
      geti_setSeg_mid a left _ q (by omega) hql (by omega)]
    rcases Nat.eq_or_lt_of_le hpq with rfl | hlt
    · exact le_refl _
    rw [List.Sorted, List.pairwise_iff_getElem] at hsort
    have := hsort (p - left) (q - left) (by omega) (by omega) (by omega)
    rw [← geti_eq_getElem _ _ (by omega : p - left < (mergeLists s1 s2).length),
      ← geti_eq_getElem _ _ (by omega : q - left < (mergeLists s1 s2).length)]
      at this
    exact this

end SortProof

namespace SortProof

theorem sortedSeg_transfer (a b : List Int) (lo hi : Nat)
    (hf : ∀ k, lo ≤ k → k < hi → geti b k = geti a k)
    (hs : SortedSeg a lo hi) : SortedSeg b lo hi := by
  intro p q hp hpq hq
  rw [hf p hp (by omega), hf q (by omega) hq]
  exact hs p q hp hpq hq

theorem merge_sort_helper_spec :
    ∀ a left right, right < a.length →
    (merge_sort_helper a left right).length = a.length ∧
    (merge_sort_helper a left right).Perm a ∧
    (∀ k, k < left ∨ right < k →
      geti (merge_sort_helper a left right) k = geti a k) ∧
    SortedSeg (merge_sort_helper a left right) left (right + 1) := by
  intro a left right
  induction a, left, right using merge_sort_helper.induct with
  | case1 a left right h mid a1 ih1 ihdup ih2 =>
    clear ihdup
    intro hlen
    have hmv : mid = (left + right) / 2 := rfl
    have hmid1 : left ≤ mid := by omega
    have hmid2 : mid < right := by omega
    have h1 := ih1 (by omega)
    have h2 := ih2 (show right < (merge_sort_helper a left mid).length from by
      rw [h1.1]
      exact hlen)
    set A2 := merge_sort_helper a1 (mid + 1) right with hA2
    have hunf : merge_sort_helper a left right = merge A2 left mid right := by
      conv_lhs => rw [merge_sort_helper.eq_def]
      rw [dif_pos h]
    have hA2len : A2.length = a.length := by
      rw [(h2.1 : A2.length = a1.length)]
      exact h1.1
    have hlen2 : right < A2.length := by
      rw [hA2len]
      exact hlen
    have hmp := merge_props A2 left mid right hmid1 hmid2 hlen2
    rw [hunf]
    refine ⟨?_, ?_, ?_, ?_⟩
    · rw [hmp.1, hA2len]
    · exact (hmp.2.1.trans h2.2.1).trans h1.2.1
    · intro k hk
      rw [hmp.2.2.1 k hk]
      rw [(h2.2.2.1 k (by omega) : geti A2 k = geti a1 k)]
      exact h1.2.2.1 k (by omega)
    · refine hmp.2.2.2 ?_ h2.2.2.2
      refine sortedSeg_transfer (merge_sort_helper a left mid) A2 left
        (mid + 1) ?_ h1.2.2.2
      intro k hk1 hk2
      exact h2.2.2.1 k (by omega)
  | case2 a left right h =>
    intro hlen
    have hunf : merge_sort_helper a left right = a := by
      rw [merge_sort_helper.eq_def, dif_neg h]
    rw [hunf]
    refine ⟨rfl, List.Perm.refl a, fun k _ => rfl, ?_⟩
    intro p q hp hpq hq
    have hpq' : p = q := by omega
    rw [hpq']

end SortProof

namespace SortProof

theorem pySlice_full (a : List Int) : pySlice a 0 a.length = a := by
  rw [pySlice, List.drop_zero, Nat.sub_zero, List.take_length]

theorem merge_sort_correct (arr : List Int) :
    (merge_sort arr).Perm arr ∧ (merge_sort arr).Sorted (· ≤ ·) := by
  rw [merge_sort]
  split_ifs with hl
  · have hs := merge_sort_helper_spec arr 0 (arr.length - 1) (by omega)
    refine ⟨hs.2.1, ?_⟩
    set R := merge_sort_helper arr 0 (arr.length - 1) with hR
    have hseg := hs.2.2.2
    have heq : arr.length - 1 + 1 = arr.length := by omega
    rw [heq] at hseg
    rw [sortedSeg_iff _ 0 arr.length (le_of_eq hs.1.symm)] at hseg
    have hfull : pySlice R 0 arr.length = R := by
      rw [show arr.length = R.length from hs.1.symm]
      exact pySlice_full R
    rwa [hfull] at hseg
  · refine ⟨List.Perm.refl arr, ?_⟩
    match arr, hl with
    | [], _ => simp
    | [x], _ => simp
    | x :: y :: t, hl =>
      exact absurd (by simp only [List.length_cons]; omega) hl

end SortProof

namespace SortProof

/-- Full invariant-based specification of the Lomuto partition loop. -/
theorem ploop_spec (pivot : Int) (low : Nat) :
    ∀ (a : List Int) (i : Int) (j high : Nat),
    high < a.length →
    ((low : Int) - 1 ≤ i ∧ i < j ∧ j ≤ high) →
    (∀ k : Nat, low ≤ k → (k : Int) ≤ i → geti a k ≤ pivot) →
    (∀ k : Nat, (i : Int) < k → k < j → pivot < geti a k) →
    (ploop a pivot i j high).1.length = a.length ∧
    (ploop a pivot i j high).1.Perm a ∧
    (∀ k : Nat, k < low ∨ high ≤ k →
      geti (ploop a pivot i j high).1 k = geti a k) ∧
    ((low : Int) - 1 ≤ (ploop a pivot i j high).2 ∧
      i ≤ (ploop a pivot i j high).2 ∧ (ploop a pivot i j high).2 < high) ∧
    (∀ k : Nat, low ≤ k → (k : Int) ≤ (ploop a pivot i j high).2 →
      geti (ploop a pivot i j high).1 k ≤ pivot) ∧
    (∀ k : Nat, ((ploop a pivot i j high).2 : Int) < k → k < high →
      pivot < geti (ploop a pivot i j high).1 k) := by
  intro a i j high
  induction a, pivot, i, j, high using ploop.induct with
  | case1 a pvt i j high hj hle ih =>
    intro hlen hij h3 h4
    rw [ploop, dif_pos hj, if_pos hle]
    have hs : (((i + 1).toNat : Int)) = i + 1 := Int.toNat_of_nonneg (by omega)
    have hsj : (i + 1).toNat ≤ j := by omega
    have hjlen : j < a.length := by omega
    have hslen : (i + 1).toNat < a.length := by omega
    have hprem3 : ∀ k : Nat, low ≤ k → (k : Int) ≤ i + 1 →
        geti (lswap a (i + 1).toNat j) k ≤ pvt := by
      intro k hk1 hk2
      by_cases hks : k = (i + 1).toNat
      · subst hks
        by_cases hkj : (i + 1).toNat = j
        · rw [hkj, lswap_self]
          exact hle
        · rw [geti_lswap_left a _ j hslen hkj]
          exact hle
      · have hkj : k ≠ j := by omega
        rw [geti_lswap_other a _ j k (Ne.symm hks) (Ne.symm hkj)]
        exact h3 k hk1 (by omega)
    have hprem4 : ∀ k : Nat, (i + 1 : Int) < k → k < j + 1 →
        pvt < geti (lswap a (i + 1).toNat j) k := by
      intro k hk1 hk2
      by_cases hkj : k = j
      · subst hkj
        have hlt : i + 1 < (k : Int) := hk1
        by_cases hsj' : (i + 1).toNat = k
        · omega
        · rw [geti_lswap_right a _ k hjlen]
          exact h4 (i + 1).toNat (by omega) (by omega)
      · have hks : k ≠ (i + 1).toNat := by omega
        rw [geti_lswap_other a _ j k (Ne.symm hks) (Ne.symm hkj)]
        exact h4 k (by omega) (by omega)
    obtain ⟨L1, L2, L3, L4, L5, L6⟩ := ih (by simpa using hlen)
      ⟨by omega, by omega, by omega⟩ hprem3 hprem4
    refine ⟨?_, ?_, ?_, ⟨by omega, by omega, by omega⟩, L5, L6⟩
    · rw [L1]
      simp
    · exact L2.trans (lswap_perm a _ j hslen hjlen)
    · intro k hk
      rw [L3 k hk]
      have hks : (i + 1).toNat ≠ k := by omega
      have hkj : j ≠ k := by omega
      exact geti_lswap_other a _ j k hks hkj
  | case2 a pvt i j high hj hle ih =>
    intro hlen hij h3 h4
    rw [ploop, dif_pos hj, if_neg hle]
    refine ih hlen ⟨by omega, by omega, by omega⟩ h3 ?_
    intro k hk1 hk2
    by_cases hkj : k = j
    · subst hkj
      omega
    · exact h4 k hk1 (by omega)
  | case3 a pvt i j high hj =>
    intro hlen hij h3 h4
    rw [ploop, dif_neg hj]
    have hjh : j = high := by omega
    refine ⟨rfl, List.Perm.refl a, fun k _ => rfl, ⟨by omega, by omega, by omega⟩,
      h3, ?_⟩
    intro k hk1 hk2
    exact h4 k hk1 (by omega)

end SortProof

namespace SortProof

/-- Full specification of `partition`: the returned index `p` lies in
`[low, high]`, the array is permuted only inside `[low, high]`, and the
segment is partitioned around the value at `p`. -/
theorem partition_spec (a : List Int) (low high : Nat) (hlh : low < high)
    (hlen : high < a.length) :
    (partition a low high).1.length = a.length ∧
    (partition a low high).1.Perm a ∧
    (∀ k, k < low ∨ high < k →
      geti (partition a low high).1 k = geti a k) ∧
    (low ≤ (partition a low high).2 ∧ (partition a low high).2 ≤ high) ∧
    (∀ k, low ≤ k → k < (partition a low high).2 →
      geti (partition a low high).1 k
        ≤ geti (partition a low high).1 (partition a low high).2) ∧
    (∀ k, (partition a low high).2 < k → k ≤ high →
      geti (partition a low high).1 (partition a low high).2
        < geti (partition a low high).1 k) := by
  have hpidx := median_of_three_bounds a low high (by omega)
  set pidx := median_of_three a low high with hpide
  set a1 := lswap a pidx high with ha1
  have ha1len : a1.length = a.length := by simp [ha1]
  set pivot := geti a1 high with hpiv
  have hpl := ploop_spec pivot low a1 ((low : Int) - 1) low high
    (by omega)
    ⟨by omega, by omega, by omega⟩
    (by
      intro k hk1 hk2
      omega)
    (by
      intro k hk1 hk2
      omega)
  obtain ⟨L1, L2, L3, L4, L5, L6⟩ := hpl
  set r := ploop a1 pivot ((low : Int) - 1) low high with hr
  have hpdef : partition a low high
      = (lswap r.1 (r.2 + 1).toNat high, (r.2 + 1).toNat) := rfl
  set p := (r.2 + 1).toNat with hp
  have hpint : (p : Int) = r.2 + 1 := Int.toNat_of_nonneg (by omega)
  have hplow : low ≤ p := by omega
  have hphigh : p ≤ high := by omega
  have hr1len : r.1.length = a.length := by rw [L1, ha1len]
  have hphlen : high < r.1.length := by omega
  have hplen : p < r.1.length := by omega
  have hgp : geti (lswap r.1 p high) p = pivot := by
    by_cases hph : p = high
    · rw [hph, lswap_self]
      rw [L3 high (Or.inr (le_refl high))]
    · rw [geti_lswap_left r.1 p high hplen hph]
      rw [L3 high (Or.inr (le_refl high))]
  rw [hpdef]
  refine ⟨?_, ?_, ?_, ⟨hplow, hphigh⟩, ?_, ?_⟩
  · simp [hr1len]
  · exact ((lswap_perm r.1 p high hplen hphlen).trans L2).trans
      (lswap_perm a pidx high (by omega) hlen)
  · intro k hk
    have hk1 : p ≠ k := by omega
    have hk2 : high ≠ k := by omega
    rw [geti_lswap_other r.1 p high k hk1 hk2]
    rw [L3 k (by omega)]
    have hk3 : pidx ≠ k := by omega
    rw [ha1]
    exact geti_lswap_other a pidx high k hk3 hk2
  · intro k hk1 hk2
    simp only
    rw [hgp]
    have hka : p ≠ k := by omega
    have hkb : high ≠ k := by omega
    rw [geti_lswap_other r.1 p high k hka hkb]
    exact L5 k hk1 (by omega)
  · intro k hk1 hk2
    simp only
    rw [hgp]
    rcases Nat.eq_or_lt_of_le hk2 with rfl | hkh
    · by_cases hph : p = k
      · omega
      · rw [geti_lswap_right r.1 p k hphlen]
        exact L6 p (by omega) (by omega)
    · have hka : p ≠ k := by omega
      have hkb : high ≠ k := by omega
      rw [geti_lswap_other r.1 p high k hka hkb]
      exact L6 k (by omega) (by omega)

end SortProof

namespace SortProof

theorem pySlice_congr (a b : List Int) (lo hi : Nat)
    (h : ∀ k, lo ≤ k → k < hi → geti b k = geti a k)
    (hlen : b.length = a.length) :
    pySlice b lo hi = pySlice a lo hi := by
  apply List.ext_getElem?
  intro t
  by_cases ht : t < hi - lo
  · rw [pySlice, pySlice, List.getElem?_take_of_lt ht,
      List.getElem?_take_of_lt ht, List.getElem?_drop, List.getElem?_drop]
    by_cases hb : lo + t < a.length
    · rw [List.getElem?_eq_getElem (by omega), List.getElem?_eq_getElem hb]
      have := h (lo + t) (by omega) (by omega)
      rw [geti_eq_getElem _ _ (by omega), geti_eq_getElem _ _ hb] at this
      exact congrArg some this
    · rw [List.getElem?_eq_none (by omega), List.getElem?_eq_none (by omega)]
  · rw [List.getElem?_eq_none, List.getElem?_eq_none]
    · simp only [length_pySlice]
      omega
    · simp only [length_pySlice]
      omega

end SortProof

namespace SortProof

theorem quick_sort_helper_spec :
    ∀ a low high, high < a.length →
    (quick_sort_helper a low high).length = a.length ∧
    (quick_sort_helper a low high).Perm a ∧
    (∀ k, k < low ∨ high < k →
      geti (quick_sort_helper a low high) k = geti a k) ∧
    SortedSeg (quick_sort_helper a low high) low (high + 1) := by
  intro a low high
  induction a, low, high using quick_sort_helper.induct with
  | case1 a low high h r a1 ih1 ihdup ih2 =>
    clear ihdup
    intro hlen
    have hrdef : r = partition a low high := rfl
    obtain ⟨P1, P2, P3, ⟨Pb1, Pb2⟩, P5, P6⟩ := partition_spec a low high h hlen
    rw [← hrdef] at P1 P2 P3 Pb1 Pb2 P5 P6
    have h1 := ih1 (show r.2 - 1 < r.1.length from by
      rw [(P1 : r.1.length = a.length)]
      omega)
    have h2 := ih2 (show high < a1.length from by
      rw [(h1.1 : a1.length = r.1.length), (P1 : r.1.length = a.length)]
      exact hlen)
    set B := r.1 with hBd
    set p := r.2 with hpd
    set A1 := quick_sort_helper B low (p - 1) with hA1d
    set A2 := quick_sort_helper A1 (p + 1) high with hA2d
    have hunf : quick_sort_helper a low high = A2 := by
      conv_lhs => rw [quick_sort_helper.eq_def]
      rw [dif_pos h]
    have hA1len : A1.length = a.length := by
      rw [(h1.1 : A1.length = B.length), (P1 : B.length = a.length)]
    have hA2len : A2.length = a.length := by
      rw [(h2.1 : A2.length = A1.length), hA1len]
    have hA1f : ∀ k, p ≤ k → geti A1 k = geti B k := by
      intro k hk
      by_cases hp0 : p = 0
      · have hlow0 : low = 0 := by omega
        have : A1 = B := by
          rw [hA1d, hp0, hlow0]
          rw [quick_sort_helper.eq_def, dif_neg (by omega)]
        rw [this]
      · exact h1.2.2.1 k (Or.inr (by omega))
    have hA1f2 : ∀ k, k < low → geti A1 k = geti B k := by
      intro k hk
      exact h1.2.2.1 k (Or.inl hk)
    have hA2f : ∀ k, k < p + 1 ∨ high < k → geti A2 k = geti A1 k :=
      h2.2.2.1
    have hvalp : geti A2 p = geti B p := by
      rw [hA2f p (Or.inl (by omega)), hA1f p (le_refl p)]
    have hBlen : B.length = a.length := P1
    have hpermlow : (pySlice A2 low p).Perm (pySlice B low p) := by
      have heq : pySlice A2 low p = pySlice A1 low p := by
        refine pySlice_congr A1 A2 low p ?_ (by rw [hA2len, hA1len])
        intro k hk1 hk2
        exact hA2f k (Or.inl (by omega))
      rw [heq]
      refine pySlice_perm_of_perm_frame B A1 low p Pb1 (by omega)
        (by rw [hA1len, hBlen]) h1.2.1 ?_
      intro k hk
      rcases hk with hk | hk
      · exact hA1f2 k hk
      · exact hA1f k hk
    have hpermhigh : (pySlice A2 (p + 1) (high + 1)).Perm
        (pySlice B (p + 1) (high + 1)) := by
      have heq : pySlice A1 (p + 1) (high + 1)
          = pySlice B (p + 1) (high + 1) := by
        refine pySlice_congr B A1 (p + 1) (high + 1) ?_
          (by rw [hA1len, hBlen])
        intro k hk1 hk2
        exact hA1f k (by omega)
      rw [← heq]
      refine pySlice_perm_of_perm_frame A1 A2 (p + 1) (high + 1) (by omega)
        (by omega) (by rw [hA2len, hA1len]) h2.2.1 ?_
      intro k hk
      rcases hk with hk | hk
      · exact hA2f k (Or.inl hk)
      · exact hA2f k (Or.inr (by omega))
    have hlowvals : ∀ k, low ≤ k → k < p → geti A2 k ≤ geti B p := by
      intro k hk1 hk2
      have hmem : geti A2 k ∈ pySlice A2 low p := by
        rw [mem_pySlice_iff A2 low p (by omega) (by omega)]
        exact ⟨k, hk1, hk2, rfl⟩
      have hmem2 : geti A2 k ∈ pySlice B low p := hpermlow.mem_iff.mp hmem
      rw [mem_pySlice_iff B low p (by omega) (by omega)] at hmem2
    
      obtain ⟨k', hk1', hk2', hval⟩ := hmem2
      rw [← hval]
      exact P5 k' hk1' hk2'
    have hhighvals : ∀ k, p < k → k ≤ high → geti B p < geti A2 k := by
      intro k hk1 hk2
      have hmem : geti A2 k ∈ pySlice A2 (p + 1) (high + 1) := by
        rw [mem_pySlice_iff A2 (p + 1) (high + 1) (by omega) (by omega)]
        exact ⟨k, by omega, by omega, rfl⟩
      have hmem2 : geti A2 k ∈ pySlice B (p + 1) (high + 1) :=
        hpermhigh.mem_iff.mp hmem
      rw [mem_pySlice_iff B (p + 1) (high + 1) (by omega) (by omega)] at hmem2
      obtain ⟨k', hk1', hk2', hval⟩ := hmem2
      rw [← hval]
      exact P6 k' (by omega) (by omega)
    have hsA2low : SortedSeg A2 low p := by
      by_cases hp0 : p = 0
      · intro x y hx hxy hy
        omega
      · have hps : p - 1 + 1 = p := by omega
        have hs1 : SortedSeg A1 low p := by
          have := h1.2.2.2
          rwa [hps] at this
        intro x y hx hxy hy
        rw [hA2f x (Or.inl (by omega)), hA2f y (Or.inl (by omega))]
        exact hs1 x y hx hxy hy
    have hsA2high : SortedSeg A2 (p + 1) (high + 1) := h2.2.2.2
    rw [hunf]
    refine ⟨hA2len, ?_, ?_, ?_⟩
    · exact (h2.2.1.trans h1.2.1).trans P2
    · intro k hk
      rw [hA2f k (by
        rcases hk with hk | hk
        · exact Or.inl (by omega)
        · exact Or.inr hk)]
      rw [h1.2.2.1 k (by
        rcases hk with hk | hk
        · exact Or.inl hk
        · exact Or.inr (by omega))]
      exact P3 k hk
    · intro x y hx hxy hy
      by_cases hxp : x < p
      · by_cases hyp : y < p
        · exact hsA2low x y hx hxy hyp
        · by_cases hyq : y = p
          · subst hyq
            rw [hvalp]
            exact hlowvals x hx hxp
          · exact le_trans (hlowvals x hx hxp)
              (le_of_lt (hhighvals y (by omega) (by omega)))
      · by_cases hxq : x = p
        · by_cases hyq : y = p
          · rw [hxq, hyq]
          · rw [hxq, hvalp]
            exact le_of_lt (hhighvals y (by omega) (by omega))
        · exact hsA2high x y (by omega) hxy (by omega)
  | case2 a low high h =>
    intro hlen
    have hunf : quick_sort_helper a low high = a := by
      rw [quick_sort_helper.eq_def, dif_neg h]
    rw [hunf]
    refine ⟨rfl, List.Perm.refl a, fun k _ => rfl, ?_⟩
    intro x y hx hxy hy
    have : x = y := by omega
    rw [this]

theorem quick_sort_correct (arr : List Int) :
    (quick_sort arr).Perm arr ∧ (quick_sort arr).Sorted (· ≤ ·) := by
  rw [quick_sort]
  split_ifs with hl
  · have hs := quick_sort_helper_spec arr 0 (arr.length - 1) (by omega)
    refine ⟨hs.2.1, ?_⟩
    set R := quick_sort_helper arr 0 (arr.length - 1) with hR
    have hseg := hs.2.2.2
    have heq : arr.length - 1 + 1 = arr.length := by omega
    rw [heq] at hseg
    rw [sortedSeg_iff _ 0 arr.length (le_of_eq hs.1.symm)] at hseg
    have hfull : pySlice R 0 arr.length = R := by
      rw [show arr.length = R.length from hs.1.symm]
      exact pySlice_full R
    rwa [hfull] at hseg
  · refine ⟨List.Perm.refl arr, ?_⟩
    match arr, hl with
    | [], _ => simp
    | [x], _ => simp
    | x :: y :: t, hl =>
      exact absurd (by simp only [List.length_cons]; omega) hl

end SortProof

namespace SortProof

theorem set_geti_self (a : List Int) (i : Nat) (h : i < a.length) :
    a.set i (geti a i) = a := by
  apply List.ext_getElem?
  intro k
  by_cases hk : k = i
  · subst hk
    rw [List.getElem?_set_self' ]
    rw [List.getElem?_eq_getElem h, geti_eq_getElem _ _ h]
    rfl
  · rw [List.getElem?_set_ne (fun hh => hk hh.symm)]

theorem set_set_perm (a : List Int) (i j : Nat) (t : Int) (hi : i < a.length)
    (hj : j < a.length) :
    (((a.set j (geti a i)).set i t)).Perm (a.set j t) := by
  by_cases hij : i = j
  · subst hij
    rw [List.set_set]
  rw [List.perm_iff_count]
  intro x
  rw [count_set_geti _ _ _ (by simpa using hi),
    count_set_geti _ _ _ hj, count_set_geti _ _ _ hj,
    geti_set_ne _ _ _ _ (Ne.symm hij)]
  have hcnti : (if geti a i = x then 1 else 0) ≤ a.count x := by
    split
    · exact count_pos_of_geti a i hi x (by assumption)
    · exact Nat.zero_le _
  have hcntj : (if geti a j = x then 1 else 0) ≤ a.count x := by
    split
    · exact count_pos_of_geti a j hj x (by assumption)
    · exact Nat.zero_le _
  omega

theorem shift_loop_length (t : Int) (gap : Nat) (hg : 0 < gap) :
    ∀ a j, (shift_loop a t gap hg j).1.length = a.length := by
  intro a j
  induction a, t, gap, hg, j using shift_loop.induct with
  | case1 a t gap hg j h ih =>
    rw [shift_loop, dif_pos h]
    rw [ih]
    simp
  | case2 a t gap hg j h =>
    rw [shift_loop, dif_neg h]

theorem shift_loop_j_le (t : Int) (gap : Nat) (hg : 0 < gap) :
    ∀ a j, (shift_loop a t gap hg j).2 ≤ j := by
  intro a j
  induction a, t, gap, hg, j using shift_loop.induct with
  | case1 a t gap hg j h ih =>
    rw [shift_loop, dif_pos h]
    omega
  | case2 a t gap hg j h =>
    rw [shift_loop, dif_neg h]

theorem shift_loop_set_perm (t : Int) (gap : Nat) (hg : 0 < gap) :
    ∀ a j, j < a.length →
    (((shift_loop a t gap hg j).1.set (shift_loop a t gap hg j).2 t)).Perm
      (a.set j t) := by
  intro a j
  induction a, t, gap, hg, j using shift_loop.induct with
  | case1 a t gap hg j h ih =>
    intro hj
    rw [shift_loop, dif_pos h]
    have hjg : j - gap < a.length := by omega
    refine (ih (by simpa using hjg)).trans ?_
    exact set_set_perm a (j - gap) j t hjg hj
  | case2 a t gap hg j h =>
    intro hj
    rw [shift_loop, dif_neg h]

theorem gap_pass_length (a : List Int) (gap : Nat) (hg : 0 < gap) :
    (gap_pass a gap hg).length = a.length := by
  rw [gap_pass]
  generalize List.range' gap (a.length - gap) = l
  induction l generalizing a with
  | nil => rfl
  | cons i tl ih =>
    rw [List.foldl_cons]
    rw [ih]
    simp [shift_loop_length]

theorem gap_pass_perm (a : List Int) (gap : Nat) (hg : 0 < gap) :
    (gap_pass a gap hg).Perm a := by
  rw [gap_pass]
  have hmem : ∀ i ∈ List.range' gap (a.length - gap), i < a.length := by
    intro i hi
    rw [List.mem_range'_1] at hi
    omega
  generalize hl : List.range' gap (a.length - gap) = l
  rw [hl] at hmem
  clear hl
  induction l generalizing a with
  | nil => exact List.Perm.refl a
  | cons i tl ih =>
    rw [List.foldl_cons]
    have hia : i < a.length := hmem i (List.mem_cons_self _ _)
    have hstep : ((shift_loop a (geti a i) gap hg i).1.set
        (shift_loop a (geti a i) gap hg i).2 (geti a i)).Perm a := by
      refine (shift_loop_set_perm (geti a i) gap hg a i hia).trans ?_
      rw [set_geti_self a i hia]
    refine (ih _ ?_).trans hstep
    intro k hk
    have hka : k < a.length := hmem k (List.mem_cons_of_mem _ hk)
    have hlen2 : (let temp := geti a i
        let r := shift_loop a temp gap hg i
        r.1.set r.2 temp).length = a.length := by
      simp only [List.length_set, shift_loop_length]
    omega

end SortProof

namespace SortProof

/-- Invariant-based specification of the gap-1 shifting loop: inserting
`t` into the sorted prefix. `i` is the pass index: positions `(j, i]` hold
the already-shifted elements (all greater than `t`). -/
theorem shift_loop_one_spec (t : Int) (hg : 0 < 1) (i : Nat) :
    ∀ (j : Nat) (a : List Int), j ≤ i → i < a.length →
    SortedSeg a 0 j →
    SortedSeg a (j + 1) (i + 1) →
    (∀ x y, x < j → j < y → y ≤ i → geti a x ≤ geti a y) →
    (∀ y, j < y → y ≤ i → t < geti a y) →
    SortedSeg ((shift_loop a t 1 hg j).1.set (shift_loop a t 1 hg j).2 t)
      0 (i + 1) ∧
    (∀ k, i < k →
      geti ((shift_loop a t 1 hg j).1.set (shift_loop a t 1 hg j).2 t) k
        = geti a k) := by
  intro j
  induction j using Nat.strong_induction_on with
  | _ j ihj =>
    intro a hji hi H1 H2 H3 H4
    rw [shift_loop.eq_def]
    by_cases hcond : 1 ≤ j ∧ geti a (j - 1) > t
    · rw [dif_pos hcond]
      have hj1 : 1 ≤ j := hcond.1
      have hjlen : j < a.length := by omega
      have hjm : j - 1 < a.length := by omega
      set b1 := a.set j (geti a (j - 1)) with hb1
      have hb1v : ∀ k, k ≠ j → geti b1 k = geti a k := by
        intro k hk
        exact geti_set_ne a j k _ (Ne.symm hk)
      have hb1j : geti b1 j = geti a (j - 1) := geti_set_self a j _ hjlen
      have hres := ihj (j - 1) (by omega) b1 (by omega)
        (by rw [hb1]; simpa using hi) ?_ ?_ ?_ ?_
      · refine ⟨hres.1, ?_⟩
        intro k hk
        rw [hres.2 k hk, hb1v k (by omega)]
      · intro x y hx hxy hy
        rw [hb1v x (by omega), hb1v y (by omega)]
        exact H1 x y hx hxy (by omega)
      · intro x y hx hxy hy
        by_cases hxj : x = j
        · by_cases hyj : y = x
          · rw [hyj]
          · rw [hxj, hb1j, hb1v y (by omega)]
            exact H3 (j - 1) y (by omega) (by omega) (by omega)
        · rw [hb1v x (by omega), hb1v y (by omega)]
          exact H2 x y (by omega) hxy hy
      · intro x y hx hxy hy
        by_cases hyj : y = j
        · subst hyj
          rw [hb1v x (by omega), hb1j]
          exact H1 x (y - 1) (Nat.zero_le x) (by omega) (by omega)
        · rw [hb1v x (by omega), hb1v y hyj]
          exact H3 x y (by omega) (by omega) hy
      · intro y hy1 hy2
        by_cases hyj : y = j
        · subst hyj
          rw [hb1j]
          exact hcond.2
        · rw [hb1v y hyj]
          exact H4 y (by omega) hy2
    · rw [dif_neg hcond]
      simp only
      have hjlen : j < a.length := by omega
      have hbj : geti (a.set j t) j = t := geti_set_self a j t hjlen
      have hbv : ∀ k, k ≠ j → geti (a.set j t) k = geti a k := by
        intro k hk
        exact geti_set_ne a j k t (Ne.symm hk)
      constructor
      · intro x y hx hxy hy
        by_cases hxj : x = j
        · subst hxj
          by_cases hyj : y = x
          · rw [hyj]
          · rw [hbj, hbv y (by omega)]
            exact le_of_lt (H4 y (by omega) (by omega))
        · by_cases hyj : y = j
          · subst hyj
            rw [hbj, hbv x hxj]
            have hxy' : x < y := by omega
            rcases Nat.eq_zero_or_pos y with rfl | hy0
            · omega
            · have hnot : geti a (y - 1) ≤ t := by
                by_contra hgt
                exact hcond ⟨by omega, by omega⟩
              exact le_trans (by
                rcases Nat.eq_or_lt_of_le (show x ≤ y - 1 from by omega)
                  with rfl | hxx
                · exact le_refl _
                · exact H1 x (y - 1) (Nat.zero_le x) (by omega) (by omega))
                hnot
          · rw [hbv x hxj, hbv y hyj]
            by_cases hxlt : x < j
            · by_cases hylt : y < j
              · exact H1 x y hx hxy hylt
              · exact H3 x y hxlt (by omega) (by omega)
            · exact H2 x y (by omega) hxy hy
      · intro k hk
        rw [hbv k (by omega)]

end SortProof

namespace SortProof

theorem pass_one_fold (hg : 0 < 1) :
    ∀ (cnt : Nat) (b : List Int) (s : Nat), 0 < s → s + cnt ≤ b.length →
    SortedSeg b 0 s →
    ((List.range' s cnt).foldl
      (fun b i =>
        let temp := geti b i
        let r := shift_loop b temp 1 hg i
        r.1.set r.2 temp) b).length = b.length ∧
    SortedSeg ((List.range' s cnt).foldl
      (fun b i =>
        let temp := geti b i
        let r := shift_loop b temp 1 hg i
        r.1.set r.2 temp) b) 0 (s + cnt) := by
  intro cnt
  induction cnt with
  | zero =>
    intro b s hs hlen hsort
    exact ⟨rfl, by simpa using hsort⟩
  | succ cnt ih =>
    intro b s hs hlen hsort
    rw [List.range'_succ, List.foldl_cons]
    have hslen : s < b.length := by omega
    have hspec := shift_loop_one_spec (geti b s) hg s s b (le_refl s) hslen
      hsort (by
        intro x y hx hxy hy
        omega)
      (by
        intro x y hx hxy hy
        omega)
      (by
        intro y hy1 hy2
        omega)
    have hblen : ((shift_loop b (geti b s) 1 hg s).1.set
        (shift_loop b (geti b s) 1 hg s).2 (geti b s)).length = b.length := by
      simp [shift_loop_length]
    have hres := ih ((shift_loop b (geti b s) 1 hg s).1.set
        (shift_loop b (geti b s) 1 hg s).2 (geti b s)) (s + 1) (by omega)
      (by omega) hspec.1
    refine ⟨?_, ?_⟩
    · rw [hres.1.trans hblen]
    · have := hres.2
      rwa [show s + 1 + cnt = s + (cnt + 1) from by omega] at this
  
theorem gap_pass_one_sorted (a : List Int) (hg : 0 < 1) :
    SortedSeg (gap_pass a 1 hg) 0 a.length := by
  rw [gap_pass]
  rcases Nat.eq_zero_or_pos a.length with hn | hn
  · intro x y hx hxy hy
    omega
  · have := (pass_one_fold hg (a.length - 1) a 1 Nat.one_pos (by omega)
      (by
        intro x y hx hxy hy
        have : x = y := by omega
        rw [this])).2
    rwa [show 1 + (a.length - 1) = a.length from by omega] at this

theorem gap_loop_length (g : Nat) : ∀ a, (gap_loop a g).length = a.length := by
  induction g using Nat.strong_induction_on with
  | _ g ih =>
    intro a
    rw [gap_loop.eq_def]
    split_ifs with h
    · rw [ih (g / 3) (Nat.div_lt_self h (by norm_num))]
      exact gap_pass_length a g h
    · rfl

theorem gap_loop_perm (g : Nat) : ∀ a, (gap_loop a g).Perm a := by
  induction g using Nat.strong_induction_on with
  | _ g ih =>
    intro a
    rw [gap_loop.eq_def]
    split_ifs with h
    · exact (ih (g / 3) (Nat.div_lt_self h (by norm_num)) _).trans
        (gap_pass_perm a g h)
    · exact List.Perm.refl a

theorem gap_loop_sorted_knuth :
    ∀ (k : Nat) (a : List Int), (gap_loop a (knuth_gap k)).Sorted (· ≤ ·) := by
  intro k
  induction k with
  | zero =>
    intro a
    rw [show knuth_gap 0 = 1 from rfl]
    rw [gap_loop.eq_def, dif_pos Nat.one_pos]
    rw [show (1 : Nat) / 3 = 0 from rfl, gap_loop.eq_def, dif_neg (by omega)]
    have hsor := gap_pass_one_sorted a Nat.one_pos
    have hlen := gap_pass_length a 1 Nat.one_pos
    rw [sortedSeg_iff _ 0 a.length (le_of_eq hlen.symm)] at hsor
    have hfull : pySlice (gap_pass a 1 Nat.one_pos) 0 a.length
        = gap_pass a 1 Nat.one_pos := by
      rw [show a.length = (gap_pass a 1 Nat.one_pos).length from hlen.symm]
      exact pySlice_full _
    rwa [hfull] at hsor
  | succ k ih =>
    intro a
    rw [gap_loop.eq_def, dif_pos (knuth_gap_pos (k + 1))]
    rw [knuth_gap_succ_div]
    exact ih _

theorem shell_sort_correct (arr : List Int) :
    (shell_sort arr).Perm arr ∧ (shell_sort arr).Sorted (· ≤ ·) := by
  rw [shell_sort]
  constructor
  · exact gap_loop_perm _ arr
  · obtain ⟨k, hk⟩ := gap_grow_knuth arr.length 1 ⟨0, rfl⟩
    rw [hk]
    exact gap_loop_sorted_knuth k arr

end SortProof

namespace SortProof

/-! ### Radix sort: counting sort as a bucket join -/

theorem getDN_set_self (c : List Nat) (i : Nat) (v : Nat) (h : i < c.length) :
    (c.set i v).getD i 0 = v := by
  simp [List.getD_eq_getElem?_getD, List.getElem?_set_self',
    List.getElem?_eq_getElem h]

theorem getDN_set_ne (c : List Nat) (i j : Nat) (v : Nat) (h : i ≠ j) :
    (c.set i v).getD j 0 = c.getD j 0 := by
  simp [List.getD_eq_getElem?_getD, List.getElem?_set_ne h]

theorem ext_geti (a b : List Int) (hlen : a.length = b.length)
    (h : ∀ i, i < a.length → geti a i = geti b i) : a = b := by
  apply List.ext_getElem hlen
  intro i h1 h2
  have hh := h i h1
  rwa [geti_eq_getElem _ _ h1, geti_eq_getElem _ _ h2] at hh

theorem pyDigit_eq (num exp : Int) :
    pyDigit num exp = ((num.fdiv exp) % 10).toNat := rfl

theorem pyDigit_lt_ten (num exp : Int) : pyDigit num exp < 10 := by
  rw [pyDigit_eq]
  have h1 := Int.emod_lt_of_pos (num.fdiv exp) (by norm_num : (0:Int) < 10)
  have h0 := Int.emod_nonneg (num.fdiv exp) (by norm_num : (10:Int) ≠ 0)
  omega

theorem copy_range_fold (src : List Int) :
    ∀ (m : Nat) (dst : List Int), m ≤ dst.length →
    ((List.range m).foldl (fun b i => b.set i (geti src i)) dst).length
      = dst.length ∧
    ∀ i, geti ((List.range m).foldl (fun b i => b.set i (geti src i)) dst) i
      = if i < m then geti src i else geti dst i := by
  intro m
  induction m with
  | zero =>
    intro dst hm
    simp
  | succ m ih =>
    intro dst hm
    obtain ⟨ihlen, ihget⟩ := ih dst (by omega)
    rw [List.range_succ, List.foldl_append, List.foldl_cons, List.foldl_nil]
    constructor
    · rw [List.length_set, ihlen]
    · intro i
      by_cases him : i = m
      · subst him
        rw [geti_set_self _ _ _ (by omega), if_pos (by omega)]
      · rw [geti_set_ne _ _ _ _ (fun hh => him hh.symm), ihget]
        by_cases hlt : i < m
        · rw [if_pos hlt, if_pos (by omega)]
        · rw [if_neg hlt, if_neg (by omega)]

def bucketsAux (a : List Int) (exp : Int) : List Nat → List Int
  | [] => []
  | d :: ds => a.filter (fun x => pyDigit x exp == d) ++ bucketsAux a exp ds

theorem bucketsAux_append (a : List Int) (exp : Int) :
    ∀ ds es : List Nat, bucketsAux a exp (ds ++ es)
      = bucketsAux a exp ds ++ bucketsAux a exp es := by
  intro ds
  induction ds with
  | nil => intro es; simp [bucketsAux]
  | cons d ds ih =>
    intro es
    simp only [List.cons_append, bucketsAux, List.append_eq, ih,
      List.append_assoc]

theorem mem_bucketsAux (a : List Int) (exp : Int) :
    ∀ (ds : List Nat) (z : Int), z ∈ bucketsAux a exp ds ↔
      ∃ d ∈ ds, z ∈ a ∧ pyDigit z exp = d := by
  intro ds
  induction ds with
  | nil => intro z; simp [bucketsAux]
  | cons d ds ih =>
    intro z
    simp [bucketsAux, ih, List.mem_filter]

theorem buckets_perm (a : List Int) (exp : Int) :
    ∀ k : Nat, (bucketsAux a exp (List.range k)).Perm
      (a.filter (fun x => pyDigit x exp < k)) := by
  intro k
  induction k with
  | zero =>
    rw [List.range_zero]
    show List.Perm [] _
    rw [List.filter_eq_nil_iff.mpr (by intro x hx; simp)]
  | succ k ih =>
    rw [List.range_succ, bucketsAux_append]
    have hend : bucketsAux a exp [k] = a.filter (fun x => pyDigit x exp == k) := by
      show a.filter (fun x => pyDigit x exp == k) ++ ([] : List Int) = _
      rw [List.append_nil]
    rw [hend]
    have h1 : ((a.filter (fun x => pyDigit x exp < k + 1)).filter
        (fun x => pyDigit x exp == k)) = a.filter (fun x => pyDigit x exp == k) := by
      rw [List.filter_filter]
      apply List.filter_congr
      intro x hx
      by_cases hd : pyDigit x exp = k
      · simp [hd, Nat.lt_succ_self]
      · simp [hd]
    have h2 : ((a.filter (fun x => pyDigit x exp < k + 1)).filter
        (fun x => !(pyDigit x exp == k))) = a.filter (fun x => pyDigit x exp < k) := by
      rw [List.filter_filter]
      apply List.filter_congr
      intro x hx
      by_cases hd : pyDigit x exp = k
      · simp [hd, Nat.lt_irrefl]
      · rw [show (pyDigit x exp == k) = false by simp [hd], Bool.not_false,
          Bool.true_and, decide_eq_decide]
        omega
    have hsplit := List.filter_append_perm (fun x => pyDigit x exp == k)
      (a.filter (fun x => pyDigit x exp < k + 1))
    rw [h1, h2] at hsplit
    exact (ih.append_right _).trans (List.perm_append_comm.trans hsplit)

end SortProof

namespace SortProof

theorem geti_cons_zero (y : Int) (l : List Int) : geti (y :: l) 0 = y := rfl

theorem geti_cons_succ (y : Int) (l : List Int) (k : Nat) :
    geti (y :: l) (k + 1) = geti l k := rfl

/-- Full characterisation of the right-to-left placement loop of
`counting_sort_by_digit`: given cumulative counts whose buckets fit in
pairwise disjoint slices of the output, the elements of each digit class
land in their bucket slice in original order, the counts drop to the bucket
starts, and all other positions of the output are untouched. -/
theorem cs_scan_spec (exp : Int) :
    ∀ (vals out : List Int) (count : List Nat),
    count.length = 10 →
    (∀ d, d < 10 →
      (List.filter (fun y => pyDigit y exp == d) vals).length ≤ count.getD d 0) →
    (∀ d e, d < e → e < 10 →
      count.getD d 0 ≤ count.getD e 0
        - (List.filter (fun y => pyDigit y exp == e) vals).length) →
    (∀ d, d < 10 → count.getD d 0 ≤ out.length) →
    ((cs_scan exp vals out count).1.length = out.length ∧
     (cs_scan exp vals out count).2.length = 10 ∧
     (∀ d, d < 10 → (cs_scan exp vals out count).2.getD d 0
        = count.getD d 0 - (List.filter (fun y => pyDigit y exp == d) vals).length)) ∧
    (∀ d, d < 10 → ∀ k, k < (List.filter (fun y => pyDigit y exp == d) vals).length →
      geti (cs_scan exp vals out count).1
          (count.getD d 0 - (List.filter (fun y => pyDigit y exp == d) vals).length + k)
        = geti (List.filter (fun y => pyDigit y exp == d) vals) k) ∧
    (∀ i : Nat, (∀ d, d < 10 →
        i < count.getD d 0 - (List.filter (fun y => pyDigit y exp == d) vals).length ∨
        count.getD d 0 ≤ i) →
      geti (cs_scan exp vals out count).1 i = geti out i) := by
  intro vals
  induction vals with
  | nil =>
    intro out count hclen hle hdisj hbound
    refine ⟨⟨rfl, hclen, ?_⟩, ?_, ?_⟩
    · intro d hd
      simp [cs_scan]
    · intro d hd k hk
      simp at hk
    · intro i hi
      rfl
  | cons x t ih =>
    intro out count hclen hle hdisj hbound
    have hdx10 := pyDigit_lt_ten x exp
    have hfeq : ∀ d : Nat, List.filter (fun y => pyDigit y exp == d) (x :: t)
        = if pyDigit x exp = d then x :: List.filter (fun y => pyDigit y exp == d) t
          else List.filter (fun y => pyDigit y exp == d) t := by
      intro d
      by_cases h : pyDigit x exp = d
      · rw [if_pos h, List.filter_cons, if_pos (by simp [h])]
      · rw [if_neg h, List.filter_cons, if_neg (by simp [h])]
    have hcntdx : (List.filter (fun y => pyDigit y exp == pyDigit x exp) (x :: t)).length
        = (List.filter (fun y => pyDigit y exp == pyDigit x exp) t).length + 1 := by
      rw [hfeq, if_pos rfl, List.length_cons]
    have hcntne : ∀ d, d ≠ pyDigit x exp →
        (List.filter (fun y => pyDigit y exp == d) (x :: t)).length
        = (List.filter (fun y => pyDigit y exp == d) t).length := by
      intro d hd
      rw [hfeq, if_neg (fun hh => hd hh.symm)]
    have hcnt_le : ∀ d, d < 10 →
        (List.filter (fun y => pyDigit y exp == d) t).length
          ≤ (List.filter (fun y => pyDigit y exp == d) (x :: t)).length := by
      intro d hd
      by_cases h : d = pyDigit x exp
      · rw [h, hcntdx]
        omega
      · rw [hcntne d h]
    obtain ⟨⟨hlen1, hlen2, hcnt⟩, hplace, hframe⟩ := ih out count hclen
      (fun d hd => le_trans (hcnt_le d hd) (hle d hd))
      (fun d e hde he => le_trans (hdisj d e hde he)
        (Nat.sub_le_sub_left (hcnt_le e he) _))
      hbound
    have hunfold : cs_scan exp (x :: t) out count
        = ((cs_scan exp t out count).1.set
            ((cs_scan exp t out count).2.getD (pyDigit x exp) 0 - 1) x,
           (cs_scan exp t out count).2.set (pyDigit x exp)
             ((cs_scan exp t out count).2.getD (pyDigit x exp) 0 - 1)) := rfl
    rw [hunfold]
    dsimp only
    have hc : (cs_scan exp t out count).2.getD (pyDigit x exp) 0
        = count.getD (pyDigit x exp) 0
          - (List.filter (fun y => pyDigit y exp == pyDigit x exp) t).length :=
      hcnt _ hdx10
    have hcdx := hle (pyDigit x exp) hdx10
    rw [hcntdx] at hcdx
    have hp : (cs_scan exp t out count).2.getD (pyDigit x exp) 0 - 1
        = count.getD (pyDigit x exp) 0
          - (List.filter (fun y => pyDigit y exp == pyDigit x exp) (x :: t)).length := by
      rw [hc, hcntdx]
      omega
    have hplt : (cs_scan exp t out count).2.getD (pyDigit x exp) 0 - 1
        < (cs_scan exp t out count).1.length := by
      have hb := hbound (pyDigit x exp) hdx10
      rw [hp, hcntdx, hlen1]
      omega
    refine ⟨⟨?_, ?_, ?_⟩, ?_, ?_⟩
    · rw [List.length_set, hlen1]
    · rw [List.length_set, hlen2]
    · intro d hd
      by_cases hddx : d = pyDigit x exp
      · subst hddx
        rw [getDN_set_self _ _ _ (by rw [hlen2]; exact hdx10), hc, hcntdx]
        omega
      · rw [getDN_set_ne _ _ _ _ (fun hh => hddx hh.symm), hcnt d hd, hcntne d hddx]
    · intro d hd k hk
      by_cases hddx : d = pyDigit x exp
      · subst hddx
        rcases k with _ | k2
        · rw [show count.getD (pyDigit x exp) 0
              - (List.filter (fun y => pyDigit y exp == pyDigit x exp) (x :: t)).length + 0
              = (cs_scan exp t out count).2.getD (pyDigit x exp) 0 - 1 from by
                rw [hp]
                omega,
            geti_set_self _ _ _ hplt, hfeq, if_pos rfl, geti_cons_zero]
        · have hk2 : k2 < (List.filter (fun y => pyDigit y exp == pyDigit x exp) t).length := by
            rw [hcntdx] at hk
            omega
          have hppos : count.getD (pyDigit x exp) 0
              - (List.filter (fun y => pyDigit y exp == pyDigit x exp) (x :: t)).length
                + (k2 + 1)
              = count.getD (pyDigit x exp) 0
                - (List.filter (fun y => pyDigit y exp == pyDigit x exp) t).length + k2 := by
            rw [hcntdx]
            omega
          have hne : (cs_scan exp t out count).2.getD (pyDigit x exp) 0 - 1
              ≠ count.getD (pyDigit x exp) 0
                - (List.filter (fun y => pyDigit y exp == pyDigit x exp) t).length + k2 := by
            rw [hp, hcntdx]
            omega
          rw [hppos, geti_set_ne _ _ _ _ hne, hplace _ hdx10 k2 hk2, hfeq, if_pos rfl,
            geti_cons_succ]
      · have hne : (cs_scan exp t out count).2.getD (pyDigit x exp) 0 - 1
            ≠ count.getD d 0
              - (List.filter (fun y => pyDigit y exp == d) (x :: t)).length + k := by
          rw [hp]
          rcases Nat.lt_or_ge d (pyDigit x exp) with hlt | hge
          · have h1 := hdisj d (pyDigit x exp) hlt hdx10
            have h2 := hle d hd
            omega
          · have hgt : pyDigit x exp < d :=
              Nat.lt_of_le_of_ne hge (fun hh => hddx hh.symm)
            have h1 := hdisj (pyDigit x exp) d hgt hd
            omega
        have hkt : k < (List.filter (fun y => pyDigit y exp == d) t).length := by
          rw [hcntne d hddx] at hk
          exact hk
        have hpos2 : count.getD d 0
            - (List.filter (fun y => pyDigit y exp == d) (x :: t)).length + k
            = count.getD d 0 - (List.filter (fun y => pyDigit y exp == d) t).length + k := by
          rw [hcntne d hddx]
        rw [geti_set_ne _ _ _ _ hne, hpos2, hplace d hd k hkt, hfeq,
          if_neg (fun hh => hddx hh.symm)]
    · intro i hi
      have hip : i ≠ (cs_scan exp t out count).2.getD (pyDigit x exp) 0 - 1 := by
        rw [hp]
        rcases hi (pyDigit x exp) hdx10 with h | h
        · omega
        · omega
      rw [geti_set_ne _ _ _ _ (fun hh => hip hh.symm)]
      apply hframe
      intro d hd
      rcases hi d hd with h | h
      · left
        have := hcnt_le d hd
        omega
      · right
        exact h

end SortProof

namespace SortProof

theorem filter_digit_cons_length (exp x : Int) (t : List Int) (d : Nat) :
    (List.filter (fun y => pyDigit y exp == d) (x :: t)).length
      = (List.filter (fun y => pyDigit y exp == d) t).length
        + (if pyDigit x exp = d then 1 else 0) := by
  rw [List.filter_cons]
  by_cases h : pyDigit x exp = d
  · rw [if_pos (by simp [h]), if_pos h, List.length_cons]
  · rw [if_neg (by simp [h]), if_neg h, Nat.add_zero]

theorem count_build_spec (exp : Int) :
    ∀ (l : List Int) (c : List Nat), c.length = 10 →
    ((l.foldl (fun c num =>
        c.set (pyDigit num exp) (c.getD (pyDigit num exp) 0 + 1)) c).length = 10 ∧
     ∀ d, d < 10 →
       (l.foldl (fun c num =>
          c.set (pyDigit num exp) (c.getD (pyDigit num exp) 0 + 1)) c).getD d 0
         = c.getD d 0 + (List.filter (fun y => pyDigit y exp == d) l).length) := by
  intro l
  induction l with
  | nil =>
    intro c hc
    refine ⟨hc, ?_⟩
    intro d hd
    simp
  | cons x t ih =>
    intro c hc
    rw [List.foldl_cons]
    obtain ⟨ihlen, ihget⟩ := ih (c.set (pyDigit x exp) (c.getD (pyDigit x exp) 0 + 1))
      (by rw [List.length_set, hc])
    refine ⟨ihlen, ?_⟩
    intro d hd
    rw [ihget d hd, filter_digit_cons_length]
    by_cases h : pyDigit x exp = d
    · rw [if_pos h, h, getDN_set_self _ _ _ (by rw [hc]; exact hd)]
      omega
    · rw [if_neg h, getDN_set_ne _ _ _ _ h, Nat.add_zero]

def psum (c : List Nat) : Nat → Nat
  | 0 => c.getD 0 0
  | d + 1 => psum c d + c.getD (d + 1) 0

theorem cumul_fold_spec :
    ∀ (m : Nat) (c : List Nat), c.length = 10 → m ≤ 9 →
    (((List.range' 1 m).foldl
        (fun c i => c.set i (c.getD i 0 + c.getD (i - 1) 0)) c).length = 10 ∧
     ∀ d, d < 10 →
       ((List.range' 1 m).foldl
          (fun c i => c.set i (c.getD i 0 + c.getD (i - 1) 0)) c).getD d 0
         = if d ≤ m then psum c d else c.getD d 0) := by
  intro m
  induction m with
  | zero =>
    intro c hc hm
    refine ⟨hc, ?_⟩
    intro d hd
    by_cases h0 : d = 0
    · rw [if_pos (by omega), h0]
      rfl
    · rw [if_neg (by omega)]
      rfl
  | succ m ih =>
    intro c hc hm
    obtain ⟨ihlen, ihget⟩ := ih c hc (by omega)
    have hconc : List.range' 1 (m + 1) = List.range' 1 m ++ [1 + m] := by
      rw [List.range'_concat]
      norm_num
    rw [hconc, List.foldl_append, List.foldl_cons, List.foldl_nil]
    have h1m : 1 + m = m + 1 := by omega
    rw [h1m]
    refine ⟨by rw [List.length_set, ihlen], ?_⟩
    intro d hd
    by_cases hdm : d = m + 1
    · rw [hdm, getDN_set_self _ _ _ (by rw [ihlen]; omega), if_pos (le_refl _)]
      rw [show m + 1 - 1 = m from by omega, ihget (m + 1) (by omega),
        ihget m (by omega), if_neg (by omega), if_pos (le_refl _)]
      rw [psum]
      omega
    · rw [getDN_set_ne _ _ _ _ (fun hh => hdm hh.symm), ihget d hd]
      by_cases hle : d ≤ m
      · rw [if_pos hle, if_pos (by omega)]
      · rw [if_neg hle, if_neg (by omega)]

theorem filter_le_split (exp : Int) (a : List Int) (k : Nat) :
    (List.filter (fun y => pyDigit y exp ≤ k) a).length
      = (List.filter (fun y => pyDigit y exp < k) a).length
        + (List.filter (fun y => pyDigit y exp == k) a).length := by
  induction a with
  | nil => rfl
  | cons x t ihx =>
    simp only [List.filter_cons, beq_iff_eq, decide_eq_true_eq]
    split_ifs with h1 h2 h3 <;> (try simp only [List.length_cons]) <;> omega

theorem filter_lt_succ_eq_le (exp : Int) (a : List Int) (k : Nat) :
    List.filter (fun y => pyDigit y exp < k + 1) a
      = List.filter (fun y => pyDigit y exp ≤ k) a := by
  apply List.filter_congr
  intro x hx
  rw [decide_eq_decide]
  omega

theorem filter_lt_zero_nil (exp : Int) (a : List Int) :
    List.filter (fun y => pyDigit y exp < 0) a = [] := by
  apply List.filter_eq_nil_iff.mpr
  intro x hx
  simp

theorem filter_lt_ten_eq_self (exp : Int) (a : List Int) :
    List.filter (fun y => pyDigit y exp < 10) a = a :=
  List.filter_eq_self.mpr (fun x hx => by simp [pyDigit_lt_ten])

theorem psum_eq_C (exp : Int) (a : List Int) (c : List Nat)
    (hc : ∀ d, d < 10 →
      c.getD d 0 = (List.filter (fun y => pyDigit y exp == d) a).length) :
    ∀ d, d < 10 →
      psum c d = (List.filter (fun y => pyDigit y exp ≤ d) a).length := by
  intro d
  induction d with
  | zero =>
    intro hd
    have h0 := filter_le_split exp a 0
    rw [filter_lt_zero_nil] at h0
    rw [show psum c 0 = c.getD 0 0 from rfl, hc 0 hd, h0, List.length_nil,
      Nat.zero_add]
  | succ d ihd =>
    intro hd
    have hstep := filter_le_split exp a (d + 1)
    rw [filter_lt_succ_eq_le] at hstep
    rw [psum, ihd (by omega), hc (d + 1) hd, hstep]

theorem C_mono (exp : Int) (a : List Int) : ∀ d e : Nat, d ≤ e →
    (List.filter (fun y => pyDigit y exp ≤ d) a).length
      ≤ (List.filter (fun y => pyDigit y exp ≤ e) a).length := by
  intro d e
  induction e with
  | zero =>
    intro h
    have h0 : d = 0 := by omega
    rw [h0]
  | succ e ihe =>
    intro h
    by_cases hde : d = e + 1
    · rw [hde]
    · have h1 := ihe (by omega)
      have h2 := filter_le_split exp a (e + 1)
      rw [filter_lt_succ_eq_le] at h2
      omega

theorem geti_append_left2 (xs ys : List Int) (i : Nat) (h : i < xs.length) :
    geti (xs ++ ys) i = geti xs i := by
  simp [geti, List.getD_eq_getElem?_getD, List.getElem?_append_left h]

theorem geti_append_right2 (xs ys : List Int) (j : Nat) :
    geti (xs ++ ys) (xs.length + j) = geti ys j := by
  simp [geti, List.getD_eq_getElem?_getD,
    List.getElem?_append_right (Nat.le_add_right _ _), Nat.add_sub_cancel_left]

end SortProof

namespace SortProof

theorem filter_length_mono (p q : Int → Bool) (h : ∀ x, p x = true → q x = true) :
    ∀ a : List Int, (a.filter p).length ≤ (a.filter q).length := by
  intro a
  induction a with
  | nil => exact Nat.le_refl 0
  | cons x t ihx =>
    simp only [List.filter_cons]
    split_ifs with h1 h2 <;> (try simp only [List.length_cons]) <;>
      first
      | omega
      | exact absurd (h x h1) h2

theorem counting_sort_eq_buckets (a : List Int) (exp : Int) :
    counting_sort_by_digit a exp = bucketsAux a exp (List.range 10) := by
  simp only [counting_sort_by_digit]
  obtain ⟨hb_len, hb_get⟩ := count_build_spec exp a (List.replicate 10 0) (by simp)
  have hc1get : ∀ d, d < 10 →
      (a.foldl (fun c num =>
        c.set (pyDigit num exp) (c.getD (pyDigit num exp) 0 + 1))
        (List.replicate 10 0)).getD d 0
      = (List.filter (fun y => pyDigit y exp == d) a).length := by
    intro d hd
    rw [hb_get d hd, show (List.replicate 10 (0:Nat)).getD d 0 = 0 from by
      rw [List.getD_eq_getElem?_getD, List.getElem?_replicate, if_pos hd]
      rfl, Nat.zero_add]
  obtain ⟨hc2len, hc2get'⟩ := cumul_fold_spec 9
    (a.foldl (fun c num =>
      c.set (pyDigit num exp) (c.getD (pyDigit num exp) 0 + 1))
      (List.replicate 10 0)) hb_len (by omega)
  have hc2get : ∀ d, d < 10 →
      ((List.range' 1 9).foldl
        (fun c i => c.set i (c.getD i 0 + c.getD (i - 1) 0))
        (a.foldl (fun c num =>
          c.set (pyDigit num exp) (c.getD (pyDigit num exp) 0 + 1))
          (List.replicate 10 0))).getD d 0
      = (List.filter (fun y => pyDigit y exp ≤ d) a).length := by
    intro d hd
    rw [hc2get' d hd, if_pos (by omega)]
    exact psum_eq_C exp a _ hc1get d hd
  obtain ⟨⟨hr_len, hr2len, hr2get⟩, hplace, hframe⟩ := cs_scan_spec exp a
    (List.replicate a.length 0)
    ((List.range' 1 9).foldl
      (fun c i => c.set i (c.getD i 0 + c.getD (i - 1) 0))
      (a.foldl (fun c num =>
        c.set (pyDigit num exp) (c.getD (pyDigit num exp) 0 + 1))
        (List.replicate 10 0)))
    hc2len
    (by
      intro d hd
      rw [hc2get d hd, filter_le_split exp a d]
      omega)
    (by
      intro d e hde he
      rw [hc2get d (by omega), hc2get e he]
      have h3 := filter_le_split exp a e
      have h4 : (List.filter (fun y => pyDigit y exp ≤ d) a).length
          ≤ (List.filter (fun y => pyDigit y exp < e) a).length :=
        filter_length_mono _ _ (by
          intro x hx
          simp only [decide_eq_true_eq] at hx ⊢
          omega) a
      omega)
    (by
      intro d hd
      rw [hc2get d hd, List.length_replicate]
      exact List.length_filter_le _ a)
  have hSk : ∀ k : Nat, (bucketsAux a exp (List.range k)).length
      = (List.filter (fun y => pyDigit y exp < k) a).length :=
    fun k => (buckets_perm a exp k).length_eq
  have hbja_len : (bucketsAux a exp (List.range 10)).length = a.length := by
    rw [hSk 10, filter_lt_ten_eq_self]
  have hmain : ∀ k : Nat, k ≤ 10 → ∀ i : Nat,
      i < (List.filter (fun y => pyDigit y exp < k) a).length →
      geti (cs_scan exp a (List.replicate a.length 0)
        ((List.range' 1 9).foldl
          (fun c i => c.set i (c.getD i 0 + c.getD (i - 1) 0))
          (a.foldl (fun c num =>
            c.set (pyDigit num exp) (c.getD (pyDigit num exp) 0 + 1))
            (List.replicate 10 0)))).1 i
        = geti (bucketsAux a exp (List.range k)) i := by
    intro k
    induction k with
    | zero =>
      intro hk i hi
      rw [filter_lt_zero_nil] at hi
      simp at hi
    | succ k ihk =>
      intro hk i hi
      have hk1 : bucketsAux a exp [k]
          = List.filter (fun y => pyDigit y exp == k) a := by
        show List.filter (fun y => pyDigit y exp == k) a ++ ([] : List Int) = _
        rw [List.append_nil]
      have hdecomp : bucketsAux a exp (List.range (k + 1))
          = bucketsAux a exp (List.range k)
            ++ List.filter (fun y => pyDigit y exp == k) a := by
        rw [List.range_succ, bucketsAux_append, hk1]
      rw [hdecomp]
      by_cases hik : i < (List.filter (fun y => pyDigit y exp < k) a).length
      · rw [geti_append_left2 _ _ _ (by rw [hSk k]; exact hik)]
        exact ihk (by omega) i hik
      · have hsplit := filter_le_split exp a k
        have hlt := filter_lt_succ_eq_le exp a k
        have hik2 : i < (List.filter (fun y => pyDigit y exp ≤ k) a).length := by
          rw [← hlt]
          exact hi
        have hj : i = (List.filter (fun y => pyDigit y exp < k) a).length
            + (i - (List.filter (fun y => pyDigit y exp < k) a).length) := by
          omega
        have hjlt : i - (List.filter (fun y => pyDigit y exp < k) a).length
            < (List.filter (fun y => pyDigit y exp == k) a).length := by
          omega
        have hplc := hplace k (by omega)
          (i - (List.filter (fun y => pyDigit y exp < k) a).length) hjlt
        rw [hc2get k (by omega)] at hplc
        have hpos : (List.filter (fun y => pyDigit y exp ≤ k) a).length
            - (List.filter (fun y => pyDigit y exp == k) a).length
            + (i - (List.filter (fun y => pyDigit y exp < k) a).length) = i := by
          omega
        rw [hpos] at hplc
        have h5 := geti_append_right2 (bucketsAux a exp (List.range k))
          (List.filter (fun y => pyDigit y exp == k) a)
          (i - (List.filter (fun y => pyDigit y exp < k) a).length)
        rw [hSk k, show (List.filter (fun y => pyDigit y exp < k) a).length
            + (i - (List.filter (fun y => pyDigit y exp < k) a).length) = i from by
          omega] at h5
        rw [hplc, ← h5]
  have hout_eq : (cs_scan exp a (List.replicate a.length 0)
      ((List.range' 1 9).foldl
        (fun c i => c.set i (c.getD i 0 + c.getD (i - 1) 0))
        (a.foldl (fun c num =>
          c.set (pyDigit num exp) (c.getD (pyDigit num exp) 0 + 1))
          (List.replicate 10 0)))).1 = bucketsAux a exp (List.range 10) := by
    apply ext_geti
    · rw [hr_len, List.length_replicate, hbja_len]
    · intro i hi
      rw [hr_len, List.length_replicate] at hi
      apply hmain 10 (le_refl 10) i
      rw [filter_lt_ten_eq_self]
      exact hi
  obtain ⟨hcp_len, hcp_get⟩ := copy_range_fold
    (cs_scan exp a (List.replicate a.length 0)
      ((List.range' 1 9).foldl
        (fun c i => c.set i (c.getD i 0 + c.getD (i - 1) 0))
        (a.foldl (fun c num =>
          c.set (pyDigit num exp) (c.getD (pyDigit num exp) 0 + 1))
          (List.replicate 10 0)))).1
    a.length a (le_refl _)
  apply ext_geti
  · rw [hcp_len, ← hout_eq, hr_len, List.length_replicate]
  · intro i hi
    rw [hcp_len] at hi
    rw [hcp_get i, if_pos hi, hout_eq]

theorem counting_sort_perm (a : List Int) (exp : Int) :
    (counting_sort_by_digit a exp).Perm a := by
  rw [counting_sort_eq_buckets]
  exact (buckets_perm a exp 10).trans (by rw [filter_lt_ten_eq_self])

end SortProof

namespace SortProof

/-! ### Radix sort: LSD sortedness invariant -/

theorem pyDigit_nonneg_eq (x : Int) (j : Nat) (hx : 0 ≤ x) :
    pyDigit x ((10:Int)^j) = x.toNat / 10^j % 10 := by
  obtain ⟨m, rfl⟩ : ∃ m : Nat, x = (m : Int) := ⟨x.toNat, (Int.toNat_of_nonneg hx).symm⟩
  rw [Int.toNat_natCast]
  rw [pyDigit_eq, Int.fdiv_eq_ediv _ (by positivity)]
  rw [show ((10:Int)^j) = ((10^j : Nat) : Int) from by push_cast; rfl, ← Int.ofNat_ediv]
  rw [show ((m / 10^j : Nat) : Int) % (10:Int) = (((m / 10^j) % 10 : Nat) : Int) from by
    push_cast
    rfl]
  exact Int.toNat_natCast _

theorem key_split (m : Nat) (j : Nat) :
    m % 10^(j+1) = m % 10^j + 10^j * (m / 10^j % 10) := by
  rw [pow_succ]
  exact Nat.mod_mul

theorem bucketsAux_pairwise (a : List Int) (j : Nat) (ha : ∀ x ∈ a, 0 ≤ x)
    (hs : a.Pairwise (fun x y => x.toNat % 10^j ≤ y.toNat % 10^j)) :
    ∀ ds : List Nat, ds.Pairwise (· < ·) →
    (bucketsAux a ((10:Int)^j) ds).Pairwise
      (fun x y => x.toNat % 10^(j+1) ≤ y.toNat % 10^(j+1)) := by
  intro ds
  induction ds with
  | nil =>
    intro hp
    exact List.Pairwise.nil
  | cons d ds ih =>
    intro hp
    rw [List.pairwise_cons] at hp
    obtain ⟨hd_lt, hp2⟩ := hp
    rw [show bucketsAux a ((10:Int)^j) (d :: ds)
        = a.filter (fun y => pyDigit y ((10:Int)^j) == d)
          ++ bucketsAux a ((10:Int)^j) ds from rfl]
    rw [List.pairwise_append]
    refine ⟨?_, ih hp2, ?_⟩
    · have hfs : (a.filter (fun y => pyDigit y ((10:Int)^j) == d)).Pairwise
          (fun x y => x.toNat % 10^j ≤ y.toNat % 10^j) :=
        hs.sublist (List.filter_sublist a)
      apply List.Pairwise.imp_of_mem ?_ hfs
      intro x y hx hy hr
      obtain ⟨hxa, hxd⟩ := List.mem_filter.mp hx
      obtain ⟨hya, hyd⟩ := List.mem_filter.mp hy
      rw [beq_iff_eq] at hxd hyd
      rw [pyDigit_nonneg_eq _ _ (ha x hxa)] at hxd
      rw [pyDigit_nonneg_eq _ _ (ha y hya)] at hyd
      rw [key_split, key_split, hxd, hyd]
      omega
    · intro x hx y hy
      obtain ⟨hxa, hxd⟩ := List.mem_filter.mp hx
      rw [beq_iff_eq] at hxd
      obtain ⟨d2, hd2mem, hya, hyd⟩ := (mem_bucketsAux a _ ds y).mp hy
      have hdd2 : d < d2 := hd_lt d2 hd2mem
      rw [pyDigit_nonneg_eq _ _ (ha x hxa)] at hxd
      rw [pyDigit_nonneg_eq _ _ (ha y hya)] at hyd
      rw [key_split, key_split, hxd, hyd]
      have hxm : x.toNat % 10^j < 10^j := Nat.mod_lt _ (by positivity)
      have hmul : 10^j * (d + 1) ≤ 10^j * d2 :=
        Nat.mul_le_mul_left _ (by omega)
      have hexp : 10^j * (d + 1) = 10^j * d + 10^j := by ring
      omega

theorem radix_loop_spec (max_val : Int) :
    ∀ (n : Nat) (a : List Int) (exp : Int) (k : Nat),
    (max_val.fdiv exp).toNat = n →
    exp = (10:Int)^k →
    (∀ x ∈ a, 0 ≤ x ∧ x ≤ max_val) →
    a.Pairwise (fun x y => x.toNat % 10^k ≤ y.toNat % 10^k) →
    (radix_loop max_val a exp).Perm a ∧
      (radix_loop max_val a exp).Sorted (· ≤ ·) := by
  intro n
  induction n using Nat.strong_induction_on with
  | _ n ih =>
    intro a exp k hn hexp hmem hsort
    rw [radix_loop.eq_def]
    split_ifs with h
    · have hdec : (max_val.fdiv (exp * 10)).toNat < n := by
        rw [← hn]
        exact fdiv_mul_ten_toNat_lt h
      have hmem2 : ∀ x ∈ counting_sort_by_digit a exp, 0 ≤ x ∧ x ≤ max_val := by
        intro x hx
        exact hmem x ((counting_sort_perm a exp).mem_iff.mp hx)
      have hsort2 : (counting_sort_by_digit a exp).Pairwise
          (fun x y => x.toNat % 10^(k+1) ≤ y.toNat % 10^(k+1)) := by
        rw [counting_sort_eq_buckets, hexp]
        exact bucketsAux_pairwise a k (fun x hx => (hmem x hx).1) hsort
          (List.range 10) (List.pairwise_lt_range 10)
      obtain ⟨hperm, hsorted⟩ := ih _ hdec (counting_sort_by_digit a exp)
        (exp * 10) (k + 1) rfl (by rw [hexp]; ring) hmem2 hsort2
      exact ⟨hperm.trans (counting_sort_perm a exp), hsorted⟩
    · refine ⟨List.Perm.refl a, ?_⟩
      rcases a with _ | ⟨x0, t0⟩
      · exact List.sorted_nil
      · have hexp_pos : (0:Int) < exp := by
          rw [hexp]
          positivity
        have hmax_nonneg : 0 ≤ max_val :=
          le_trans (hmem x0 (List.mem_cons_self x0 t0)).1
            (hmem x0 (List.mem_cons_self x0 t0)).2
        rw [Int.fdiv_eq_ediv _ (le_of_lt hexp_pos)] at h
        have hq := Int.ediv_add_emod max_val exp
        have hr1 := Int.emod_nonneg max_val (by omega : exp ≠ 0)
        have hr2 := Int.emod_lt_of_pos max_val hexp_pos
        have hdnn : 0 ≤ max_val / exp := Int.ediv_nonneg hmax_nonneg (le_of_lt hexp_pos)
        have hq0 : max_val / exp = 0 := by omega
        rw [hq0, mul_zero, zero_add] at hq
        have hmlt : max_val < exp := by omega
        have hcast : exp = ((10^k : Nat) : Int) := by
          rw [hexp]
          push_cast
          rfl
        show (x0 :: t0).Pairwise (· ≤ ·)
        apply List.Pairwise.imp_of_mem ?_ hsort
        intro x y hx hy hr
        obtain ⟨hx0, hxmax⟩ := hmem x hx
        obtain ⟨hy0, hymax⟩ := hmem y hy
        have hxlt : x.toNat < 10^k := by
          rw [hcast] at hmlt
          omega
        have hylt : y.toNat < 10^k := by
          rw [hcast] at hmlt
          omega
        rw [Nat.mod_eq_of_lt hxlt, Nat.mod_eq_of_lt hylt] at hr
        omega

theorem foldl_max_ge_init : ∀ (t : List Int) (b : Int), b ≤ t.foldl max b := by
  intro t
  induction t with
  | nil =>
    intro b
    exact le_refl b
  | cons y t ih =>
    intro b
    rw [List.foldl_cons]
    exact le_trans (le_max_left b y) (ih (max b y))

theorem foldl_max_ge_mem : ∀ (t : List Int) (b x : Int), x ∈ t → x ≤ t.foldl max b := by
  intro t
  induction t with
  | nil =>
    intro b x hx
    exact absurd hx (List.not_mem_nil x)
  | cons y t ih =>
    intro b x hx
    rw [List.foldl_cons]
    rcases List.mem_cons.mp hx with h | h
    · rw [h]
      exact le_trans (le_max_right b y) (foldl_max_ge_init t (max b y))
    · exact ih (max b y) x h

theorem pyMax_ge (l : List Int) (x : Int) (hx : x ∈ l) : x ≤ pyMax l := by
  match l with
  | [] => exact absurd hx (List.not_mem_nil x)
  | y :: t =>
    rw [show pyMax (y :: t) = t.foldl max y from rfl]
    rcases List.mem_cons.mp hx with h | h
    · rw [h]
      exact foldl_max_ge_init t y
    · exact foldl_max_ge_mem t y x h

theorem radix_sort_nonneg_correct (arr : List Int) (hnn : ∀ x ∈ arr, 0 ≤ x) :
    (radix_sort arr).Perm arr ∧ (radix_sort arr).Sorted (· ≤ ·) := by
  rw [radix_sort]
  split_ifs with h
  · exact ⟨List.Perm.refl _, by rw [List.isEmpty_iff.mp h]; exact List.sorted_nil⟩
  · apply radix_loop_spec (pyMax arr) ((pyMax arr).fdiv 1).toNat arr 1 0 rfl
      (by norm_num)
    · intro x hx
      exact ⟨hnn x hx, pyMax_ge arr x hx⟩
    · apply List.pairwise_iff_getElem.mpr
      intro i j hi hj hij
      simp [Nat.mod_one]

end SortProof

namespace SortProof

theorem radix_loop_perm (max_val : Int) :
    ∀ (n : Nat) (a : List Int) (exp : Int), (max_val.fdiv exp).toNat = n →
    (radix_loop max_val a exp).Perm a := by
  intro n
  induction n using Nat.strong_induction_on with
  | _ n ih =>
    intro a exp hn
    rw [radix_loop.eq_def]
    split_ifs with h
    · have hdec : (max_val.fdiv (exp * 10)).toNat < n := by
        rw [← hn]
        exact fdiv_mul_ten_toNat_lt h
      exact (ih _ hdec (counting_sort_by_digit a exp) (exp * 10) rfl).trans
        (counting_sort_perm a exp)
    · exact List.Perm.refl a

theorem radix_sort_perm (arr : List Int) : (radix_sort arr).Perm arr := by
  rw [radix_sort]
  split_ifs with h
  · exact List.Perm.refl arr
  · exact radix_loop_perm (pyMax arr) _ arr 1 rfl

end SortProof

namespace SortProof

/-! ### Heap sort: descendants, local heap property, heapify specification -/

/-- `j` is `r` itself or lies in the subtree rooted at `r` of the implicit
binary heap (parent of `j` is `(j-1)/2`). -/
def isDesc (r j : Nat) : Prop :=
  if j ≤ r then j = r else isDesc r ((j - 1) / 2)
termination_by j
decreasing_by omega

/-- The max-heap condition at a single node `j` for the first `size`
positions. -/
def HeapAt (a : List Int) (size j : Nat) : Prop :=
  (2*j+1 < size → geti a (2*j+1) ≤ geti a j) ∧
  (2*j+2 < size → geti a (2*j+2) ≤ geti a j)

theorem isDesc_refl (j : Nat) : isDesc j j := by
  rw [isDesc.eq_def, if_pos (le_refl j)]

theorem isDesc_gt_iff (r j : Nat) (h : r < j) :
    isDesc r j ↔ isDesc r ((j - 1) / 2) := by
  rw [isDesc.eq_def, if_neg (by omega)]

theorem not_isDesc_of_lt (r j : Nat) (h : j < r) : ¬ isDesc r j := by
  rw [isDesc.eq_def, if_pos (by omega)]
  omega

theorem isDesc_ge (r : Nat) : ∀ j, isDesc r j → r ≤ j := by
  intro j
  induction j using Nat.strong_induction_on with
  | _ j ihj =>
    intro hd
    by_cases h : j ≤ r
    · rw [isDesc.eq_def, if_pos h] at hd
      omega
    · omega

theorem isDesc_trans (r m : Nat) (hrm : isDesc r m) :
    ∀ q, isDesc m q → isDesc r q := by
  intro q
  induction q using Nat.strong_induction_on with
  | _ q ihq =>
    intro hd
    by_cases h : q ≤ m
    · rw [isDesc.eq_def, if_pos h] at hd
      rw [hd]
      exact hrm
    · rw [isDesc_gt_iff m q (by omega)] at hd
      have hq : isDesc r ((q - 1) / 2) := ihq _ (by omega) hd
      have hrq : r < q := by
        have := isDesc_ge r m hrm
        omega
      rw [isDesc_gt_iff r q hrq]
      exact hq

theorem isDesc_child_left (r : Nat) : isDesc r (2*r+1) := by
  rw [isDesc_gt_iff r (2*r+1) (by omega), show (2*r+1-1)/2 = r from by omega]
  exact isDesc_refl r

theorem isDesc_child_right (r : Nat) : isDesc r (2*r+2) := by
  rw [isDesc_gt_iff r (2*r+2) (by omega), show (2*r+2-1)/2 = r from by omega]
  exact isDesc_refl r

theorem all_desc_zero : ∀ p, isDesc 0 p := by
  intro p
  induction p using Nat.strong_induction_on with
  | _ p ihp =>
    by_cases h : p = 0
    · rw [h]
      exact isDesc_refl 0
    · rw [isDesc_gt_iff 0 p (by omega)]
      exact ihp _ (by omega)

theorem desc_bound (a : List Int) (size r : Nat)
    (hH : ∀ j, r ≤ j → j < size → HeapAt a size j) :
    ∀ q, isDesc r q → q < size → geti a q ≤ geti a r := by
  intro q
  induction q using Nat.strong_induction_on with
  | _ q ihq =>
    intro hdesc hq
    by_cases hqr : q = r
    · rw [hqr]
    · have hgt : r < q := Nat.lt_of_le_of_ne (isDesc_ge r q hdesc) (Ne.symm hqr)
      rw [isDesc_gt_iff r q hgt] at hdesc
      have hp_lt : (q - 1) / 2 < q := by omega
      have hchild : q = 2 * ((q - 1) / 2) + 1 ∨ q = 2 * ((q - 1) / 2) + 2 := by
        omega
      have hp_ge : r ≤ (q - 1) / 2 := isDesc_ge _ _ hdesc
      have hH_p := hH ((q - 1) / 2) hp_ge (by omega)
      have step : geti a q ≤ geti a ((q - 1) / 2) := by
        rcases hchild with h | h
        · nth_rewrite 1 [h]
          exact hH_p.1 (by omega)
        · nth_rewrite 1 [h]
          exact hH_p.2 (by omega)
      exact le_trans step (ihq _ hp_lt hdesc (by omega))

theorem desc_to_child (root : Nat) :
    ∀ q, isDesc root q → q ≠ root →
    ∃ c, (c = 2*root+1 ∨ c = 2*root+2) ∧ isDesc c q ∧ c ≤ q := by
  intro q
  induction q using Nat.strong_induction_on with
  | _ q ihq =>
    intro hdesc hne
    have hgt : root < q := Nat.lt_of_le_of_ne (isDesc_ge _ _ hdesc) (Ne.symm hne)
    rw [isDesc_gt_iff root q hgt] at hdesc
    by_cases hp : (q - 1) / 2 = root
    · refine ⟨q, by omega, isDesc_refl q, le_refl q⟩
    · obtain ⟨c, hc1, hc2, hc3⟩ := ihq ((q - 1) / 2) (by omega) hdesc hp
      refine ⟨c, hc1, ?_, by omega⟩
      have hcq : c < q := by omega
      rw [isDesc_gt_iff c q hcq]
      exact hc2

theorem largestIdx_eq_root_heapAt (a : List Int) (size root : Nat)
    (h : largestIdx a size root = root) : HeapAt a size root := by
  unfold largestIdx at h
  dsimp only at h
  constructor
  · intro h1
    by_contra hcon
    split_ifs at h with hA hB hC <;> omega
  · intro h2
    by_contra hcon
    split_ifs at h with hA hB hC <;> omega

end SortProof

namespace SortProof

/-- Full specification of `heapify`: it permutes the array, touches only
descendants of `root` below `size`, establishes the heap property on
`[root, size)` given it on `(root, size)`, and never writes a value larger
than the largest of root and its children into the subtree. -/
theorem heapify_spec (size : Nat) :
    ∀ (m : Nat) (a : List Int) (root : Nat), size - root = m →
    root < size → size ≤ a.length →
    (∀ j, root < j → j < size → HeapAt a size j) →
    ((heapify a size root).length = a.length ∧
     (heapify a size root).Perm a ∧
     (∀ q, ¬ isDesc root q → geti (heapify a size root) q = geti a q) ∧
     (∀ q, size ≤ q → geti (heapify a size root) q = geti a q) ∧
     (∀ j, root ≤ j → j < size → HeapAt (heapify a size root) size j) ∧
     (∀ q, isDesc root q → q < size →
        geti (heapify a size root) q ≤ geti a (largestIdx a size root))) := by
  intro m
  induction m using Nat.strong_induction_on with
  | _ m ih =>
    intro a root hm hrs hsl hH
    rw [heapify.eq_def]
    dsimp only
    split_ifs with hlr
    · rcases largestIdx_cases a size root with hc | hc
      · exact absurd hc hlr
      obtain ⟨hc_child, hc_lt, hc_gt⟩ := hc
      have hLa : largestIdx a size root < a.length := by omega
      have hroota : root < a.length := by omega
      have hbne : root ≠ largestIdx a size root := by omega
      have hbroot : geti (lswap a root (largestIdx a size root)) root
          = geti a (largestIdx a size root) :=
        geti_lswap_left a root _ hroota hbne
      have hbL : geti (lswap a root (largestIdx a size root))
          (largestIdx a size root) = geti a root :=
        geti_lswap_right a root _ hLa
      have hbother : ∀ q, q ≠ root → q ≠ largestIdx a size root →
          geti (lswap a root (largestIdx a size root)) q = geti a q := by
        intro q h1 h2
        exact geti_lswap_other a root _ q (fun hh => h1 hh.symm)
          (fun hh => h2 hh.symm)
      have hdescL : isDesc root (largestIdx a size root) := by
        rcases hc_child with h | h
        · rw [h]
          exact isDesc_child_left root
        · rw [h]
          exact isDesc_child_right root
      have hLparent : (largestIdx a size root - 1) / 2 = root := by omega
      have hpre : ∀ j, largestIdx a size root < j → j < size →
          HeapAt (lswap a root (largestIdx a size root)) size j := by
        intro j hj hjs
        have hHj := hH j (by omega) hjs
        constructor
        · intro h1
          rw [hbother j (by omega) (by omega),
            hbother (2*j+1) (by omega) (by omega)]
          exact hHj.1 h1
        · intro h2
          rw [hbother j (by omega) (by omega),
            hbother (2*j+2) (by omega) (by omega)]
          exact hHj.2 h2
      obtain ⟨ih_len, ih_perm, ih_frame, ih_big, ih_heap, ih_bound⟩ :=
        ih (size - largestIdx a size root) (by omega)
          (lswap a root (largestIdx a size root)) (largestIdx a size root) rfl
          hc_lt (by rw [length_lswap]; exact hsl) hpre
      have hblarg : geti (lswap a root (largestIdx a size root))
          (largestIdx (lswap a root (largestIdx a size root)) size
            (largestIdx a size root))
          ≤ geti a (largestIdx a size root) := by
        rcases largestIdx_cases (lswap a root (largestIdx a size root)) size
          (largestIdx a size root) with h2 | h2
        · rw [h2, hbL]
          exact geti_root_le_largestIdx a size root
        · obtain ⟨h2c, h2lt, h2gt⟩ := h2
          have hHL := hH (largestIdx a size root) hc_gt hc_lt
          rcases h2c with h | h
          · rw [h, hbother _ (by omega) (by omega)]
            exact hHL.1 (by omega)
          · rw [h, hbother _ (by omega) (by omega)]
            exact hHL.2 (by omega)
      refine ⟨?_, ?_, ?_, ?_, ?_, ?_⟩
      · rw [ih_len, length_lswap]
      · exact ih_perm.trans (lswap_perm a root _ hroota hLa)
      · intro q hq
        have hqL : ¬ isDesc (largestIdx a size root) q :=
          fun hd => hq (isDesc_trans root _ hdescL q hd)
        rw [ih_frame q hqL,
          hbother q (fun hh => hq (by rw [hh]; exact isDesc_refl root))
            (fun hh => hqL (by rw [hh]; exact isDesc_refl _))]
      · intro q hq
        rw [ih_big q hq, hbother q (by omega) (by omega)]
      · intro j hj hjs
        by_cases hjroot : j = root
        · subst hjroot
          have hresroot : geti (heapify (lswap a j (largestIdx a size j)) size
              (largestIdx a size j)) j = geti a (largestIdx a size j) := by
            rw [ih_frame j (not_isDesc_of_lt _ _ hc_gt), hbroot]
          constructor
          · intro h1
            by_cases hcL : 2*j+1 = largestIdx a size j
            · have hb1 := ih_bound (largestIdx a size j) (isDesc_refl _) hc_lt
              rw [hcL, hresroot]
              exact le_trans hb1 hblarg
            · have hcnotdesc : ¬ isDesc (largestIdx a size j) (2*j+1) := by
                intro hd
                have hge := isDesc_ge _ _ hd
                have hgt2 : largestIdx a size j < 2*j+1 := by omega
                rw [isDesc_gt_iff _ _ hgt2,
                  show (2*j+1-1)/2 = j from by omega] at hd
                have := isDesc_ge _ _ hd
                omega
              rw [ih_frame _ hcnotdesc, hbother _ (by omega) hcL, hresroot]
              exact geti_left_le_largestIdx a size j h1
          · intro h2
            by_cases hcL : 2*j+2 = largestIdx a size j
            · have hb1 := ih_bound (largestIdx a size j) (isDesc_refl _) hc_lt
              rw [hcL, hresroot]
              exact le_trans hb1 hblarg
            · have hcnotdesc : ¬ isDesc (largestIdx a size j) (2*j+2) := by
                intro hd
                have hge := isDesc_ge _ _ hd
                have hgt2 : largestIdx a size j < 2*j+2 := by omega
                rw [isDesc_gt_iff _ _ hgt2,
                  show (2*j+2-1)/2 = j from by omega] at hd
                have := isDesc_ge _ _ hd
                omega
              rw [ih_frame _ hcnotdesc, hbother _ (by omega) hcL, hresroot]
              exact geti_right_le_largestIdx a size j h2
        · by_cases hjL : largestIdx a size root ≤ j
          · exact ih_heap j hjL hjs
          · push_neg at hjL
            have hjgt : root < j := by
              have := isDesc_ge root j
              omega
            have hHj := hH j hjgt hjs
            have hnd : ∀ c, (c = j ∨ c = 2*j+1 ∨ c = 2*j+2) →
                ¬ isDesc (largestIdx a size root) c := by
              intro c hcc hd
              have hge := isDesc_ge _ _ hd
              by_cases hceq : c = largestIdx a size root
              · rcases hcc with h | h | h <;> omega
              · have hgtc : largestIdx a size root < c := by omega
                rw [isDesc_gt_iff _ _ hgtc] at hd
                have hge2 := isDesc_ge _ _ hd
                rcases hcc with h | h | h <;> omega
            have hfr : ∀ c, (c = j ∨ c = 2*j+1 ∨ c = 2*j+2) →
                geti (heapify (lswap a root (largestIdx a size root)) size
                  (largestIdx a size root)) c = geti a c := by
              intro c hcc
              rw [ih_frame c (hnd c hcc),
                hbother c (by rcases hcc with h | h | h <;> omega)
                  (by
                    intro hh
                    exact hnd c hcc (by rw [hh]; exact isDesc_refl _))]
            constructor
            · intro h1
              rw [hfr (2*j+1) (Or.inr (Or.inl rfl)), hfr j (Or.inl rfl)]
              exact hHj.1 h1
            · intro h2
              rw [hfr (2*j+2) (Or.inr (Or.inr rfl)), hfr j (Or.inl rfl)]
              exact hHj.2 h2
      · intro q hqdesc hqs
        by_cases hqL : isDesc (largestIdx a size root) q
        · exact le_trans (ih_bound q hqL hqs) hblarg
        · rw [ih_frame q hqL]
          by_cases hqroot : q = root
          · rw [hqroot, hbroot]
          · rw [hbother q hqroot (fun hh => hqL (by rw [hh]; exact isDesc_refl _))]
            obtain ⟨c, hc1, hc2, hc3⟩ := desc_to_child root q hqdesc hqroot
            have hcs : c < size := by omega
            have hbnd := desc_bound a size c
              (fun j2 hj2 hj2s => hH j2 (by omega) hj2s) q hc2 hqs
            have hcl : geti a c ≤ geti a (largestIdx a size root) := by
              rcases hc1 with h | h
              · rw [h]
                exact geti_left_le_largestIdx a size root (by omega)
              · rw [h]
                exact geti_right_le_largestIdx a size root (by omega)
            exact le_trans hbnd hcl
    · have heq : largestIdx a size root = root := not_not.mp hlr
      have hroot_heap : HeapAt a size root := largestIdx_eq_root_heapAt a size root heq
      have hH2 : ∀ j, root ≤ j → j < size → HeapAt a size j := by
        intro j hj hjs
        by_cases h : j = root
        · rw [h]
          exact hroot_heap
        · exact hH j (by omega) hjs
      refine ⟨rfl, List.Perm.refl a, fun q hq => rfl, fun q hq => rfl, hH2, ?_⟩
      intro q hq hqs
      rw [heq]
      exact desc_bound a size root hH2 q hq hqs

end SortProof

namespace SortProof

theorem build_fold_spec (n_len : Nat) :
    ∀ (fuel : Nat) (hi : Int) (a : List Int), (hi + 1).toNat = fuel →
    a.length = n_len → hi < (n_len : Int) →
    (∀ j : Nat, (hi : Int) < (j : Int) → j < n_len → HeapAt a n_len j) →
    (((range_down hi (-1)).foldl (fun a i => heapify a n_len i.toNat) a).length
        = n_len ∧
     ((range_down hi (-1)).foldl (fun a i => heapify a n_len i.toNat) a).Perm a ∧
     (∀ j : Nat, j < n_len →
       HeapAt ((range_down hi (-1)).foldl (fun a i => heapify a n_len i.toNat) a)
         n_len j)) := by
  intro fuel
  induction fuel using Nat.strong_induction_on with
  | _ fuel ih =>
    intro hi a hfuel hlen hhi hheap
    rw [range_down.eq_def]
    split_ifs with h
    · rw [List.foldl_cons]
      have hge : 0 ≤ hi := by omega
      have hroot : hi.toNat < n_len := by omega
      obtain ⟨hp_len, hp_perm, hp_frame, hp_big, hp_heap, hp_bound⟩ :=
        heapify_spec n_len (n_len - hi.toNat) a hi.toNat rfl hroot (by omega)
          (by
            intro j hj hjs
            exact hheap j (by omega) hjs)
      obtain ⟨ih_len, ih_perm, ih_heap⟩ := ih (hi - 1 + 1).toNat (by omega)
        (hi - 1) (heapify a n_len hi.toNat) rfl (by omega) (by omega)
        (by
          intro j hj hjs
          exact hp_heap j (by omega) hjs)
      exact ⟨ih_len, ih_perm.trans hp_perm, ih_heap⟩
    · rw [List.foldl_nil]
      refine ⟨hlen, List.Perm.refl a, ?_⟩
      intro j hj
      exact hheap j (by omega) hj

end SortProof

namespace SortProof

theorem extract_fold_spec (n_len : Nat) :
    ∀ (fuel : Nat) (hi : Int) (a : List Int), hi.toNat = fuel →
    a.length = n_len → hi < (n_len : Int) → -1 ≤ hi →
    (hi < 0 → n_len = 0) →
    (∀ j : Nat, (j : Int) < hi + 1 → HeapAt a (hi + 1).toNat j) →
    SortedSeg a (hi.toNat + 1) n_len →
    (∀ q : Nat, hi + 1 ≤ (q : Int) → q < n_len →
      ∀ p : Nat, (p : Int) ≤ hi → geti a p ≤ geti a q) →
    (((range_down hi 0).foldl
        (fun a i => heapify (lswap a 0 i.toNat) i.toNat 0) a).length = n_len ∧
     ((range_down hi 0).foldl
        (fun a i => heapify (lswap a 0 i.toNat) i.toNat 0) a).Perm a ∧
     SortedSeg ((range_down hi 0).foldl
        (fun a i => heapify (lswap a 0 i.toNat) i.toNat 0) a) 0 n_len) := by
  intro fuel
  induction fuel using Nat.strong_induction_on with
  | _ fuel ih =>
    intro hi a hfuel hlen hhi hm1 hneg hheap hsorted hcross
    rw [range_down.eq_def]
    split_ifs with h
    · rw [List.foldl_cons]
      have h1 : 1 ≤ hi := by omega
      have hsn : hi.toNat < n_len := by omega
      have hn2 : 2 ≤ n_len := by omega
      have hHall : ∀ j, 0 ≤ j → j < (hi + 1).toNat → HeapAt a (hi + 1).toNat j := by
        intro j hj0 hjs
        exact hheap j (by omega)
      have hroot_max : ∀ p : Nat, p < (hi + 1).toNat → geti a p ≤ geti a 0 := by
        intro p hp
        exact desc_bound a (hi + 1).toNat 0 hHall p (all_desc_zero p) hp
      have h0len : 0 < a.length := by omega
      have hslen : hi.toNat < a.length := by omega
      have hb'0 : geti (lswap a 0 hi.toNat) 0 = geti a hi.toNat :=
        geti_lswap_left a 0 hi.toNat h0len (by omega)
      have hb's : geti (lswap a 0 hi.toNat) hi.toNat = geti a 0 :=
        geti_lswap_right a 0 hi.toNat hslen
      have hb'other : ∀ q, q ≠ 0 → q ≠ hi.toNat →
          geti (lswap a 0 hi.toNat) q = geti a q := by
        intro q hq0 hqs
        exact geti_lswap_other a 0 hi.toNat q (fun hh => hq0 hh.symm)
          (fun hh => hqs hh.symm)
      obtain ⟨hp_len, hp_perm, hp_frame, hp_big, hp_heap, hp_bound⟩ :=
        heapify_spec hi.toNat hi.toNat (lswap a 0 hi.toNat) 0 rfl (by omega)
          (by rw [length_lswap]; omega)
          (by
            intro j hj hjs
            have hHj := hheap j (by omega)
            constructor
            · intro hc
              rw [hb'other j (by omega) (by omega),
                hb'other (2*j+1) (by omega) (by omega)]
              exact hHj.1 (by omega)
            · intro hc
              rw [hb'other j (by omega) (by omega),
                hb'other (2*j+2) (by omega) (by omega)]
              exact hHj.2 (by omega))
      have hb_hi : geti (heapify (lswap a 0 hi.toNat) hi.toNat 0) hi.toNat
          = geti a 0 := by
        rw [hp_big hi.toNat (le_refl _), hb's]
      have hb_above : ∀ q, hi.toNat < q →
          geti (heapify (lswap a 0 hi.toNat) hi.toNat 0) q = geti a q := by
        intro q hq
        rw [hp_big q (by omega), hb'other q (by omega) (by omega)]
      have hmem_bound : ∀ p : Nat, p < hi.toNat →
          ∃ p2 : Nat, p2 < hi.toNat ∧
            geti (heapify (lswap a 0 hi.toNat) hi.toNat 0) p
              = geti (lswap a 0 hi.toNat) p2 := by
        intro p hp
        have hperm2 := pySlice_perm_of_perm_frame (lswap a 0 hi.toNat)
          (heapify (lswap a 0 hi.toNat) hi.toNat 0) 0 hi.toNat (by omega)
          (by rw [length_lswap]; omega) hp_len hp_perm
          (by
            intro k hk
            rcases hk with hk | hk
            · omega
            · exact hp_big k hk)
        have hmem : geti (heapify (lswap a 0 hi.toNat) hi.toNat 0) p
            ∈ pySlice (heapify (lswap a 0 hi.toNat) hi.toNat 0) 0 hi.toNat := by
          rw [mem_pySlice_iff _ 0 hi.toNat (by omega)
            (by rw [hp_len, length_lswap]; omega)]
          exact ⟨p, by omega, hp, rfl⟩
        have hmem2 := hperm2.mem_iff.mp hmem
        rw [mem_pySlice_iff _ 0 hi.toNat (by omega)
          (by rw [length_lswap]; omega)] at hmem2
        obtain ⟨p2, hp2a, hp2b, hp2c⟩ := hmem2
        exact ⟨p2, hp2b, hp2c.symm⟩
      have hb'val_le : ∀ p2 : Nat, p2 < hi.toNat → ∀ v : Int,
          (∀ p3 : Nat, p3 < hi.toNat + 1 → geti a p3 ≤ v) →
          geti (lswap a 0 hi.toNat) p2 ≤ v := by
        intro p2 hp2 v hv
        by_cases hz : p2 = 0
        · rw [hz, hb'0]
          exact hv hi.toNat (by omega)
        · rw [hb'other p2 hz (by omega)]
          exact hv p2 (by omega)
      obtain ⟨ih_len, ih_perm, ih_sorted⟩ := ih (hi - 1).toNat (by omega) (hi - 1)
        (heapify (lswap a 0 hi.toNat) hi.toNat 0) rfl
        (by rw [hp_len, length_lswap]; exact hlen) (by omega) (by omega)
        (fun hh => absurd hh (by omega))
        (by
          intro j hj
          rw [show hi - 1 + 1 = hi from by ring]
          exact hp_heap j (by omega) (by omega))
        (by
          intro p q hp hpq hq
          by_cases hpq2 : p = q
          · rw [hpq2]
          · have hps : hi.toNat ≤ p := by omega
            by_cases hphi : p = hi.toNat
            · rw [hphi, hb_hi, hb_above q (by omega)]
              exact hcross q (by omega) hq 0 (by omega)
            · rw [hb_above p (by omega), hb_above q (by omega)]
              exact hsorted p q (by omega) hpq hq)
        (by
          intro q hq1 hq2 p hp
          have hpl : p < hi.toNat := by omega
          obtain ⟨p2, hp2lt, hp2eq⟩ := hmem_bound p hpl
          rw [hp2eq]
          by_cases hqhi : q = hi.toNat
          · rw [hqhi, hb_hi]
            exact hb'val_le p2 hp2lt (geti a 0) (fun p3 hp3 => hroot_max p3 (by omega))
          · rw [hb_above q (by omega)]
            refine hb'val_le p2 hp2lt (geti a q) ?_
            intro p3 hp3
            exact hcross q (by omega) hq2 p3 (by omega))
      refine ⟨ih_len, ?_, ih_sorted⟩
      exact ih_perm.trans (hp_perm.trans (lswap_perm a 0 hi.toNat h0len hslen))
    · rw [List.foldl_nil]
      refine ⟨hlen, List.Perm.refl a, ?_⟩
      intro p q hp hpq hq
      by_cases hp0 : p = 0
      · by_cases hq0 : q = 0
        · rw [hp0, hq0]
        · have hi0 : hi = 0 := by
            by_cases hh : hi < 0
            · have := hneg hh
              omega
            · omega
          rw [hp0]
          exact hcross q (by omega) hq 0 (by omega)
      · exact hsorted p q (by omega) hpq hq

end SortProof

namespace SortProof

theorem heap_sort_correct (arr : List Int) :
    (heap_sort arr).Perm arr ∧ (heap_sort arr).Sorted (· ≤ ·) := by
  simp only [heap_sort]
  obtain ⟨hb_len, hb_perm, hb_heap⟩ := build_fold_spec arr.length
    (((arr.length : Int) / 2 - 1) + 1).toNat ((arr.length : Int) / 2 - 1) arr rfl
    rfl (by omega)
    (by
      intro j hj hjn
      constructor
      · intro hc
        exact absurd hc (by omega)
      · intro hc
        exact absurd hc (by omega))
  obtain ⟨he_len, he_perm, he_sorted⟩ := extract_fold_spec arr.length
    ((arr.length : Int) - 1).toNat ((arr.length : Int) - 1)
    ((range_down ((arr.length : Int) / 2 - 1) (-1)).foldl
      (fun a i => heapify a arr.length i.toNat) arr) rfl hb_len
    (by omega) (by omega) (by omega)
    (by
      intro j hj
      rw [show (arr.length : Int) - 1 + 1 = (arr.length : Int) from by ring,
        Int.toNat_natCast]
      exact hb_heap j (by omega))
    (by
      intro p q hp hpq hq
      exact absurd hq (by omega))
    (by
      intro q hq1 hq2 p hp
      exact absurd hq2 (by omega))
  set R := (range_down ((arr.length : Int) - 1) 0).foldl
      (fun a i => heapify (lswap a 0 i.toNat) i.toNat 0)
      ((range_down ((arr.length : Int) / 2 - 1) (-1)).foldl
        (fun a i => heapify a arr.length i.toNat) arr) with hR
  refine ⟨he_perm.trans hb_perm, ?_⟩
  rw [sortedSeg_iff _ 0 arr.length (le_of_eq he_len.symm)] at he_sorted
  have hfull : pySlice R 0 arr.length = R := by
    rw [show arr.length = R.length from he_len.symm]
    exact pySlice_full R
  rwa [hfull] at he_sorted

end SortProof

namespace SortProof

/-! ### Claim C1: correctness of the five sorts -/

/-- The radix pass on `[-1, 5]`: `-1` has last digit `(-1 // 1) % 10 = 9`
(Python flooring semantics), so it is placed after `5`; the loop then stops
because `5 // 10 == 0`, leaving the unsorted `[5, -1]`. -/
theorem c1_radix_counterexample :
    radix_sort [-1, 5] = [5, -1] ∧ ¬ (radix_sort [-1, 5]).Sorted (· ≤ ·) := by
  have h1 : radix_sort [-1, 5] = [5, -1] := by
    simp only [radix_sort]
    rw [if_neg (by decide), show pyMax [-1, 5] = 5 from by decide,
      radix_loop.eq_def, dif_pos (by decide),
      show counting_sort_by_digit [-1, 5] 1 = [5, -1] from by decide,
      radix_loop.eq_def, dif_neg (by decide)]
  refine ⟨h1, ?_⟩
  rw [h1]
  intro hs
  rw [List.sorted_cons] at hs
  have := hs.1 (-1) (by decide)
  omega

end SortProof

namespace SortProof

/-- Claim C1 — corrected. The spec asserts all five sorts return the input
multiset in non-decreasing order on every finite integer list.  This holds
unconditionally for quick_sort, heap_sort, shell_sort and merge_sort; for
radix_sort only the permutation part holds unconditionally, while sortedness
requires every element to be nonnegative (Python's floor division makes the
digit of a negative number large, see `c1_radix_counterexample`). -/
theorem c1_sorts_amended (arr : List Int) :
    ((quick_sort arr).Perm arr ∧ (quick_sort arr).Sorted (· ≤ ·)) ∧
    ((heap_sort arr).Perm arr ∧ (heap_sort arr).Sorted (· ≤ ·)) ∧
    ((shell_sort arr).Perm arr ∧ (shell_sort arr).Sorted (· ≤ ·)) ∧
    ((merge_sort arr).Perm arr ∧ (merge_sort arr).Sorted (· ≤ ·)) ∧
    (radix_sort arr).Perm arr ∧
    ((∀ x ∈ arr, 0 ≤ x) → (radix_sort arr).Sorted (· ≤ ·)) :=
  ⟨quick_sort_correct arr, heap_sort_correct arr, shell_sort_correct arr,
    merge_sort_correct arr, radix_sort_perm arr,
    fun hnn => (radix_sort_nonneg_correct arr hnn).2⟩

theorem c1_sorts_amended_witness :
    (∀ x ∈ ([3, 1, 2] : List Int), 0 ≤ x) ∧
      (radix_sort [3, 1, 2]).Sorted (· ≤ ·) :=
  ⟨by decide, (c1_sorts_amended [3, 1, 2]).2.2.2.2.2 (by decide)⟩

/-! ### Claim C10: totality of the five sorts -/

/-- Claim C10 — confirmed. Every sort function of the engine is a total
function of its input: each is definable by well-founded recursion (the
radix loop terminates even for negative maxima because then no pass runs),
and each output has the input's length for every finite integer list. -/
theorem c10_sorts_total (arr : List Int) :
    (quick_sort arr).length = arr.length ∧
    (heap_sort arr).length = arr.length ∧
    (shell_sort arr).length = arr.length ∧
    (merge_sort arr).length = arr.length ∧
    (radix_sort arr).length = arr.length :=
  ⟨(quick_sort_correct arr).1.length_eq, (heap_sort_correct arr).1.length_eq,
    (shell_sort_correct arr).1.length_eq, (merge_sort_correct arr).1.length_eq,
    (radix_sort_perm arr).length_eq⟩

end SortProof

namespace SortProof

/-! ### TraceRecorder: `gui.py`, step generators -/

/-- A visualisation step appended by the gui generators: either a 3-tuple
`(snapshot, highlights, description)` or a 4-tuple with a pointers dict.
Python dicts are modelled as association lists in insertion order where a
later entry overrides an earlier one. -/
inductive GStep where
  | s3 (snap : List Int) (hl : List (Nat × String)) (desc : String)
  | s4 (snap : List Int) (hl : List (Nat × String)) (ptr : List (String × Int))
      (desc : String)

/-- Snapshot component of a step. -/
def GStep.snap : GStep → List Int
  | .s3 s _ _ => s
  | .s4 s _ _ _ => s

/-- Highlight dict of a step. -/
def GStep.hl : GStep → List (Nat × String)
  | .s3 _ h _ => h
  | .s4 _ h _ _ => h

/-- Lookup in a Python-dict association list (the last binding wins). -/
def dictGet (l : List (Nat × String)) (k : Nat) : Option String :=
  ((l.filter (fun p => p.1 == k)).getLast?).map Prod.snd

/-- `{i: 'sorted' for i in range(len(arr))}` of the final trace step. -/
def allSortedDict (n : Nat) : List (Nat × String) :=
  (List.range n).map (fun i => (i, "sorted"))

/-- `sorted_set.add(x)` on the model of a Python set. -/
def setAdd (s : List Nat) (x : Nat) : List Nat :=
  if x ∈ s then s else x :: s

/-- `{k: 'sorted' for k in sorted_set}`. -/
def sortedDict (s : List Nat) : List (Nat × String) :=
  s.map (fun k => (k, "sorted"))

/-- The `for j in range(lo, hi)` comparison loop of `_gen_quicksort` in
gui.py, returning the appended steps, the mutated array and the final `i`. -/
def gq_loop (a : List Int) (pivot_idx : Nat) (pivot_val : Int) (s : List Nat)
    (i : Int) (j hi : Nat) : List GStep × List Int × Int :=
  if hj : j < hi then
    let hl1 := [(pivot_idx, "pivot"), (j, "comparing")]
      ++ (if 0 ≤ i then [(i.toNat, "normal")] else [])
      ++ sortedDict s
    let st1 := GStep.s4 a hl1 [("i", i), ("j", (j : Int))]
      ("Compare " ++ toString (geti a j) ++ " < " ++ toString pivot_val ++ "?")
    if geti a j ≤ pivot_val then
      if i + 1 ≠ (j : Int) then
        let a2 := lswap a (i + 1).toNat j
        let st2 := GStep.s4 a2
          ([(pivot_idx, "pivot"), ((i + 1).toNat, "swapping"), (j, "swapping")]
            ++ sortedDict s)
          [("i", i + 1), ("j", (j : Int))]
          ("Swap: " ++ toString (geti a2 j) ++ " <-> "
            ++ toString (geti a2 (i + 1).toNat))
        let r := gq_loop a2 pivot_idx pivot_val s (i + 1) (j + 1) hi
        (st1 :: st2 :: r.1, r.2)
      else
        let r := gq_loop a pivot_idx pivot_val s (i + 1) (j + 1) hi
        (st1 :: r.1, r.2)
    else
      let r := gq_loop a pivot_idx pivot_val s i (j + 1) hi
      (st1 :: r.1, r.2)
  else ([], a, i)
termination_by hi - j

/-- The loop of `_gen_quicksort` has exactly the array effect and final `i`
of the engine's Lomuto loop `ploop` (the skipped self-swap when `i == j` is
a no-op there). -/
theorem gq_loop_eq_ploop (pivot_idx : Nat) (pivot_val : Int) (s : List Nat) :
    ∀ (m : Nat) (a : List Int) (i : Int) (j hi : Nat), hi - j = m →
    (gq_loop a pivot_idx pivot_val s i j hi).2
      = ploop a pivot_val i j hi := by
  intro m
  induction m using Nat.strong_induction_on with
  | _ m ih =>
    intro a i j hi hm
    rw [gq_loop.eq_def, ploop.eq_def]
    by_cases hj : j < hi
    · rw [dif_pos hj, dif_pos hj]
      dsimp only
      by_cases hle : geti a j ≤ pivot_val
      · rw [if_pos hle, if_pos hle]
        by_cases hij : i + 1 ≠ (j : Int)
        · rw [if_pos hij]
          dsimp only
          exact ih (hi - (j + 1)) (by omega) _ (i + 1) (j + 1) hi rfl
        · rw [if_neg hij]
          dsimp only
          push_neg at hij
          have hswap : lswap a (i + 1).toNat j = a := by
            rw [show (i + 1).toNat = j from by omega]
            exact lswap_self a j
          conv_lhs => rw [← hswap]
          exact ih (hi - (j + 1)) (by omega) _ (i + 1) (j + 1) hi rfl
      · rw [if_neg hle, if_neg hle]
        dsimp only
        exact ih (hi - (j + 1)) (by omega) a i (j + 1) hi rfl
    · rw [dif_neg hj, dif_neg hj]

/-- Array effect of the inline partitioning code of `_gen_quicksort`: the
pivot is the value at `high` (no median-of-three swap), followed by the
Lomuto loop and the final pivot swap. -/
def g_partition (a : List Int) (low high : Nat) : List Int × Nat :=
  let pivot := geti a high
  let r := ploop a pivot ((low : Int) - 1) low high
  (lswap r.1 (r.2 + 1).toNat high, (r.2 + 1).toNat)

theorem g_partition_idx_bounds (a : List Int) (low high : Nat)
    (h : low < high) : low ≤ (g_partition a low high).2 ∧
      (g_partition a low high).2 ≤ high := by
  unfold g_partition
  simp only
  have hb := ploop_i_bounds a (geti a high) ((low : Int) - 1) low high (by omega)
  omega

theorem g_partition_spec (a : List Int) (low high : Nat) (hlh : low < high)
    (hlen : high < a.length) :
    (g_partition a low high).1.length = a.length ∧
    (g_partition a low high).1.Perm a ∧
    (∀ k, k < low ∨ high < k →
      geti (g_partition a low high).1 k = geti a k) ∧
    (low ≤ (g_partition a low high).2 ∧ (g_partition a low high).2 ≤ high) ∧
    (∀ k, low ≤ k → k < (g_partition a low high).2 →
      geti (g_partition a low high).1 k
        ≤ geti (g_partition a low high).1 (g_partition a low high).2) ∧
    (∀ k, (g_partition a low high).2 < k → k ≤ high →
      geti (g_partition a low high).1 (g_partition a low high).2
        < geti (g_partition a low high).1 k) := by
  set pivot := geti a high with hpiv
  have hpl := ploop_spec pivot low a ((low : Int) - 1) low high
    (by omega)
    ⟨by omega, by omega, by omega⟩
    (by
      intro k hk1 hk2
      omega)
    (by
      intro k hk1 hk2
      omega)
  obtain ⟨L1, L2, L3, L4, L5, L6⟩ := hpl
  set r := ploop a pivot ((low : Int) - 1) low high with hr
  have hpdef : g_partition a low high
      = (lswap r.1 (r.2 + 1).toNat high, (r.2 + 1).toNat) := rfl
  set p := (r.2 + 1).toNat with hp
  have hpint : (p : Int) = r.2 + 1 := Int.toNat_of_nonneg (by omega)
  have hplow : low ≤ p := by omega
  have hphigh : p ≤ high := by omega
  have hr1len : r.1.length = a.length := L1
  have hphlen : high < r.1.length := by omega
  have hplen : p < r.1.length := by omega
  have hgp : geti (lswap r.1 p high) p = pivot := by
    by_cases hph : p = high
    · rw [hph, lswap_self]
      rw [L3 high (Or.inr (le_refl high))]
    · rw [geti_lswap_left r.1 p high hplen hph]
      rw [L3 high (Or.inr (le_refl high))]
  rw [hpdef]
  refine ⟨?_, ?_, ?_, ⟨hplow, hphigh⟩, ?_, ?_⟩
  · simp [hr1len]
  · exact (lswap_perm r.1 p high hplen hphlen).trans L2
  · intro k hk
    have hk1 : p ≠ k := by omega
    have hk2 : high ≠ k := by omega
    rw [geti_lswap_other r.1 p high k hk1 hk2]
    rw [L3 k (by omega)]
  · intro k hk1 hk2
    simp only
    rw [hgp]
    have hka : p ≠ k := by omega
    have hkb : high ≠ k := by omega
    rw [geti_lswap_other r.1 p high k hka hkb]
    exact L5 k hk1 (by omega)
  · intro k hk1 hk2
    simp only
    rw [hgp]
    rcases Nat.eq_or_lt_of_le hk2 with rfl | hkh
    · by_cases hph : p = k
      · omega
      · rw [geti_lswap_right r.1 p k hphlen]
        exact L6 p (by omega) (by omega)
    · have hka : p ≠ k := by omega
      have hkb : high ≠ k := by omega
      rw [geti_lswap_other r.1 p high k hka hkb]
      exact L6 k (by omega) (by omega)

end SortProof

namespace SortProof

/-- `_gen_quicksort` from gui.py: the pivot is the value at `hi` (no
median-of-three), steps are appended for the pivot announcement, each
comparison, each real swap and the pivot placement, and the set of already
placed pivot positions is threaded through. Returns
`(steps, array, sorted_set)`. -/
def gen_quicksort (a : List Int) (lo hi : Nat) (s : List Nat) :
    List GStep × List Int × List Nat :=
  if h : lo < hi then
    let pivot_val := geti a hi
    let st0 := GStep.s4 a ([(hi, "pivot")] ++ sortedDict s)
      [("i", (lo : Int) - 1), ("j", (lo : Int))]
      ("PIVOT: " ++ toString pivot_val)
    let r := gq_loop a hi pivot_val s ((lo : Int) - 1) lo hi
    let p := (r.2.2 + 1).toNat
    let a2 := lswap r.2.1 p hi
    let s2 := setAdd s p
    let stp := GStep.s4 a2 ([(p, "sorted")] ++ sortedDict s2)
      [("i", r.2.2 + 1)] "Pivot placed"
    let r1 := gen_quicksort a2 lo (p - 1) s2
    let r2 := gen_quicksort r1.2.1 (p + 1) hi r1.2.2
    (st0 :: r.1 ++ stp :: r1.1 ++ r2.1, r2.2)
  else ([], a, s)
termination_by hi - lo
decreasing_by
  · have he := gq_loop_eq_ploop hi (geti a hi) s (hi - lo) a ((lo : Int) - 1)
      lo hi rfl
    rw [he]
    have hb := ploop_i_bounds a (geti a hi) ((lo : Int) - 1) lo hi (by omega)
    omega
  · have he := gq_loop_eq_ploop hi (geti a hi) s (hi - lo) a ((lo : Int) - 1)
      lo hi rfl
    rw [he]
    have hb := ploop_i_bounds a (geti a hi) ((lo : Int) - 1) lo hi (by omega)
    omega

end SortProof

namespace SortProof

theorem gen_quicksort_spec :
    ∀ (m : Nat) (a : List Int) (lo hi : Nat) (s : List Nat), hi - lo = m →
    hi < a.length →
    ((gen_quicksort a lo hi s).2.1.length = a.length ∧
     (gen_quicksort a lo hi s).2.1.Perm a ∧
     (∀ k, k < lo ∨ hi < k → geti (gen_quicksort a lo hi s).2.1 k = geti a k) ∧
     SortedSeg (gen_quicksort a lo hi s).2.1 lo (hi + 1)) := by
  intro m
  induction m using Nat.strong_induction_on with
  | _ m ih =>
    intro a lo hi s hm hlen
    rw [gen_quicksort.eq_def]
    split_ifs with h
    · dsimp only
      have hgp := gq_loop_eq_ploop hi (geti a hi) s (hi - lo) a ((lo : Int) - 1)
        lo hi rfl
      rw [hgp]
      have hBe : lswap (ploop a (geti a hi) ((lo : Int) - 1) lo hi).1
          ((ploop a (geti a hi) ((lo : Int) - 1) lo hi).2 + 1).toNat hi
          = (g_partition a lo hi).1 := rfl
      have hpe : ((ploop a (geti a hi) ((lo : Int) - 1) lo hi).2 + 1).toNat
          = (g_partition a lo hi).2 := rfl
      rw [hBe, hpe]
      obtain ⟨P1, P2, P3, ⟨Pb1, Pb2⟩, P5, P6⟩ := g_partition_spec a lo hi h hlen
      set B := (g_partition a lo hi).1 with hBd
      set p := (g_partition a lo hi).2 with hpd
      have h1 := ih (p - 1 - lo) (by omega) B lo (p - 1) (setAdd s p) rfl
        (show p - 1 < B.length from by rw [P1]; omega)
      set A1 := (gen_quicksort B lo (p - 1) (setAdd s p)).2.1 with hA1d
      have hA1len : A1.length = a.length := by
        rw [(h1.1 : A1.length = B.length), P1]
      have h2 := ih (hi - (p + 1)) (by omega) A1 (p + 1) hi
        (gen_quicksort B lo (p - 1) (setAdd s p)).2.2 rfl
        (show hi < A1.length from by rw [hA1len]; exact hlen)
      set A2 := (gen_quicksort A1 (p + 1) hi
        (gen_quicksort B lo (p - 1) (setAdd s p)).2.2).2.1 with hA2d
      have hA2len : A2.length = a.length := by
        rw [(h2.1 : A2.length = A1.length), hA1len]
      have hA1f : ∀ k, p ≤ k → geti A1 k = geti B k := by
        intro k hk
        by_cases hp0 : p = 0
        · have hlow0 : lo = 0 := by omega
          have hab : A1 = B := by
            rw [hA1d, hp0, hlow0]
            rw [gen_quicksort.eq_def, dif_neg (by omega)]
          rw [hab]
        · exact h1.2.2.1 k (Or.inr (by omega))
      have hA1f2 : ∀ k, k < lo → geti A1 k = geti B k := by
        intro k hk
        exact h1.2.2.1 k (Or.inl hk)
      have hA2f : ∀ k, k < p + 1 ∨ hi < k → geti A2 k = geti A1 k :=
        h2.2.2.1
      have hvalp : geti A2 p = geti B p := by
        rw [hA2f p (Or.inl (by omega)), hA1f p (le_refl p)]
      have hBlen : B.length = a.length := P1
      have hpermlow : (pySlice A2 lo p).Perm (pySlice B lo p) := by
        have heq : pySlice A2 lo p = pySlice A1 lo p := by
          refine pySlice_congr A1 A2 lo p ?_ (by rw [hA2len, hA1len])
          intro k hk1 hk2
          exact hA2f k (Or.inl (by omega))
        rw [heq]
        refine pySlice_perm_of_perm_frame B A1 lo p Pb1 (by omega)
          (by rw [hA1len, hBlen]) h1.2.1 ?_
        intro k hk
        rcases hk with hk | hk
        · exact hA1f2 k hk
        · exact hA1f k hk
      have hpermhigh : (pySlice A2 (p + 1) (hi + 1)).Perm
          (pySlice B (p + 1) (hi + 1)) := by
        have heq : pySlice A1 (p + 1) (hi + 1)
            = pySlice B (p + 1) (hi + 1) := by
          refine pySlice_congr B A1 (p + 1) (hi + 1) ?_
            (by rw [hA1len, hBlen])
          intro k hk1 hk2
          exact hA1f k (by omega)
        rw [← heq]
        refine pySlice_perm_of_perm_frame A1 A2 (p + 1) (hi + 1) (by omega)
          (by omega) (by rw [hA2len, hA1len]) h2.2.1 ?_
        intro k hk
        rcases hk with hk | hk
        · exact hA2f k (Or.inl hk)
        · exact hA2f k (Or.inr (by omega))
      have hlowvals : ∀ k, lo ≤ k → k < p → geti A2 k ≤ geti B p := by
        intro k hk1 hk2
        have hmem : geti A2 k ∈ pySlice A2 lo p := by
          rw [mem_pySlice_iff A2 lo p (by omega) (by omega)]
          exact ⟨k, hk1, hk2, rfl⟩
        have hmem2 : geti A2 k ∈ pySlice B lo p := hpermlow.mem_iff.mp hmem
        rw [mem_pySlice_iff B lo p (by omega) (by omega)] at hmem2
        obtain ⟨k2, hk12, hk22, hval⟩ := hmem2
        rw [← hval]
        exact P5 k2 hk12 hk22
      have hhighvals : ∀ k, p < k → k ≤ hi → geti B p < geti A2 k := by
        intro k hk1 hk2
        have hmem : geti A2 k ∈ pySlice A2 (p + 1) (hi + 1) := by
          rw [mem_pySlice_iff A2 (p + 1) (hi + 1) (by omega) (by omega)]
          exact ⟨k, by omega, by omega, rfl⟩
        have hmem2 : geti A2 k ∈ pySlice B (p + 1) (hi + 1) :=
          hpermhigh.mem_iff.mp hmem
        rw [mem_pySlice_iff B (p + 1) (hi + 1) (by omega) (by omega)] at hmem2
        obtain ⟨k2, hk12, hk22, hval⟩ := hmem2
        rw [← hval]
        exact P6 k2 (by omega) (by omega)
      have hsA2low : SortedSeg A2 lo p := by
        by_cases hp0 : p = 0
        · intro x y hx hxy hy
          omega
        · have hps : p - 1 + 1 = p := by omega
          have hs1 : SortedSeg A1 lo p := by
            have := h1.2.2.2
            rwa [hps] at this
          intro x y hx hxy hy
          rw [hA2f x (Or.inl (by omega)), hA2f y (Or.inl (by omega))]
          exact hs1 x y hx hxy hy
      have hsA2high : SortedSeg A2 (p + 1) (hi + 1) := h2.2.2.2
      refine ⟨hA2len, ?_, ?_, ?_⟩
      · exact (h2.2.1.trans h1.2.1).trans P2
      · intro k hk
        rw [hA2f k (by
          rcases hk with hk | hk
          · exact Or.inl (by omega)
          · exact Or.inr hk)]
        rw [h1.2.2.1 k (by
          rcases hk with hk | hk
          · exact Or.inl hk
          · exact Or.inr (by omega))]
        exact P3 k hk
      · intro x y hx hxy hy
        by_cases hxp : x < p
        · by_cases hyp : y < p
          · exact hsA2low x y hx hxy hyp
          · by_cases hyq : y = p
            · subst hyq
              rw [hvalp]
              exact hlowvals x hx hxp
            · exact le_trans (hlowvals x hx hxp)
                (le_of_lt (hhighvals y (by omega) (by omega)))
        · by_cases hxq : x = p
          · by_cases hyq : y = p
            · rw [hxq, hyq]
            · rw [hxq, hvalp]
              exact le_of_lt (hhighvals y (by omega) (by omega))
          · exact hsA2high x y (by omega) hxy (by omega)
    · refine ⟨rfl, List.Perm.refl a, fun k _ => rfl, ?_⟩
      intro x y hx hxy hy
      have hxy2 : x = y := by omega
      rw [hxy2]

end SortProof

namespace SortProof

theorem gen_quicksort_eq_quick_sort (arr : List Int) :
    (gen_quicksort arr 0 (arr.length - 1) []).2.1 = quick_sort arr := by
  by_cases hl : arr.length > 1
  · obtain ⟨g_len, g_perm, g_frame, g_sorted⟩ :=
      gen_quicksort_spec (arr.length - 1) arr 0 (arr.length - 1) [] rfl (by omega)
    have hq := quick_sort_correct arr
    refine List.eq_of_perm_of_sorted (g_perm.trans hq.1.symm) ?_ hq.2
    set G := (gen_quicksort arr 0 (arr.length - 1) []).2.1 with hG
    have heq : arr.length - 1 + 1 = arr.length := by omega
    rw [heq] at g_sorted
    rw [sortedSeg_iff _ 0 arr.length (le_of_eq g_len.symm)] at g_sorted
    have hfull : pySlice G 0 arr.length = G := by
      rw [show arr.length = G.length from g_len.symm]
      exact pySlice_full G
    rwa [hfull] at g_sorted
  · rw [gen_quicksort.eq_def, dif_neg (by omega), quick_sort, if_neg hl]

/-- The `largest` computation at the top of `_heapify` in gui.py (two
sequential conditional rebindings, exactly as in the engine's `heapify`). -/
def g_largest (a : List Int) (n i : Nat) : Nat :=
  let largest := i
  let largest := if 2*i+1 < n ∧ geti a largest < geti a (2*i+1)
    then 2*i+1 else largest
  if 2*i+2 < n ∧ geti a largest < geti a (2*i+2) then 2*i+2 else largest

theorem g_largest_eq (a : List Int) (n i : Nat) :
    g_largest a n i = largestIdx a n i := rfl

/-- `_heapify` from gui.py: identical array manipulation to the engine's
`heapify`, with a check step before the comparison and a swap step after a
real swap. Returns `(steps, array)`. -/
def g_heapify (a : List Int) (n i : Nat) (s : List Nat) : List GStep × List Int :=
  let l := 2*i+1
  let r := 2*i+2
  let hl0 := [(i, "pivot")] ++ (if l < n then [(l, "comparing")] else [])
    ++ (if r < n then [(r, "comparing")] else []) ++ sortedDict s
  let st0 := GStep.s3 a hl0
    ("Heapify: check node " ++ toString i ++ " with children")
  let largest := g_largest a n i
  if h : largest ≠ i then
    let a2 := lswap a i largest
    let st1 := GStep.s3 a2
      ([(i, "swapping"), (largest, "swapping")] ++ sortedDict s)
      ("Swap " ++ toString (geti a2 i) ++ " ↔ " ++ toString (geti a2 largest))
    let rr := g_heapify a2 n largest s
    (st0 :: st1 :: rr.1, rr.2)
  else ([st0], a)
termination_by n - i
decreasing_by
  rw [g_largest_eq]
  rcases largestIdx_cases a n i with hcc | hcc
  · exact absurd hcc h
  · omega

end SortProof

namespace SortProof

/-- `_heapify`'s array component coincides with the engine's `heapify`. -/
theorem g_heapify_arr (n : Nat) :
    ∀ (m : Nat) (a : List Int) (i : Nat) (s : List Nat), n - i = m →
    (g_heapify a n i s).2 = heapify a n i := by
  intro m
  induction m using Nat.strong_induction_on with
  | _ m ih =>
    intro a i s hm
    rw [g_heapify.eq_def, heapify.eq_def]
    dsimp only
    rw [g_largest_eq]
    by_cases h : largestIdx a n i ≠ i
    · rw [dif_pos h, dif_pos h]
      dsimp only
      rcases largestIdx_cases a n i with hcc | hcc
      · exact absurd hcc h
      · exact ih (n - largestIdx a n i) (by omega) _ (largestIdx a n i) s rfl
    · rw [dif_neg h, dif_neg h]

/-- `heapify` preserves the array length, with no side condition. -/
theorem heapify_length (m : Nat) :
    ∀ (a : List Int) (size root : Nat), size - root = m →
      (heapify a size root).length = a.length := by
  induction m using Nat.strong_induction_on with
  | _ m ih =>
    intro a size root hm
    rw [heapify.eq_def]
    dsimp only
    split_ifs with h
    · rcases largestIdx_cases a size root with hc | hc
      · exact absurd hc h
      · rw [ih (size - largestIdx a size root) (by omega)
          (lswap a root (largestIdx a size root)) size
          (largestIdx a size root) rfl, length_lswap]
    · rfl

/-- `_gen_heapsort` from gui.py: the build loop, the two banner steps, and
the extraction loop with its per-iteration steps.  The second banner
formats "MAX HEAP ready! Root = arr[0] (largest)": that `arr[0]` read is
unconditional, so on the empty array Python raises `IndexError` and no
step list is ever produced; the emptiness test below models exactly that
read.  Returns `Except.ok (steps, array)` on success, the `IndexError`
otherwise. -/
def gen_heapsort (arr : List Int) : Except String (List GStep × List Int) :=
  let n := arr.length
  let s : List Nat := []
  let st0 := GStep.s3 arr [(0, "pivot")] "Building MAX HEAP (parent > children)"
  let rb := (range_down ((n : Int) / 2 - 1) (-1)).foldl
    (fun (acc : List GStep × List Int) i =>
      let r := g_heapify acc.2 n i.toNat s
      (acc.1 ++ r.1, r.2)) ([st0], arr)
  if rb.2.length = 0 then Except.error "IndexError: list index out of range"
  else
    let st1 := GStep.s3 rb.2 [(0, "pivot")]
      ("MAX HEAP ready! Root = " ++ toString (geti rb.2 0) ++ " (largest)")
    let re := (range_down ((n : Int) - 1) 0).foldl
      (fun (acc : List GStep × List Int × List Nat) i =>
        let a := acc.2.1
        let s := acc.2.2
        let stA := GStep.s3 a
          ([(0, "pivot"), (i.toNat, "comparing")] ++ sortedDict s)
          ("Extract MAX " ++ toString (geti a 0) ++ " → move to position "
            ++ toString i.toNat)
        let a2 := lswap a 0 i.toNat
        let s2 := setAdd s i.toNat
        let stB := GStep.s3 a2
          ([(0, "swapping"), (i.toNat, "sorted")] ++ sortedDict s2)
          "Swapped! Now heapify root..."
        let rh := g_heapify a2 i.toNat 0 s2
        (acc.1 ++ [stA, stB] ++ rh.1, rh.2, s2))
      (rb.1 ++ [st1], rb.2, s)
    Except.ok (re.1, re.2.1)

/-- On the empty array `_gen_heapsort` raises `IndexError` at the
"MAX HEAP ready!" banner. -/
theorem gen_heapsort_empty :
    gen_heapsort [] = Except.error "IndexError: list index out of range" := by
  rw [gen_heapsort]
  dsimp only
  rw [show ((([] : List Int).length : Int) / 2 - 1) = (-1 : Int) from by decide]
  rw [show range_down (-1 : Int) (-1) = [] from by
    rw [range_down.eq_def, dif_neg (by decide)]]
  rfl

/-- On a non-empty array `_gen_heapsort` succeeds, and its final array is
exactly `heap_sort`'s output. -/
theorem gen_heapsort_ok (arr : List Int) (hne : arr ≠ []) :
    ∃ st : List GStep, gen_heapsort arr = Except.ok (st, heap_sort arr) := by
  rw [gen_heapsort, heap_sort]
  dsimp only
  have hbuild : ∀ (l : List Int) (st : List GStep) (a : List Int),
      (l.foldl (fun (acc : List GStep × List Int) i =>
        let r := g_heapify acc.2 arr.length i.toNat []
        (acc.1 ++ r.1, r.2)) (st, a)).2
      = l.foldl (fun a i => heapify a arr.length i.toNat) a := by
    intro l
    induction l with
    | nil =>
      intro st a
      rfl
    | cons x t ihl =>
      intro st a
      rw [List.foldl_cons, List.foldl_cons]
      dsimp only
      rw [g_heapify_arr arr.length (arr.length - x.toNat) a x.toNat [] rfl]
      exact ihl _ _
  have hlen : ∀ (l : List Int) (a : List Int),
      (l.foldl (fun a i => heapify a arr.length i.toNat) a).length
        = a.length := by
    intro l
    induction l with
    | nil => intro a; rfl
    | cons x t ihl =>
      intro a
      rw [List.foldl_cons, ihl,
        heapify_length (arr.length - x.toNat) a arr.length x.toNat rfl]
  have hcond : ¬ ((range_down (((arr.length : Nat) : Int) / 2 - 1) (-1)).foldl
      (fun a i => heapify a arr.length i.toNat) arr).length = 0 := by
    rw [hlen]
    exact fun hc => hne (List.eq_nil_of_length_eq_zero hc)
  have hextract : ∀ (l : List Int) (st : List GStep) (a : List Int) (s : List Nat),
      (l.foldl (fun (acc : List GStep × List Int × List Nat) i =>
        let a := acc.2.1
        let s := acc.2.2
        let stA := GStep.s3 a
          ([(0, "pivot"), (i.toNat, "comparing")] ++ sortedDict s)
          ("Extract MAX " ++ toString (geti a 0) ++ " → move to position "
            ++ toString i.toNat)
        let a2 := lswap a 0 i.toNat
        let s2 := setAdd s i.toNat
        let stB := GStep.s3 a2
          ([(0, "swapping"), (i.toNat, "sorted")] ++ sortedDict s2)
          "Swapped! Now heapify root..."
        let rh := g_heapify a2 i.toNat 0 s2
        (acc.1 ++ [stA, stB] ++ rh.1, rh.2, s2)) (st, a, s)).2.1
      = l.foldl (fun a i => heapify (lswap a 0 i.toNat) i.toNat 0) a := by
    intro l
    induction l with
    | nil =>
      intro st a s
      rfl
    | cons x t ihl =>
      intro st a s
      rw [List.foldl_cons, List.foldl_cons]
      dsimp only
      rw [g_heapify_arr x.toNat x.toNat (lswap a 0 x.toNat) 0 (setAdd s x.toNat) rfl]
      exact ihl _ _ _
  rw [hbuild, if_neg hcond]
  apply Exists.intro
  rw [hextract]

end SortProof

namespace SortProof

/-- The inner shifting `while` loop of `_gen_shellsort` in gui.py, with its
per-shift step. Returns `(steps, array, j)`. -/
def g_shift (a : List Int) (temp : Int) (gap : Nat) (hg : 0 < gap) (j : Nat) :
    List GStep × List Int × Nat :=
  if h : gap ≤ j ∧ geti a (j - gap) > temp then
    let st := GStep.s3 a [(j, "swapping"), (j - gap, "swapping")]
      ("Shift: " ++ toString (geti a (j - gap)) ++ " moves right")
    let a2 := a.set j (geti a (j - gap))
    let r := g_shift a2 temp gap hg (j - gap)
    (st :: r.1, r.2)
  else ([], a, j)
termination_by j
decreasing_by omega

theorem g_shift_arr (temp : Int) (gap : Nat) (hg : 0 < gap) :
    ∀ (j : Nat) (a : List Int),
    (g_shift a temp gap hg j).2 = shift_loop a temp gap hg j := by
  intro j
  induction j using Nat.strong_induction_on with
  | _ j ih =>
    intro a
    rw [g_shift.eq_def, shift_loop.eq_def]
    split_ifs with h
    · dsimp only
      exact ih (j - gap) (by omega) _
    · rfl

/-- The `for i in range(gap, n)` pass of `_gen_shellsort`, including the
comparison step guarded by `if j >= gap` and the shifting steps. -/
def g_gap_pass (a : List Int) (gap : Nat) (hg : 0 < gap) :
    List GStep × List Int :=
  (List.range' gap (a.length - gap)).foldl
    (fun (acc : List GStep × List Int) i =>
      let b := acc.2
      let temp := geti b i
      let stc := if gap ≤ i then
          [GStep.s3 b [(i, "gap"), (i - gap, "comparing")]
            ("Compare [" ++ toString i ++ "]=" ++ toString (geti b i)
              ++ " with [" ++ toString (i - gap) ++ "]="
              ++ toString (geti b (i - gap)))]
        else []
      let r := g_shift b temp gap hg i
      (acc.1 ++ stc ++ r.1, r.2.1.set r.2.2 temp))
    ([], a)

theorem g_gap_pass_arr (a : List Int) (gap : Nat) (hg : 0 < gap) :
    (g_gap_pass a gap hg).2 = gap_pass a gap hg := by
  rw [g_gap_pass, gap_pass]
  have hgen : ∀ (l : List Nat) (st : List GStep) (b : List Int),
      (l.foldl (fun (acc : List GStep × List Int) i =>
        let b := acc.2
        let temp := geti b i
        let stc := if gap ≤ i then
            [GStep.s3 b [(i, "gap"), (i - gap, "comparing")]
              ("Compare [" ++ toString i ++ "]=" ++ toString (geti b i)
                ++ " with [" ++ toString (i - gap) ++ "]="
                ++ toString (geti b (i - gap)))]
          else []
        let r := g_shift b temp gap hg i
        (acc.1 ++ stc ++ r.1, r.2.1.set r.2.2 temp)) (st, b)).2
      = l.foldl (fun b i =>
          let temp := geti b i
          let r := shift_loop b temp gap hg i
          r.1.set r.2 temp) b := by
    intro l
    induction l with
    | nil =>
      intro st b
      rfl
    | cons x t ihl =>
      intro st b
      rw [List.foldl_cons, List.foldl_cons]
      dsimp only
      rw [g_shift_arr (geti b x) gap hg x b]
      exact ihl _ _
  exact hgen _ [] a

/-- The outer `while gap > 0` loop of `_gen_shellsort`, with the gap banner
step. -/
def g_gap_loop (a : List Int) (gap : Nat) : List GStep × List Int :=
  if h : 0 < gap then
    let st := GStep.s3 a []
      ("GAP = " ++ toString gap ++ " (compare elements " ++ toString gap
        ++ " apart)")
    let r := g_gap_pass a gap h
    let r2 := g_gap_loop r.2 (gap / 3)
    (st :: r.1 ++ r2.1, r2.2)
  else ([], a)
termination_by gap
decreasing_by exact Nat.div_lt_self h (by norm_num)

theorem g_gap_loop_arr : ∀ (gap : Nat) (a : List Int),
    (g_gap_loop a gap).2 = gap_loop a gap := by
  intro gap
  induction gap using Nat.strong_induction_on with
  | _ gap ih =>
    intro a
    rw [g_gap_loop.eq_def, gap_loop.eq_def]
    split_ifs with h
    · dsimp only
      rw [g_gap_pass_arr a gap h]
      exact ih (gap / 3) (Nat.div_lt_self h (by norm_num)) _
    · rfl

/-- `_gen_shellsort` from gui.py: the initial gap growth loop is textually
the engine's (`gap = 1; while gap < n//3: gap = gap*3+1`), then the gapped
passes run with their steps. Returns `(steps, array)`. -/
def gen_shellsort (arr : List Int) : List GStep × List Int :=
  g_gap_loop arr (gap_grow arr.length 1)

theorem gen_shellsort_eq_shell_sort (arr : List Int) :
    (gen_shellsort arr).2 = shell_sort arr := by
  rw [gen_shellsort, shell_sort]
  exact g_gap_loop_arr (gap_grow arr.length 1) arr

end SortProof

namespace SortProof

/-- The first merge loop of `_gen_mergesort` in gui.py: like the engine's
`mloop1` but appending a placement step after each write (the step is
appended before `k += 1`, so its description reads the value written at
`k`). Returns `(steps, array, i, j, k)`. -/
def gm_loop1 (left right : List Int) (a : List Int) (i j k : Nat) :
    List GStep × List Int × Nat × Nat × Nat :=
  if h : i < left.length ∧ j < right.length then
    if geti left i ≤ geti right j then
      let a2 := a.set k (geti left i)
      let st := GStep.s3 a2 [(k, "merging")] ("Place " ++ toString (geti a2 k))
      let r := gm_loop1 left right a2 (i + 1) j (k + 1)
      (st :: r.1, r.2)
    else
      let a2 := a.set k (geti right j)
      let st := GStep.s3 a2 [(k, "merging")] ("Place " ++ toString (geti a2 k))
      let r := gm_loop1 left right a2 i (j + 1) (k + 1)
      (st :: r.1, r.2)
  else ([], a, i, j, k)
termination_by left.length + right.length - (i + j)
decreasing_by
  · omega
  · omega

theorem gm_loop1_eq (left right : List Int) :
    ∀ a i j k, (gm_loop1 left right a i j k).2 = mloop1 left right a i j k := by
  intro a i j k
  induction a, i, j, k using mloop1.induct left right with
  | case1 a i j k h hle ih =>
    rw [gm_loop1, mloop1, dif_pos h, dif_pos h, if_pos hle, if_pos hle]
    dsimp only
    exact ih
  | case2 a i j k h hle ih =>
    rw [gm_loop1, mloop1, dif_pos h, dif_pos h, if_neg hle, if_neg hle]
    dsimp only
    exact ih
  | case3 a i j k h =>
    rw [gm_loop1, mloop1, dif_neg h, dif_neg h]

/-- `_gen_mergesort` from gui.py: half-open recursion on `[start, end)`
splitting at `(start+end)//2`, then an in-place merge of the two slice
copies (the trailing drain loops append no steps and are the engine's
`copy_loop`s). Returns `(steps, array)`. -/
def gen_mergesort (a : List Int) (start end_ : Nat) (s : List Nat) :
    List GStep × List Int :=
  if h : end_ - start > 1 then
    let mid := (start + end_) / 2
    let hl0 := ((List.range' start (mid - start)).map (fun i => (i, "comparing")))
      ++ ((List.range' mid (end_ - mid)).map (fun i => (i, "gap")))
    let st0 := GStep.s3 a hl0
      ("Split: Left[" ++ toString start ++ ":" ++ toString mid ++ "] Right["
        ++ toString mid ++ ":" ++ toString end_ ++ "]")
    let r1 := gen_mergesort a start mid s
    let r2 := gen_mergesort r1.2 mid end_ s
    let a2 := r2.2
    let left := pySlice a2 start mid
    let right := pySlice a2 mid end_
    let stm := GStep.s3 a2 []
      ("Merge: " ++ toString left ++ " + " ++ toString right)
    let rm := gm_loop1 left right a2 0 0 start
    let rc1 := copy_loop left rm.2.1 rm.2.2.1 rm.2.2.2.2
    let rc2 := copy_loop right rc1.1 rm.2.2.2.1 rc1.2.2
    (st0 :: r1.1 ++ r2.1 ++ stm :: rm.1, rc2.1)
  else ([], a)
termination_by end_ - start
decreasing_by
  · omega
  · omega

end SortProof

namespace SortProof

theorem g_merge_props (a : List Int) (start mid end_ : Nat) (h1 : start ≤ mid)
    (h2 : mid ≤ end_) (h3 : end_ ≤ a.length) :
    (setSeg a start
      (mergeLists (pySlice a start mid) (pySlice a mid end_))).length
        = a.length ∧
    (setSeg a start
      (mergeLists (pySlice a start mid) (pySlice a mid end_))).Perm a ∧
    (∀ k, k < start ∨ end_ ≤ k →
      geti (setSeg a start
        (mergeLists (pySlice a start mid) (pySlice a mid end_))) k
      = geti a k) ∧
    (SortedSeg a start mid → SortedSeg a mid end_ →
      SortedSeg (setSeg a start
        (mergeLists (pySlice a start mid) (pySlice a mid end_)))
        start end_) := by
  have hl1 : (pySlice a start mid).length = mid - start :=
    length_pySlice_of_le a start mid h1 (by omega)
  have hl2 : (pySlice a mid end_).length = end_ - mid :=
    length_pySlice_of_le a mid end_ h2 h3
  set s1 := pySlice a start mid with hs1
  set s2 := pySlice a mid end_ with hs2
  have hmlen : (mergeLists s1 s2).length = end_ - start := by
    rw [mergeLists_length, hl1, hl2]
    omega
  have happ : s1 ++ s2 = pySlice a start end_ :=
    pySlice_append a start mid end_ h1 h2
  have hperm0 : (mergeLists s1 s2).Perm (pySlice a start end_) := by
    rw [← happ]
    exact mergeLists_perm s1 s2
  have hbound : start + (mergeLists s1 s2).length ≤ a.length := by
    rw [hmlen]
    omega
  refine ⟨length_setSeg _ _ _ hbound, ?_, ?_, ?_⟩
  · refine setSeg_perm a start _ hbound ?_
    rw [show start + (mergeLists s1 s2).length = end_ from by omega]
    exact hperm0
  · intro k hk
    rcases hk with hk | hk
    · exact geti_setSeg_lt a start _ k hk (by omega)
    · exact geti_setSeg_ge a start _ k (by omega) (by omega)
  · intro hseg1 hseg2
    have hsort : (mergeLists s1 s2).Sorted (· ≤ ·) := by
      refine mergeLists_sorted s1 s2 ?_ ?_
      · exact (sortedSeg_iff a start mid (by omega)).mp hseg1
      · exact (sortedSeg_iff a mid end_ (by omega)).mp hseg2
    intro p q hp hpq hq
    have hql : q < start + (mergeLists s1 s2).length := by omega
    rw [geti_setSeg_mid a start _ p hp (by omega) (by omega),
      geti_setSeg_mid a start _ q (by omega) hql (by omega)]
    rcases Nat.eq_or_lt_of_le hpq with rfl | hlt
    · exact le_refl _
    rw [List.Sorted, List.pairwise_iff_getElem] at hsort
    have hg := hsort (p - start) (q - start) (by omega) (by omega) (by omega)
    rw [← geti_eq_getElem _ _
        (by omega : p - start < (mergeLists s1 s2).length),
      ← geti_eq_getElem _ _
        (by omega : q - start < (mergeLists s1 s2).length)] at hg
    exact hg

theorem gen_mergesort_spec :
    ∀ (m : Nat) (a : List Int) (start end_ : Nat) (s : List Nat),
    end_ - start = m → end_ ≤ a.length →
    ((gen_mergesort a start end_ s).2.length = a.length ∧
     (gen_mergesort a start end_ s).2.Perm a ∧
     (∀ k, k < start ∨ end_ ≤ k →
       geti (gen_mergesort a start end_ s).2 k = geti a k) ∧
     SortedSeg (gen_mergesort a start end_ s).2 start end_) := by
  intro m
  induction m using Nat.strong_induction_on with
  | _ m ih =>
    intro a start end_ s hm hlen
    rw [gen_mergesort.eq_def]
    split_ifs with h
    · dsimp only
      have hmid1 : start < (start + end_) / 2 := by omega
      have hmid2 : (start + end_) / 2 < end_ := by omega
      have hh1 := ih ((start + end_) / 2 - start) (by omega) a start
        ((start + end_) / 2) s rfl (by omega)
      set A1 := (gen_mergesort a start ((start + end_) / 2) s).2 with hA1
      have hh2 := ih (end_ - (start + end_) / 2) (by omega) A1
        ((start + end_) / 2) end_ s rfl (by rw [hh1.1]; exact hlen)
      set A2 := (gen_mergesort A1 ((start + end_) / 2) end_ s).2 with hA2
      have hA2len : A2.length = a.length := by
        rw [(hh2.1 : A2.length = A1.length), hh1.1]
      have hwr : (copy_loop (pySlice A2 ((start + end_) / 2) end_)
          (copy_loop (pySlice A2 start ((start + end_) / 2))
            (gm_loop1 (pySlice A2 start ((start + end_) / 2))
              (pySlice A2 ((start + end_) / 2) end_) A2 0 0 start).2.1
            (gm_loop1 (pySlice A2 start ((start + end_) / 2))
              (pySlice A2 ((start + end_) / 2) end_) A2 0 0 start).2.2.1
            (gm_loop1 (pySlice A2 start ((start + end_) / 2))
              (pySlice A2 ((start + end_) / 2) end_) A2 0 0 start).2.2.2.2).1
          (gm_loop1 (pySlice A2 start ((start + end_) / 2))
            (pySlice A2 ((start + end_) / 2) end_) A2 0 0 start).2.2.2.1
          (copy_loop (pySlice A2 start ((start + end_) / 2))
            (gm_loop1 (pySlice A2 start ((start + end_) / 2))
              (pySlice A2 ((start + end_) / 2) end_) A2 0 0 start).2.1
            (gm_loop1 (pySlice A2 start ((start + end_) / 2))
              (pySlice A2 ((start + end_) / 2) end_) A2 0 0 start).2.2.1
            (gm_loop1 (pySlice A2 start ((start + end_) / 2))
              (pySlice A2 ((start + end_) / 2) end_) A2 0 0 start).2.2.2.2).2.2).1
        = setSeg A2 start
            (mergeLists (pySlice A2 start ((start + end_) / 2))
              (pySlice A2 ((start + end_) / 2) end_)) := by
        rw [gm_loop1_eq]
        have hmw : (copy_loop (pySlice A2 ((start + end_) / 2) end_)
            (copy_loop (pySlice A2 start ((start + end_) / 2))
              (mloop1 (pySlice A2 start ((start + end_) / 2))
                (pySlice A2 ((start + end_) / 2) end_) A2 0 0 start).1
              (mloop1 (pySlice A2 start ((start + end_) / 2))
                (pySlice A2 ((start + end_) / 2) end_) A2 0 0 start).2.1
              (mloop1 (pySlice A2 start ((start + end_) / 2))
                (pySlice A2 ((start + end_) / 2) end_) A2 0 0 start).2.2.2).1
            (mloop1 (pySlice A2 start ((start + end_) / 2))
              (pySlice A2 ((start + end_) / 2) end_) A2 0 0 start).2.2.1
            (copy_loop (pySlice A2 start ((start + end_) / 2))
              (mloop1 (pySlice A2 start ((start + end_) / 2))
                (pySlice A2 ((start + end_) / 2) end_) A2 0 0 start).1
              (mloop1 (pySlice A2 start ((start + end_) / 2))
                (pySlice A2 ((start + end_) / 2) end_) A2 0 0 start).2.1
              (mloop1 (pySlice A2 start ((start + end_) / 2))
                (pySlice A2 ((start + end_) / 2) end_) A2 0 0 start).2.2.2).2.2).1
            = merge_write (pySlice A2 start ((start + end_) / 2))
                (pySlice A2 ((start + end_) / 2) end_) A2 0 0 start := rfl
        rw [hmw, merge_write_spec _ _ A2 0 0 start (by omega) (by omega)
          (by
            rw [length_pySlice_of_le A2 start ((start + end_) / 2) (by omega)
                (by omega),
              length_pySlice_of_le A2 ((start + end_) / 2) end_ (by omega)
                (by rw [hA2len]; exact hlen)]
            omega),
          List.drop_zero, List.drop_zero]
      rw [hwr]
      have hmp := g_merge_props A2 start ((start + end_) / 2) end_ (by omega)
        (by omega) (by rw [hA2len]; exact hlen)
      refine ⟨?_, ?_, ?_, ?_⟩
      · rw [hmp.1, hA2len]
      · exact (hmp.2.1.trans hh2.2.1).trans hh1.2.1
      · intro k hk
        rw [hmp.2.2.1 k hk]
        rw [(hh2.2.2.1 k (by
          rcases hk with hk | hk
          · exact Or.inl (by omega)
          · exact Or.inr hk))]
        exact hh1.2.2.1 k (by
          rcases hk with hk | hk
          · exact Or.inl hk
          · exact Or.inr (by omega))
      · refine hmp.2.2.2 ?_ hh2.2.2.2
        refine sortedSeg_transfer A1 A2 start ((start + end_) / 2) ?_ hh1.2.2.2
        intro k hk1 hk2
        exact hh2.2.2.1 k (Or.inl hk2)
    · refine ⟨rfl, List.Perm.refl a, fun k _ => rfl, ?_⟩
      intro p q hp hpq hq
      have hpq2 : p = q := by omega
      rw [hpq2]

theorem gen_mergesort_eq_merge_sort (arr : List Int) :
    (gen_mergesort arr 0 arr.length []).2 = merge_sort arr := by
  by_cases hl : arr.length > 1
  · obtain ⟨g_len, g_perm, g_frame, g_sorted⟩ :=
      gen_mergesort_spec arr.length arr 0 arr.length [] rfl (le_refl _)
    have hq := merge_sort_correct arr
    refine List.eq_of_perm_of_sorted (g_perm.trans hq.1.symm) ?_ hq.2
    set G := (gen_mergesort arr 0 arr.length []).2 with hG
    rw [sortedSeg_iff _ 0 arr.length (le_of_eq g_len.symm)] at g_sorted
    have hfull : pySlice G 0 arr.length = G := by
      rw [show arr.length = G.length from g_len.symm]
      exact pySlice_full G
    rwa [hfull] at g_sorted
  · rw [gen_mergesort.eq_def, dif_neg (by omega), merge_sort, if_neg hl]

end SortProof

namespace SortProof

/-- `bucketsAux` of an empty source list is empty. -/
theorem bucketsAux_nil (exp : Int) : ∀ ds : List Nat, bucketsAux [] exp ds = [] := by
  intro ds
  induction ds with
  | nil => rfl
  | cons d ds ihd =>
    show List.filter (fun x => pyDigit x exp == d) [] ++ bucketsAux [] exp ds = []
    rw [List.filter_nil, List.nil_append, ihd]

theorem bucketsAux_cons_notmem (exp x : Int) (t : List Int) :
    ∀ ds : List Nat, pyDigit x exp ∉ ds →
    bucketsAux (x :: t) exp ds = bucketsAux t exp ds := by
  intro ds
  induction ds with
  | nil => intro hmem; rfl
  | cons d ds ihd =>
    intro hmem
    show List.filter (fun y => pyDigit y exp == d) (x :: t) ++ _ = _
    rw [List.filter_cons, if_neg (by
      simp only [beq_iff_eq]
      intro hh
      exact hmem (by rw [hh]; exact List.mem_cons_self d ds)),
      ihd (fun hh => hmem (List.mem_cons_of_mem d hh))]
    rfl

theorem orderedInsert_append_skip (exp x : Int) :
    ∀ (l1 l2 : List Int), (∀ y ∈ l1, ¬ pyDigit x exp ≤ pyDigit y exp) →
    List.orderedInsert (fun u v => pyDigit u exp ≤ pyDigit v exp) x (l1 ++ l2)
      = l1 ++ List.orderedInsert (fun u v => pyDigit u exp ≤ pyDigit v exp) x l2 := by
  intro l1
  induction l1 with
  | nil =>
    intro l2 hl
    rw [List.nil_append, List.nil_append]
  | cons z zs ihz =>
    intro l2 hl
    rw [List.cons_append, List.orderedInsert,
      if_neg (hl z (List.mem_cons_self z zs)), List.cons_append,
      ihz l2 (fun y hy => hl y (List.mem_cons_of_mem z hy))]

theorem orderedInsert_front (exp x : Int) (l : List Int)
    (hl : ∀ y ∈ l, pyDigit x exp ≤ pyDigit y exp) :
    List.orderedInsert (fun u v => pyDigit u exp ≤ pyDigit v exp) x l
      = x :: l := by
  cases l with
  | nil => rfl
  | cons z zs =>
    rw [List.orderedInsert, if_pos (hl z (List.mem_cons_self z zs))]

theorem oi_buckets (exp x : Int) (t : List Int) :
    ∀ ds : List Nat, ds.Pairwise (· < ·) → pyDigit x exp ∈ ds →
    List.orderedInsert (fun u v => pyDigit u exp ≤ pyDigit v exp) x
      (bucketsAux t exp ds) = bucketsAux (x :: t) exp ds := by
  intro ds
  induction ds with
  | nil =>
    intro hpw hmem
    exact absurd hmem (List.not_mem_nil _)
  | cons d ds ihd =>
    intro hpw hmem
    rw [List.pairwise_cons] at hpw
    rcases Nat.lt_trichotomy (pyDigit x exp) d with hlt | heq | hgt
    · exfalso
      rcases List.mem_cons.mp hmem with hh | hh
      · omega
      · have := hpw.1 _ hh
        omega
    · have hnotmem : pyDigit x exp ∉ ds := by
        intro hh
        have := hpw.1 _ hh
        omega
      have hall : ∀ y ∈ List.filter (fun y => pyDigit y exp == d) t
          ++ bucketsAux t exp ds, pyDigit x exp ≤ pyDigit y exp := by
        intro y hy
        rcases List.mem_append.mp hy with hy | hy
        · have := (List.mem_filter.mp hy).2
          rw [beq_iff_eq] at this
          omega
        · obtain ⟨d2, hd2, hya, hyd⟩ := (mem_bucketsAux t exp ds y).mp hy
          have := hpw.1 _ hd2
          omega
      show List.orderedInsert _ x
          (List.filter (fun y => pyDigit y exp == d) t ++ bucketsAux t exp ds)
        = List.filter (fun y => pyDigit y exp == d) (x :: t)
          ++ bucketsAux (x :: t) exp ds
      rw [orderedInsert_front exp x _ hall,
        List.filter_cons, if_pos (by simp [heq]),
        bucketsAux_cons_notmem exp x t ds hnotmem, List.cons_append]
    · have hmem2 : pyDigit x exp ∈ ds := by
        rcases List.mem_cons.mp hmem with hh | hh
        · omega
        · exact hh
      show List.orderedInsert _ x
          (List.filter (fun y => pyDigit y exp == d) t ++ bucketsAux t exp ds)
        = List.filter (fun y => pyDigit y exp == d) (x :: t)
          ++ bucketsAux (x :: t) exp ds
      rw [orderedInsert_append_skip exp x _ _ (by
        intro y hy
        have := (List.mem_filter.mp hy).2
        rw [beq_iff_eq] at this
        omega),
        ihd hpw.2 hmem2, List.filter_cons, if_neg (by
          simp only [beq_iff_eq]
          omega)]

/-- Python's stable `sorted(arr, key=lambda x: (x // exp) % 10)`, modelled
as insertion sort on the digit key (insertion sort with a non-strict key
comparison is the canonical stable sort), equals the digit-bucket join. -/
theorem insertionSort_digit_eq_buckets (exp : Int) :
    ∀ a : List Int,
    List.insertionSort (fun u v => pyDigit u exp ≤ pyDigit v exp) a
      = bucketsAux a exp (List.range 10) := by
  intro a
  induction a with
  | nil =>
    rw [bucketsAux_nil]
    rfl
  | cons x t iht =>
    rw [List.insertionSort, iht]
    exact oi_buckets exp x t (List.range 10) (List.pairwise_lt_range 10)
      (List.mem_range.mpr (pyDigit_lt_ten x exp))

end SortProof

namespace SortProof

/-- The write-back loop of `_gen_radixsort`: positions where the array
already equals `output` are skipped, others are overwritten with a step. -/
def gr_write (output : List Int) (a : List Int) : List GStep × List Int :=
  (List.range a.length).foldl
    (fun (acc : List GStep × List Int) i =>
      if geti acc.2 i ≠ geti output i then
        let a2 := acc.2.set i (geti output i)
        (acc.1 ++ [GStep.s3 a2 [(i, "swapping")]
          ("Place " ++ toString (geti a2 i))], a2)
      else acc)
    ([], a)

theorem gr_write_arr (output a : List Int) (hlen : output.length = a.length) :
    (gr_write output a).2 = output := by
  rw [gr_write]
  have hgen : ∀ (m : Nat), m ≤ a.length → ∀ (st : List GStep) (b : List Int),
      b.length = a.length →
      (((List.range m).foldl
        (fun (acc : List GStep × List Int) i =>
          if geti acc.2 i ≠ geti output i then
            let a2 := acc.2.set i (geti output i)
            (acc.1 ++ [GStep.s3 a2 [(i, "swapping")]
              ("Place " ++ toString (geti a2 i))], a2)
          else acc) (st, b)).2.length = a.length ∧
       ∀ i, geti ((List.range m).foldl
        (fun (acc : List GStep × List Int) i =>
          if geti acc.2 i ≠ geti output i then
            let a2 := acc.2.set i (geti output i)
            (acc.1 ++ [GStep.s3 a2 [(i, "swapping")]
              ("Place " ++ toString (geti a2 i))], a2)
          else acc) (st, b)).2 i
        = if i < m then geti output i else geti b i) := by
    intro m
    induction m with
    | zero =>
      intro hm st b hblen
      refine ⟨hblen, ?_⟩
      intro i
      rw [if_neg (by omega)]
      rfl
    | succ m ihm =>
      intro hm st b hblen
      obtain ⟨ihlen, ihget⟩ := ihm (by omega) st b hblen
      rw [List.range_succ, List.foldl_append, List.foldl_cons, List.foldl_nil]
      by_cases hne : geti ((List.range m).foldl
          (fun (acc : List GStep × List Int) i =>
            if geti acc.2 i ≠ geti output i then
              let a2 := acc.2.set i (geti output i)
              (acc.1 ++ [GStep.s3 a2 [(i, "swapping")]
                ("Place " ++ toString (geti a2 i))], a2)
            else acc) (st, b)).2 m ≠ geti output m
      · rw [if_pos hne]
        dsimp only
        refine ⟨by rw [List.length_set, ihlen], ?_⟩
        intro i
        by_cases him : i = m
        · rw [him, geti_set_self _ _ _ (by rw [ihlen]; omega),
            if_pos (by omega)]
        · rw [geti_set_ne _ _ _ _ (fun hh => him hh.symm), ihget i]
          by_cases hilt : i < m
          · rw [if_pos hilt, if_pos (by omega)]
          · rw [if_neg hilt, if_neg (by omega)]
      · rw [if_neg hne]
        push_neg at hne
        refine ⟨ihlen, ?_⟩
        intro i
        rw [ihget i]
        by_cases him : i = m
        · rw [him, if_neg (by omega), if_pos (by omega), ← hne, ihget m,
            if_neg (by omega)]
        · by_cases hilt : i < m
          · rw [if_pos hilt, if_pos (by omega)]
          · rw [if_neg hilt, if_neg (by omega)]
  obtain ⟨hrlen, hrget⟩ := hgen a.length (le_refl _) [] a rfl
  apply ext_geti _ _ (by rw [hrlen, hlen])
  intro i hi
  rw [hrget i, if_pos (by omega)]

/-- The digit-pass loop of `_gen_radixsort`, with the per-digit banner and
write-back steps. -/
def gr_loop (max_val : Int) (a : List Int) (exp : Int) (digit_pos : Nat) :
    List GStep × List Int :=
  if h : 0 < max_val.fdiv exp then
    let st := GStep.s3 a [] ("Sorting by DIGIT " ++ toString digit_pos)
    let output := List.insertionSort (fun u v => pyDigit u exp ≤ pyDigit v exp) a
    let rw1 := gr_write output a
    let r := gr_loop max_val rw1.2 (exp * 10) (digit_pos + 1)
    (st :: rw1.1 ++ r.1, r.2)
  else ([], a)
termination_by (max_val.fdiv exp).toNat
decreasing_by exact fdiv_mul_ten_toNat_lt h

theorem gr_loop_arr (max_val : Int) :
    ∀ (n : Nat) (a : List Int) (exp : Int) (digit_pos : Nat),
    (max_val.fdiv exp).toNat = n →
    (gr_loop max_val a exp digit_pos).2 = radix_loop max_val a exp := by
  intro n
  induction n using Nat.strong_induction_on with
  | _ n ih =>
    intro a exp digit_pos hn
    rw [gr_loop.eq_def, radix_loop.eq_def]
    split_ifs with h
    · dsimp only
      have hw : (gr_write
          (List.insertionSort (fun u v => pyDigit u exp ≤ pyDigit v exp) a) a).2
          = counting_sort_by_digit a exp := by
        rw [gr_write_arr _ a (List.length_insertionSort _ a),
          insertionSort_digit_eq_buckets, counting_sort_eq_buckets]
      rw [hw]
      exact ih ((max_val.fdiv (exp * 10)).toNat)
        (by rw [← hn]; exact fdiv_mul_ten_toNat_lt h) _ (exp * 10)
        (digit_pos + 1) rfl
    · rfl

/-- `_gen_radixsort` from gui.py: early return on an empty array or a zero
maximum, otherwise the digit passes. Returns `(steps, array)`. -/
def gen_radixsort (arr : List Int) : List GStep × List Int :=
  if arr.isEmpty ∨ pyMax arr = 0 then ([], arr)
  else gr_loop (pyMax arr) arr 1 1

theorem gen_radixsort_eq_radix_sort (arr : List Int) :
    (gen_radixsort arr).2 = radix_sort arr := by
  rw [gen_radixsort, radix_sort]
  by_cases he : arr.isEmpty
  · rw [if_pos (Or.inl he), if_pos he]
  · by_cases h0 : pyMax arr = 0
    · rw [if_pos (Or.inr h0), if_neg he, h0, radix_loop.eq_def,
        dif_neg (by rw [Int.zero_fdiv]; omega)]
    · rw [if_neg (not_or.mpr ⟨he, h0⟩), if_neg he]
      exact gr_loop_arr (pyMax arr) ((pyMax arr).fdiv 1).toNat arr 1 1 rfl

end SortProof

namespace SortProof

/-- `ALGORITHM_MAP` from algorithms.py. -/
def ALGORITHM_MAP : List (String × (List Int → List Int)) :=
  [("Quick Sort", quick_sort),
   ("Heap Sort", heap_sort),
   ("Shell Sort", shell_sort),
   ("Merge Sort", merge_sort),
   ("Radix Sort", radix_sort)]

/-- `_generate_steps` from gui.py: dispatch on the algorithm name (any
unknown name falls through to the radix generator), then append the final
all-sorted step.  Only the heap generator can raise (the `IndexError` of
`_gen_heapsort` on the empty array); an exception propagates and the
final step is never appended. -/
def generate_trace (name : String) (array : List Int) :
    Except String (List GStep) :=
  let arr := array
  let r : Except String (List GStep × List Int) :=
    if name = "Quick Sort" then
      Except.ok ((gen_quicksort arr 0 (arr.length - 1) []).1,
       (gen_quicksort arr 0 (arr.length - 1) []).2.1)
    else if name = "Heap Sort" then gen_heapsort arr
    else if name = "Shell Sort" then Except.ok (gen_shellsort arr)
    else if name = "Merge Sort" then Except.ok (gen_mergesort arr 0 arr.length [])
    else Except.ok (gen_radixsort arr)
  match r with
  | Except.ok p =>
      Except.ok (p.1 ++ [GStep.s4 p.2 (allSortedDict p.2.length) []
        "Sorting Complete!"])
  | Except.error e => Except.error e

theorem range_filter_eq (i : Nat) :
    ∀ n : Nat, (List.range n).filter (fun j => j == i)
      = if i < n then [i] else [] := by
  intro n
  induction n with
  | zero => rw [if_neg (by omega)]; rfl
  | succ n ihn =>
    rw [List.range_succ, List.filter_append, ihn]
    by_cases hin : i < n
    · rw [if_pos hin, if_pos (by omega)]
      rw [show List.filter (fun j => j == i) [n] = [] from by
        simp [List.filter_cons]
        omega]
        
      rw [List.append_nil]
    · rw [if_neg hin]
      by_cases hieq : i = n
      · rw [if_pos (by omega)]
        rw [show List.filter (fun j => j == i) [n] = [n] from by
          simp [List.filter_cons, hieq]]
        rw [List.nil_append, hieq]
      · rw [if_neg (by omega)]
        rw [show List.filter (fun j => j == i) [n] = [] from by
          simp [List.filter_cons]
          omega]
        rfl

theorem dictGet_allSorted (n i : Nat) (h : i < n) :
    dictGet (allSortedDict n) i = some "sorted" := by
  rw [dictGet, allSortedDict, List.filter_map]
  have hcomp : ((fun p => p.1 == i) ∘ fun j => ((j, "sorted") : Nat × String))
      = fun j => j == i := rfl
  rw [hcomp, range_filter_eq i n, if_pos h]
  rfl

end SortProof

namespace SortProof

/-! ### Claim C2: trace generation -/

/-- Claim C2 — counterexample. The claim quantifies over every algorithm
and every input array, but running `_generate_steps` for "Heap Sort" on
the empty array raises `IndexError`: after the build loop `_gen_heapsort`
formats the banner "MAX HEAP ready! Root = arr[0] (largest)", an
unconditional `arr[0]` read that fails on the empty list, so no step list
— and in particular no final all-sorted step — is ever produced. -/
theorem c2_trace_heap_empty_counterexample :
    ("Heap Sort", heap_sort) ∈ ALGORITHM_MAP ∧
    generate_trace "Heap Sort" []
      = Except.error "IndexError: list index out of range" := by
  refine ⟨List.mem_cons_of_mem _ (List.mem_cons_self _ _), ?_⟩
  rw [generate_trace]
  simp only [String.reduceEq, reduceIte, if_true, if_false]
  rw [gen_heapsort_empty]

/-- Claim C2 — amended. For every algorithm of `ALGORITHM_MAP` and every
input array — except "Heap Sort" on the empty array, where trace
generation raises `IndexError` and produces nothing — `_generate_steps`
returns a non-empty step list; its last step is the unconditionally
appended "Sorting Complete!" step, whose highlight dict marks every index
`sorted` and whose snapshot equals the output of the corresponding engine
sort function on the same input. -/
theorem c2_generate_trace_amended (name : String) (f : List Int → List Int)
    (array : List Int) (hmap : (name, f) ∈ ALGORITHM_MAP)
    (hne : name = "Heap Sort" → array ≠ []) :
    ∃ steps : List GStep, generate_trace name array = Except.ok steps ∧
      steps ≠ [] ∧
      steps.getLast?
        = some (GStep.s4 (f array) (allSortedDict (f array).length) []
            "Sorting Complete!") ∧
      (∀ i, i < (f array).length →
        dictGet (allSortedDict (f array).length) i = some "sorted") := by
  simp only [ALGORITHM_MAP, List.mem_cons, List.mem_singleton,
    Prod.mk.injEq, List.not_mem_nil, or_false] at hmap
  rcases hmap with ⟨h1, h2⟩ | ⟨h1, h2⟩ | ⟨h1, h2⟩ | ⟨h1, h2⟩ | ⟨h1, h2⟩ <;>
    subst h1 <;> subst h2 <;>
    rw [generate_trace] <;>
    simp only [String.reduceEq, reduceIte, if_true, if_false]
  · refine ⟨_, rfl, by simp, ?_, fun i hi => dictGet_allSorted _ i hi⟩
    rw [gen_quicksort_eq_quick_sort]
    exact List.getLast?_concat _
  · obtain ⟨st, hok⟩ := gen_heapsort_ok array (hne rfl)
    rw [hok]
    exact ⟨_, rfl, by simp, List.getLast?_concat _,
      fun i hi => dictGet_allSorted _ i hi⟩
  · refine ⟨_, rfl, by simp, ?_, fun i hi => dictGet_allSorted _ i hi⟩
    rw [gen_shellsort_eq_shell_sort]
    exact List.getLast?_concat _
  · refine ⟨_, rfl, by simp, ?_, fun i hi => dictGet_allSorted _ i hi⟩
    rw [gen_mergesort_eq_merge_sort]
    exact List.getLast?_concat _
  · refine ⟨_, rfl, by simp, ?_, fun i hi => dictGet_allSorted _ i hi⟩
    rw [gen_radixsort_eq_radix_sort]
    exact List.getLast?_concat _

theorem c2_generate_trace_amended_witness :
    ("Heap Sort", heap_sort) ∈ ALGORITHM_MAP ∧
    (∃ steps : List GStep,
      generate_trace "Heap Sort" [2, 1] = Except.ok steps ∧
      steps ≠ [] ∧
      steps.getLast?
        = some (GStep.s4 (heap_sort [2, 1])
            (allSortedDict (heap_sort [2, 1]).length) []
            "Sorting Complete!") ∧
      (∀ i, i < (heap_sort [2, 1]).length →
        dictGet (allSortedDict (heap_sort [2, 1]).length) i
          = some "sorted")) :=
  ⟨List.mem_cons_of_mem _ (List.mem_cons_self _ _),
   c2_generate_trace_amended "Heap Sort" heap_sort [2, 1]
     (List.mem_cons_of_mem _ (List.mem_cons_self _ _))
     (fun _ => List.cons_ne_nil _ _)⟩

end SortProof

namespace SortProof

/-! ### Claim C3: gui quicksort versus engine quicksort -/

/-- The pivot values used by the engine's `quick_sort`, in partition order:
each partition announces the value at `high` after the median-of-three
candidate was swapped there. -/
def qs_pivots (a : List Int) (low high : Nat) : List Int :=
  if h : low < high then
    geti (lswap a (median_of_three a low high) high) high
      :: (qs_pivots (partition a low high).1 low ((partition a low high).2 - 1)
        ++ qs_pivots (partition a low high).1 ((partition a low high).2 + 1) high)
  else []
termination_by high - low
decreasing_by
  · have := partition_idx_bounds a low high h
    omega
  · have := partition_idx_bounds a low high h
    omega

/-- The pivot values announced by `_gen_quicksort` in gui.py, in partition
order: each call announces `arr[hi]` (`PIVOT: {pivot_val}`), with no
median-of-three selection. -/
def gq_pivots (a : List Int) (lo hi : Nat) : List Int :=
  if h : lo < hi then
    geti a hi
      :: (gq_pivots (g_partition a lo hi).1 lo ((g_partition a lo hi).2 - 1)
        ++ gq_pivots (g_partition a lo hi).1 ((g_partition a lo hi).2 + 1) hi)
  else []
termination_by hi - lo
decreasing_by
  · have := g_partition_idx_bounds a lo hi h
    omega
  · have := g_partition_idx_bounds a lo hi h
    omega

/-- On `[2, 3, 1]` the engine's first partition picks the median-of-three
pivot value `2`, while the gui generator announces the last element `1`:
the two traces make different pivot selections. -/
theorem c3_pivot_counterexample :
    (gq_pivots [2, 3, 1] 0 2).head? = some 1 ∧
    (qs_pivots [2, 3, 1] 0 2).head? = some 2 ∧
    (gq_pivots [2, 3, 1] 0 2).head? ≠ (qs_pivots [2, 3, 1] 0 2).head? := by
  have h1 : (gq_pivots [2, 3, 1] 0 2).head? = some 1 := by
    rw [gq_pivots.eq_def, dif_pos (by decide), List.head?_cons]
    decide
  have h2 : (qs_pivots [2, 3, 1] 0 2).head? = some 2 := by
    rw [qs_pivots.eq_def, dif_pos (by decide), List.head?_cons]
    decide
  refine ⟨h1, h2, ?_⟩
  rw [h1, h2]
  decide

/-- Claim C3 — corrected. The gui Quick Sort generator picks each
partition's pivot as the value at the range's last index `hi`, not by
median-of-three; its intermediate decisions therefore differ from the
engine's. What does hold is cross-validation of the results: the final
array of the gui generator equals `quick_sort`'s output on every input. -/
theorem c3_gui_quicksort_amended (arr : List Int) :
    (∀ (lo hi : Nat) (a : List Int), lo < hi →
      (gq_pivots a lo hi).head? = some (geti a hi)) ∧
    (gen_quicksort arr 0 (arr.length - 1) []).2.1 = quick_sort arr := by
  constructor
  · intro lo hi a h
    rw [gq_pivots.eq_def, dif_pos h, List.head?_cons]
  · exact gen_quicksort_eq_quick_sort arr

theorem c3_gui_quicksort_amended_witness :
    0 < 1 ∧ (gq_pivots [3, 5] 0 1).head? = some (geti [3, 5] 1) :=
  ⟨by decide, (c3_gui_quicksort_amended [3, 5]).1 0 1 [3, 5] (by decide)⟩

end SortProof

namespace SortProof

/-! ### Claim C8: the caller's list is never mutated -/

/-- A heap of Python list objects: references are indices into the store. -/
structure Mem where
  store : List (List Int)

/-- Dereference a list object. -/
def readRef (m : Mem) (r : Nat) : List Int := m.store.getD r []

/-- In-place update of the list object behind `r` (the effect of all the
index assignments a sort performs on one list between returns). -/
def writeRef (m : Mem) (r : Nat) (v : List Int) : Mem :=
  ⟨m.store.set r v⟩

/-- `arr.copy()`: allocate a fresh list object with the same elements and
return its reference. -/
def alloc (m : Mem) (v : List Int) : Mem × Nat :=
  (⟨m.store ++ [v]⟩, m.store.length)

/-- `SortAlgorithms.quick_sort` at the heap level: copy the argument, run
the in-place helper on the copy (its net effect on the fresh object is
`quick_sort_helper`), return the copy's reference. -/
def quick_sortM (m : Mem) (r : Nat) : Mem × Nat :=
  let v := readRef m r
  let a := alloc m v
  let m2 := if (readRef a.1 a.2).length > 1
    then writeRef a.1 a.2
      (quick_sort_helper (readRef a.1 a.2) 0 ((readRef a.1 a.2).length - 1))
    else a.1
  (m2, a.2)

/-- `SortAlgorithms.heap_sort` at the heap level. -/
def heap_sortM (m : Mem) (r : Nat) : Mem × Nat :=
  let v := readRef m r
  let a := alloc m v
  let n := (readRef a.1 a.2).length
  let m2 := writeRef a.1 a.2
    ((range_down ((n : Int) - 1) 0).foldl
      (fun b i => heapify (lswap b 0 i.toNat) i.toNat 0)
      ((range_down ((n : Int) / 2 - 1) (-1)).foldl
        (fun b i => heapify b n i.toNat) (readRef a.1 a.2)))
  (m2, a.2)

/-- `SortAlgorithms.shell_sort` at the heap level. -/
def shell_sortM (m : Mem) (r : Nat) : Mem × Nat :=
  let v := readRef m r
  let a := alloc m v
  let m2 := writeRef a.1 a.2
    (gap_loop (readRef a.1 a.2) (gap_grow (readRef a.1 a.2).length 1))
  (m2, a.2)

/-- `SortAlgorithms.merge_sort` at the heap level. -/
def merge_sortM (m : Mem) (r : Nat) : Mem × Nat :=
  let v := readRef m r
  let a := alloc m v
  let m2 := if (readRef a.1 a.2).length > 1
    then writeRef a.1 a.2
      (merge_sort_helper (readRef a.1 a.2) 0 ((readRef a.1 a.2).length - 1))
    else a.1
  (m2, a.2)

/-- `SortAlgorithms.radix_sort` at the heap level: the empty early return
also allocates a copy. -/
def radix_sortM (m : Mem) (r : Nat) : Mem × Nat :=
  let v := readRef m r
  if v.isEmpty then alloc m v
  else
    let a := alloc m v
    let m2 := writeRef a.1 a.2
      (radix_loop (pyMax (readRef a.1 a.2)) (readRef a.1 a.2) 1)
    (m2, a.2)

theorem readRef_alloc_old (m : Mem) (v : List Int) (r : Nat)
    (h : r < m.store.length) : readRef (alloc m v).1 r = readRef m r := by
  simp [readRef, alloc, List.getD_eq_getElem?_getD, List.getElem?_append_left h]

theorem readRef_alloc_new (m : Mem) (v : List Int) :
    readRef (alloc m v).1 (alloc m v).2 = v := by
  simp [readRef, alloc, List.getD_eq_getElem?_getD,
    List.getElem?_append_right (le_refl m.store.length)]

theorem alloc_fresh (m : Mem) (v : List Int) :
    (alloc m v).2 = m.store.length := rfl

theorem readRef_write_other (m : Mem) (r r2 : Nat) (v : List Int)
    (h : r ≠ r2) : readRef (writeRef m r v) r2 = readRef m r2 := by
  simp [readRef, writeRef, List.getD_eq_getElem?_getD, List.getElem?_set_ne h]

theorem readRef_write_same (m : Mem) (r : Nat) (v : List Int)
    (h : r < m.store.length) : readRef (writeRef m r v) r = v := by
  simp [readRef, writeRef, List.getD_eq_getElem?_getD,
    List.getElem?_set_self', h]

/-- Claim C8 — confirmed. For a valid reference `r`, each of the five
heap-level sort functions leaves the caller's list object untouched,
returns a reference distinct from `r`, and that fresh reference holds
exactly the value of the corresponding pure sort of the argument. -/
theorem c8_no_mutation (m : Mem) (r : Nat) (h : r < m.store.length) :
    (readRef (quick_sortM m r).1 r = readRef m r ∧
     (quick_sortM m r).2 ≠ r ∧
     readRef (quick_sortM m r).1 (quick_sortM m r).2
       = quick_sort (readRef m r)) ∧
    (readRef (heap_sortM m r).1 r = readRef m r ∧
     (heap_sortM m r).2 ≠ r ∧
     readRef (heap_sortM m r).1 (heap_sortM m r).2
       = heap_sort (readRef m r)) ∧
    (readRef (shell_sortM m r).1 r = readRef m r ∧
     (shell_sortM m r).2 ≠ r ∧
     readRef (shell_sortM m r).1 (shell_sortM m r).2
       = shell_sort (readRef m r)) ∧
    (readRef (merge_sortM m r).1 r = readRef m r ∧
     (merge_sortM m r).2 ≠ r ∧
     readRef (merge_sortM m r).1 (merge_sortM m r).2
       = merge_sort (readRef m r)) ∧
    (readRef (radix_sortM m r).1 r = readRef m r ∧
     (radix_sortM m r).2 ≠ r ∧
     readRef (radix_sortM m r).1 (radix_sortM m r).2
       = radix_sort (readRef m r)) := by
  have hfresh : m.store.length ≠ r := by omega
  have hA2 : (alloc m (readRef m r)).2 ≠ r := hfresh
  have hA2lt : (alloc m (readRef m r)).2
      < (alloc m (readRef m r)).1.store.length := by
    simp [alloc]
  refine ⟨⟨?_, ?_, ?_⟩, ⟨?_, ?_, ?_⟩, ⟨?_, ?_, ?_⟩, ⟨?_, ?_, ?_⟩, ⟨?_, ?_, ?_⟩⟩
  · rw [quick_sortM]
    dsimp only
    split_ifs with hc
    · rw [readRef_write_other _ _ _ _ hA2, readRef_alloc_old m _ r h]
    · rw [readRef_alloc_old m _ r h]
  · exact hfresh
  · rw [quick_sortM]
    dsimp only
    rw [readRef_alloc_new m (readRef m r)]
    split_ifs with hc
    · rw [readRef_write_same _ _ _ hA2lt, quick_sort, if_pos hc]
    · rw [readRef_alloc_new m (readRef m r), quick_sort, if_neg hc]
  · rw [heap_sortM]
    dsimp only
    rw [readRef_write_other _ _ _ _ hA2, readRef_alloc_old m _ r h]
  · exact hfresh
  · rw [heap_sortM]
    dsimp only
    rw [readRef_alloc_new m (readRef m r), readRef_write_same _ _ _ hA2lt,
      heap_sort]
  · rw [shell_sortM]
    dsimp only
    rw [readRef_write_other _ _ _ _ hA2, readRef_alloc_old m _ r h]
  · exact hfresh
  · rw [shell_sortM]
    dsimp only
    rw [readRef_alloc_new m (readRef m r), readRef_write_same _ _ _ hA2lt,
      shell_sort]
  · rw [merge_sortM]
    dsimp only
    split_ifs with hc
    · rw [readRef_write_other _ _ _ _ hA2, readRef_alloc_old m _ r h]
    · rw [readRef_alloc_old m _ r h]
  · exact hfresh
  · rw [merge_sortM]
    dsimp only
    rw [readRef_alloc_new m (readRef m r)]
    split_ifs with hc
    · rw [readRef_write_same _ _ _ hA2lt, merge_sort, if_pos hc]
    · rw [readRef_alloc_new m (readRef m r), merge_sort, if_neg hc]
  · rw [radix_sortM]
    dsimp only
    split_ifs with hc
    · rw [readRef_alloc_old m _ r h]
    · rw [readRef_write_other _ _ _ _ hA2, readRef_alloc_old m _ r h]
  · rw [radix_sortM]
    dsimp only
    split_ifs with hc
    · exact hfresh
    · exact hfresh
  · rw [radix_sortM]
    dsimp only
    split_ifs with hc
    · rw [readRef_alloc_new m (readRef m r), radix_sort, if_pos hc]
    · rw [readRef_alloc_new m (readRef m r), readRef_write_same _ _ _ hA2lt,
        radix_sort, if_neg hc]

theorem c8_no_mutation_witness :
    0 < (Mem.mk [[2, 1]]).store.length ∧
      readRef (quick_sortM (Mem.mk [[2, 1]]) 0).1 0
        = readRef (Mem.mk [[2, 1]]) 0 :=
  ⟨by decide, (c8_no_mutation (Mem.mk [[2, 1]]) 0 (by decide)).1.1⟩

end SortProof
